import Mathlib

/-!
Verification of the diff-decomposition and tour-ordering engine of the
mentor extension.  The TypeScript sources are shallowly embedded as pure
Lean functions: in-place mutation becomes explicit state passing, the
external collaborators (file system, git, tree-sitter and TypeScript
syntax trees) become function-valued parameters, and JavaScript `Map` /
`Set` objects become insertion-ordered association lists, matching their
iteration semantics.  Machine numbers in the sources are line counters
and list indices, always non-negative, and are embedded as `Nat`.
-/

namespace Mentor

/-! ### JavaScript-style helpers

`Map` keeps keys in first-insertion order and `set` overwrites in place;
`Set` keeps elements in insertion order and `add` is a no-op on a member.
`Array.prototype.sort` is a stable sort driven by a comparator; it is
embedded as a stable insertion sort `jsSortBy`, extensionally equal to
any stable sort for the (consistent, lexicographic) comparators the
sources use.  String comparison by `localeCompare` and `<` is embedded
as the code-point order on `String`.
-/

def alGet {κ α : Type} [DecidableEq κ] (m : List (κ × α)) (k : κ) : Option α :=
  (m.find? (fun e => e.1 = k)).map (·.2)

def alSet {κ α : Type} [DecidableEq κ] (m : List (κ × α)) (k : κ) (v : α) :
    List (κ × α) :=
  match m with
  | [] => [(k, v)]
  | e :: rest => if e.1 = k then (k, v) :: rest else e :: alSet rest k v

def setAdd {α : Type} [DecidableEq α] (s : List α) (x : α) : List α :=
  if x ∈ s then s else s ++ [x]

def insertCmpAsc {α : Type} (cmp : α → α → Int) (x : α) : List α → List α
  | [] => [x]
  | y :: ys => if cmp y x ≤ 0 then y :: insertCmpAsc cmp x ys else x :: y :: ys

def jsSortBy {α : Type} (cmp : α → α → Int) (l : List α) : List α :=
  l.foldl (fun acc x => insertCmpAsc cmp x acc) []

def charsLt : List Char → List Char → Bool
  | [], [] => false
  | [], _ :: _ => true
  | _ :: _, [] => false
  | a :: as, b :: bs => if a < b then true else if b < a then false else charsLt as bs

/-- Code-point comparison of strings (JavaScript `<` and the embedding
of `localeCompare`); written on char lists so the kernel can evaluate it. -/
def strLt (a b : String) : Bool := charsLt a.data b.data

def strToLower (s : String) : String := String.mk (s.data.map Char.toLower)

def splitOnCharAux (sep : Char) : List Char → List Char → List (List Char)
  | [], acc => [acc.reverse]
  | c :: rest, acc =>
      if c = sep then acc.reverse :: splitOnCharAux sep rest []
      else splitOnCharAux sep rest (c :: acc)

/-- `String.prototype.split('.')`. -/
def strSplitOnDot (s : String) : List String :=
  (splitOnCharAux '.' s.data []).map (fun cs => String.mk cs)

def strCmp (a b : String) : Int :=
  if strLt a b then -1 else if strLt b a then 1 else 0

def natCmp (a b : Nat) : Int := (a : Int) - (b : Int)

def isSpaceChar (c : Char) : Bool :=
  c = ' ' || c = '\t' || c = '\r' || c = '\n'

/-- Splitting on the regex `\r?\n`, as `String.prototype.split` does. -/
def splitLinesChars : List Char → List Char → List (List Char)
  | [], acc => [acc.reverse]
  | '\r' :: '\n' :: rest, acc => acc.reverse :: splitLinesChars rest []
  | '\n' :: rest, acc => acc.reverse :: splitLinesChars rest []
  | c :: rest, acc => splitLinesChars rest (c :: acc)

def jsSplitLines (s : String) : List String :=
  (splitLinesChars s.data []).map (fun cs => String.mk cs)

def jsTrim (s : String) : String :=
  String.mk (((s.data.dropWhile isSpaceChar).reverse.dropWhile isSpaceChar).reverse)

def charsHaveAt : List Char → List Char → Bool
  | _, [] => true
  | [], _ :: _ => false
  | c :: cs, p :: ps => c = p && charsHaveAt cs ps

/-- `String.prototype.startsWith` / `endsWith` on code points. -/
def strStartsWith (s pre : String) : Bool := charsHaveAt s.data pre.data

def strEndsWith (s suf : String) : Bool :=
  charsHaveAt s.data.reverse suf.data.reverse

/-- The index of the first occurrence of `pat` in `s` at or after
position `from0`, as `String.prototype.indexOf` reports one. -/
def strIndexOfFromChars (cs pat : List Char) (i : Nat) : Option Nat :=
  match cs with
  | [] => if pat = [] then some i else none
  | _ :: rest =>
      if charsHaveAt cs pat then some i
      else strIndexOfFromChars rest pat (i + 1)

def strIndexOf (s pat : String) : Option Nat :=
  strIndexOfFromChars s.data pat.data 0

def strIndexOfFrom (s pat : String) (from0 : Nat) : Option Nat :=
  match strIndexOfFromChars (s.data.drop from0) pat.data 0 with
  | none => none
  | some j => some (from0 + j)

/-! ### Node `path` collaborators

Only the fragments of Node's `path` module the sources touch are
modelled.  `path.normalize` is the identity here: the verified claims
never exercise redundant separators or dot segments, which are all that
function rewrites on forward-slash paths. -/

def pathIsAbsolute (p : String) : Bool := strStartsWith p "/"

def pathJoin (a b : String) : String := a ++ "/" ++ b

def pathNormalize (p : String) : String := p

def replaceBackslashes (p : String) : String :=
  String.mk (p.data.map (fun c => if c = '\\' then '/' else c))

/-- The extension of a path with its dot (`path.extname`): the part of
the last path segment from its final dot on, empty when the segment has
no dot or only a leading one. -/
def pathExtname (p : String) : String :=
  let base := ((p.data.reverse.takeWhile (fun c => c ≠ '/')).reverse)
  let afterDot := base.reverse.takeWhile (fun c => c ≠ '.')
  if afterDot.length = base.length then ""
  else if afterDot.length + 1 = base.length then ""
  else String.mk ('.' :: afterDot.reverse)

/-! ### Data model (`models.ts`) -/

inductive Language
  | javascript
  | typescript
  | python
deriving DecidableEq

structure LineRange where
  startLine : Nat
  endLine : Nat
deriving DecidableEq

inductive ChangeKind
  | definition
  | operation
  | global
deriving DecidableEq

inductive ChangeType
  | add
  | remove
  | modify
  | unknown
deriving DecidableEq

structure RelatedCall where
  name : String
  qualifiedName : Option String
  range : LineRange
deriving DecidableEq

structure IntroducedDefinition where
  name : String
  type : String
  range : LineRange
deriving DecidableEq

structure CodeRegion where
  filePath : String
  range : LineRange
  label : Option String
deriving DecidableEq

structure ChangeUnit where
  filePath : String
  range : LineRange
  diffText : String
  symbolName : Option String := none
  changeKind : Option ChangeKind := none
  changeType : Option ChangeType := none
  definitionName : Option String := none
  definitionType : Option String := none
  elementKind : Option String := none
  qualifiedName : Option String := none
  containerName : Option String := none
  segmentId : Option String := none
  introducedDefinitions : Option (List IntroducedDefinition) := none
  relatedCalls : Option (List RelatedCall) := none
  backgroundRegions : Option (List CodeRegion) := none
  isOverall : Option Bool := none
deriving DecidableEq

inductive TourStepType
  | background
  | main
deriving DecidableEq

/-- The `ChangeUnit | CodeRegion` union of `TourStep.target`, made a
tagged variant.  The sources discriminate it by the structural test
`'diffText' in target`, which holds exactly of the `unit` side. -/
inductive StepTarget
  | unit (u : ChangeUnit)
  | region (r : CodeRegion)
deriving DecidableEq

structure TourStep where
  id : String
  type : TourStepType
  target : StepTarget
  explanation : String
deriving DecidableEq

def StepTarget.filePath : StepTarget → String
  | .unit u => u.filePath
  | .region r => r.filePath

def StepTarget.range : StepTarget → LineRange
  | .unit u => u.range
  | .region r => r.range

def isWithinRange (range : LineRange) (lineNumber : Nat) : Bool :=
  range.startLine ≤ lineNumber && lineNumber ≤ range.endLine

def rangesOverlap (a b : LineRange) : Bool :=
  a.startLine ≤ b.endLine && b.startLine ≤ a.endLine

/-! ### Language detection (`ast/language.ts`) -/

def JS_EXTENSIONS : List String := [".js", ".cjs", ".mjs", ".jsx"]

def TS_EXTENSIONS : List String := [".ts", ".tsx"]

def PY_EXTENSIONS : List String := [".py"]

def detectLanguageFromPath (filePath : String) : Option Language :=
  let ext := strToLower (pathExtname filePath)
  if ext ∈ JS_EXTENSIONS then some .javascript
  else if ext ∈ TS_EXTENSIONS then some .typescript
  else if ext ∈ PY_EXTENSIONS then some .python
  else none

/-! ### Diff parsing (`changeUnitParser.ts`, part 1)

`HUNK_HEADER` is the regex `@@ -(\d+)(?:,(\d+))? \+(\d+)(?:,(\d+))? @@`,
searched anywhere in a line by `exec`; only the new-side captures (groups
3 and 4) are read by the sources. -/

def digitsVal (ds : List Char) : Nat :=
  ds.foldl (fun n c => n * 10 + (c.toNat - 48)) 0

def parseDigitsChars (cs : List Char) : Option (Nat × List Char) :=
  let ds := cs.takeWhile Char.isDigit
  if ds.isEmpty then none
  else some (digitsVal ds, cs.drop ds.length)

def consumeLit (lit : List Char) (cs : List Char) : Option (List Char) :=
  if charsHaveAt cs lit then some (cs.drop lit.length) else none

def consumeOptCommaDigits (cs : List Char) : Option Nat × List Char :=
  match cs with
  | ',' :: rest =>
      match parseDigitsChars rest with
      | some (n, cs2) => (some n, cs2)
      | none => (none, cs)
  | _ => (none, cs)

def tryHunkHeaderAt (cs : List Char) : Option (Nat × Option Nat) := do
  let cs ← consumeLit ['@', '@', ' ', '-'] cs
  let (_, cs) ← parseDigitsChars cs
  let (_, cs) := consumeOptCommaDigits cs
  let cs ← consumeLit [' ', '+'] cs
  let (newStart, cs) ← parseDigitsChars cs
  let (newLen, cs) := consumeOptCommaDigits cs
  let _ ← consumeLit [' ', '@', '@'] cs
  pure (newStart, newLen)

def hunkHeaderSearch : List Char → Option (Nat × Option Nat)
  | [] => none
  | c :: rest =>
      match tryHunkHeaderAt (c :: rest) with
      | some r => some r
      | none => hunkHeaderSearch rest

def hunkHeaderMatch (line : String) : Option (Nat × Option Nat) :=
  hunkHeaderSearch line.data

structure HunkHeaderVals where
  newStart : Nat
  newLength : Nat
deriving DecidableEq

structure ParseState where
  currentFile : Option String
  currentHunkLines : List String
  currentHunkHeader : Option HunkHeaderVals
  units : List ChangeUnit
deriving DecidableEq

/-- The `flushHunk` closure of `parseChangeUnitsFromDiff`. -/
def flushHunk (st : ParseState) : ParseState :=
  match st.currentFile, st.currentHunkHeader with
  | some file, some hdr =>
      let startLine := max 1 hdr.newStart
      let endLine :=
        if hdr.newLength > 0 then startLine + hdr.newLength - 1 else startLine
      { st with
        units := st.units ++
          [{ filePath := file,
             range := { startLine := startLine, endLine := endLine },
             diffText := String.intercalate "\n" st.currentHunkLines }],
        currentHunkLines := [],
        currentHunkHeader := none }
  | _, _ => { st with currentHunkLines := [], currentHunkHeader := none }

def parseDiffLine (st : ParseState) (line : String) : ParseState :=
  if strStartsWith line "diff --git " then
    let st := flushHunk st
    { st with currentFile := none }
  else if strStartsWith line "+++ " then
    let filePath := jsTrim (line.drop 4)
    if filePath = "/dev/null" then { st with currentFile := none }
    else if strStartsWith filePath "b/" then
      { st with
        currentFile := some (replaceBackslashes (pathNormalize (filePath.drop 2))) }
    else
      { st with currentFile := some (replaceBackslashes (pathNormalize filePath)) }
  else
    match hunkHeaderMatch line with
    | some (newStart, newLenOpt) =>
        let st := flushHunk st
        let newLength := newLenOpt.getD 1
        { st with
          currentHunkHeader := some { newStart := newStart, newLength := newLength },
          currentHunkLines := st.currentHunkLines ++ [line] }
    | none =>
        if st.currentHunkHeader.isSome then
          { st with currentHunkLines := st.currentHunkLines ++ [line] }
        else st

def parseChangeUnitsFromDiff (diffText workspaceRoot : String) : List ChangeUnit :=
  let lines := jsSplitLines diffText
  let st := lines.foldl parseDiffLine
    { currentFile := none, currentHunkLines := [], currentHunkHeader := none,
      units := [] }
  let st := flushHunk st
  st.units.filter (fun unit =>
    let inWorkspace :=
      if pathIsAbsolute unit.filePath then strStartsWith unit.filePath workspaceRoot
      else true
    let isMarkdown := strEndsWith (strToLower unit.filePath) ".md"
    inWorkspace && !isMarkdown)

/-! ### Added-line bookkeeping (`changeUnitParser.ts`, part 2) -/

structure AddedLine where
  lineNumber : Nat
  text : String
deriving DecidableEq

def collectAddedLinesGo : List String → Nat → List AddedLine
  | [], _ => []
  | line :: rest, newLine =>
      match hunkHeaderMatch line with
      | some (newStart, _) => collectAddedLinesGo rest newStart
      | none =>
          if strStartsWith line "+++" || strStartsWith line "---" then
            collectAddedLinesGo rest newLine
          else if strStartsWith line " " then
            collectAddedLinesGo rest (newLine + 1)
          else if strStartsWith line "+" then
            { lineNumber := newLine, text := line.drop 1 } ::
              collectAddedLinesGo rest (newLine + 1)
          else
            collectAddedLinesGo rest newLine

def collectAddedLines (diffText : String) : List AddedLine :=
  collectAddedLinesGo (jsSplitLines diffText) 0

def filterDiffGo (lineNumbers : List Nat) (includeRemoved : Bool) :
    List String → Nat → List String
  | [], _ => []
  | line :: rest, newLine =>
      match hunkHeaderMatch line with
      | some (newStart, _) =>
          line :: filterDiffGo lineNumbers includeRemoved rest newStart
      | none =>
          if strStartsWith line "+++" || strStartsWith line "---" then
            line :: filterDiffGo lineNumbers includeRemoved rest newLine
          else if strStartsWith line " " then
            filterDiffGo lineNumbers includeRemoved rest (newLine + 1)
          else if strStartsWith line "+" then
            (if newLine ∈ lineNumbers then [line] else []) ++
              filterDiffGo lineNumbers includeRemoved rest (newLine + 1)
          else if strStartsWith line "-" then
            (if includeRemoved then [line] else []) ++
              filterDiffGo lineNumbers includeRemoved rest newLine
          else
            filterDiffGo lineNumbers includeRemoved rest newLine

def filterDiffTextByAddedLineNumbers (diffText : String) (lineNumbers : List Nat)
    (includeRemoved : Bool) : String :=
  String.intercalate "\n" (filterDiffGo lineNumbers includeRemoved (jsSplitLines diffText) 0)

def classifyStep (acc : Bool × Bool) (line : String) : Bool × Bool :=
  if strStartsWith line "+++" || strStartsWith line "---" || strStartsWith line "@@" then acc
  else if strStartsWith line "+" then (true, acc.2)
  else if strStartsWith line "-" then (acc.1, true)
  else acc

def classifyChange (diffText : String) : ChangeType :=
  let flags := (jsSplitLines diffText).foldl classifyStep (false, false)
  if flags.1 && flags.2 then .modify
  else if flags.1 then .add
  else if flags.2 then .remove
  else .unknown

def isMeaningfulAddedLine (text : String) (language : Option Language) : Bool :=
  let trimmed := jsTrim text
  if trimmed = "" then false
  else if language = some .python then !(strStartsWith trimmed "#")
  else if language = some .javascript || language = some .typescript then
    if strStartsWith trimmed "//" then false
    else if strStartsWith trimmed "/*" || strStartsWith trimmed "*" || strStartsWith trimmed "*/" then
      false
    else true
  else true

def groupContiguousGo : List Nat → Nat → List Nat → List (List Nat)
  | [], _, current => [current]
  | v :: rest, prev, current =>
      if v = prev + 1 then groupContiguousGo rest v (current ++ [v])
      else current :: groupContiguousGo rest v [v]

def groupContiguousLines : List Nat → List (List Nat)
  | [] => []
  | n :: rest => groupContiguousGo rest n [n]

/-! ### Definition detection (`changeUnitParser.ts`, regex layer)

The anchored detection regexes of `detectDefinition` are embedded as
deterministic parsers over the trimmed line.  Each pattern's alternatives
have pairwise-incompatible first tokens, so no regex backtracking beyond
the optional keyword groups is observable and the greedy deterministic
reading below is exact. -/

def asciiAlpha (c : Char) : Bool :=
  ('A' ≤ c && c ≤ 'Z') || ('a' ≤ c && c ≤ 'z')

def asciiDigit (c : Char) : Bool := '0' ≤ c && c ≤ '9'

/-- The regex word class `\w`, i.e. `[A-Za-z0-9_]`. -/
def isWordChar (c : Char) : Bool := asciiAlpha c || asciiDigit c || c = '_'

def isDollarWordChar (c : Char) : Bool := isWordChar c || c = '$'

/-- The capture `[A-Za-z_][A-Za-z0-9_]*`. -/
def takeIdentAZ (cs : List Char) : Option (String × List Char) :=
  match cs with
  | c :: rest =>
      if asciiAlpha c || c = '_' then
        let tailPart := rest.takeWhile isWordChar
        some (String.mk (c :: tailPart), rest.drop tailPart.length)
      else none
  | [] => none

/-- The capture `[A-Za-z0-9_$]+`. -/
def takeIdentDollar (cs : List Char) : Option (String × List Char) :=
  let part := cs.takeWhile isDollarWordChar
  if part.isEmpty then none else some (String.mk part, cs.drop part.length)

def consumeSpaces1 (cs : List Char) : Option (List Char) :=
  let sp := cs.takeWhile isSpaceChar
  if sp.isEmpty then none else some (cs.drop sp.length)

def skipSpaces (cs : List Char) : List Char := cs.dropWhile isSpaceChar

/-- A keyword followed by `\s+`. -/
def consumeKeyword (kw : String) (cs : List Char) : Option (List Char) := do
  let cs ← consumeLit kw.data cs
  consumeSpaces1 cs

/-- An optional keyword group such as `(export\s+)?`. -/
def consumeOptKeyword (kw : String) (cs : List Char) : List Char :=
  match consumeKeyword kw cs with
  | some rest => rest
  | none => cs

def isWordCharOpt : Option Char → Bool
  | none => false
  | some c => isWordChar c

/-- A `\b`-delimited occurrence of `name` anywhere in the scanned text;
a boundary holds where word-ness changes between neighbours. -/
def containsWordBoundedGo (name : List Char) : Option Char → List Char → Bool
  | _, [] => false
  | prev, c :: rest =>
      (charsHaveAt (c :: rest) name
        && (isWordCharOpt prev != isWordCharOpt name.head?)
        && (isWordCharOpt name.getLast? != isWordCharOpt ((c :: rest).drop name.length).head?))
      || containsWordBoundedGo name (some c) rest

/-- The test `/\b=>\b/`: a tight arrow with a word character on each side. -/
def hasTightArrow : Option Char → List Char → Bool
  | prev, '=' :: '>' :: c :: rest =>
      (isWordCharOpt prev && isWordChar c)
        || hasTightArrow (some '=') ('>' :: c :: rest)
  | _, '=' :: '>' :: [] => false
  | _, c :: rest => hasTightArrow (some c) rest
  | _, [] => false

def hasWordFunction (cs : List Char) : Bool :=
  containsWordBoundedGo "function".data none cs

def detectDefinitionPy (text : List Char) : Option (String × String) :=
  if (consumeKeyword "from" text).isSome || (consumeKeyword "import" text).isSome then
    none
  else
    match (do
      let cs ← consumeKeyword "async" text
      let cs ← consumeKeyword "def" cs
      takeIdentAZ cs) with
    | some (name, _) => some (name, "function")
    | none =>
    match (do let cs ← consumeKeyword "def" text; takeIdentAZ cs) with
    | some (name, _) => some (name, "function")
    | none =>
    match (do let cs ← consumeKeyword "class" text; takeIdentAZ cs) with
    | some (name, _) => some (name, "class")
    | none =>
    match (do
      let (name, cs) ← takeIdentAZ text
      match skipSpaces cs with
      | '=' :: _ => pure name
      | _ => none) with
    | some name => some (name, "variable")
    | none => none

def detectDefinitionJs (text : List Char) : Option (String × String) :=
  let afterExport := consumeOptKeyword "export" text
  match (do
    let cs := consumeOptKeyword "async" afterExport
    let cs ← consumeKeyword "function" cs
    takeIdentDollar cs) with
  | some (name, _) => some (name, "function")
  | none =>
  match (do let cs ← consumeKeyword "class" afterExport; takeIdentDollar cs) with
  | some (name, _) => some (name, "class")
  | none =>
  match (do let cs ← consumeKeyword "interface" afterExport; takeIdentDollar cs) with
  | some (name, _) => some (name, "interface")
  | none =>
  match (do let cs ← consumeKeyword "type" afterExport; takeIdentDollar cs) with
  | some (name, _) => some (name, "type")
  | none =>
  match (do let cs ← consumeKeyword "enum" afterExport; takeIdentDollar cs) with
  | some (name, _) => some (name, "enum")
  | none =>
  match (do
    let cs ← (consumeKeyword "const" afterExport).orElse
      (fun _ => (consumeKeyword "let" afterExport).orElse
        (fun _ => consumeKeyword "var" afterExport))
    takeIdentDollar cs) with
  | some (name, _) =>
      if hasTightArrow none text || hasWordFunction text then some (name, "function")
      else some (name, "variable")
  | none => none

def detectDefinition (line : String) (language : Language) : Option (String × String) :=
  let text := jsTrim line
  if text = "" then none
  else
    match language with
    | .python => detectDefinitionPy text.data
    | _ => detectDefinitionJs text.data

def lineContainsIdentifier (text identifier : String) : Bool :=
  if text = "" || identifier = "" then false
  else containsWordBoundedGo identifier.data none text.data

/-! ### Analyzer-facing types (`changeUnitParser.ts`)

`DefinitionRange` carries what `getDefinitionsForFile` extracts from the
tree-sitter analyzer; its `kind` is the string union
`'function' | 'method' | 'class'`.  The two TypeScript-AST queries
(`isTopLevelVariableInTsAst`, `findVariableRangeInTsAst`) walk the tree
built by the external `typescript` package; they are modelled as opaque
function fields of `TsAst`.  `FileAnalysis` is the cached payload of
`getDefinitionsForFile` (file reads and parses are external, so the
splitter receives it through a pure lookup). -/

structure DefinitionRange where
  name : String
  range : LineRange
  kind : Option String
  qualifiedName : Option String
deriving DecidableEq

structure TsAst where
  isTopLevelVariable : Nat → Bool
  variableRange : Nat → Option LineRange

structure FileAnalysis where
  definitions : List DefinitionRange
  sourceText : Option String
  tsAst : Option TsAst

structure DefinitionHit where
  lineNumber : Nat
  name : String
  type : String
  range : LineRange
  qualifiedName : Option String
deriving DecidableEq

def mapDefinitionKind (kind : Option String) : String :=
  if kind = some "class" then "class"
  else if kind = some "method" then "method"
  else "function"

def normalizeDefinitionKind (type : String) : Option String :=
  if type = "class" then some "class"
  else if type = "method" then some "method"
  else if type = "function" then some "function"
  else none

/-- The span `endLine - startLine` as JavaScript subtraction computes it
(negative for an inverted range, hence `Int`). -/
def rangeSpan (r : LineRange) : Int := (r.endLine : Int) - (r.startLine : Int)

def reduceMinSpan (first : DefinitionRange) (rest : List DefinitionRange) :
    DefinitionRange :=
  rest.foldl
    (fun prev current =>
      if rangeSpan current.range < rangeSpan prev.range then current else prev)
    first

structure ResolvedRange where
  range : LineRange
  kind : Option String
  qualifiedName : Option String
deriving DecidableEq

def resolveDefinitionRange (definitions : List DefinitionRange) (name : String)
    (lineNumber : Nat) (expectedType : Option String) : ResolvedRange :=
  let expectedKind := expectedType.bind normalizeDefinitionKind
  let containing := definitions.filter (fun d => isWithinRange d.range lineNumber)
  match containing with
  | first :: others =>
      let ranked :=
        match expectedKind with
        | some k => containing.filter (fun d => d.kind = some k)
        | none => containing
      let best :=
        match (if ranked ≠ [] then ranked else containing) with
        | b :: bs => reduceMinSpan b bs
        | [] => reduceMinSpan first others
      { range := best.range, kind := best.kind, qualifiedName := best.qualifiedName }
  | [] =>
      match definitions.filter (fun d => d.name = name) with
      | named :: _ =>
          { range := named.range, kind := named.kind, qualifiedName := named.qualifiedName }
      | [] =>
          { range := { startLine := lineNumber, endLine := lineNumber },
            kind := none, qualifiedName := none }

def buildSegmentId (filePath : String) (definition : DefinitionRange) : String :=
  filePath ++ "|" ++ toString definition.range.startLine ++ "-" ++
    toString definition.range.endLine

def deriveContainerName (qualifiedName : Option String) : Option String :=
  match qualifiedName with
  | none => none
  | some qn =>
      let parts := strSplitOnDot qn
      if parts.length < 2 then none
      else some (String.intercalate "." parts.dropLast)

def findEnclosingDefinitionRange (definitions : List DefinitionRange)
    (lineNumber : Nat) : Option DefinitionRange :=
  match definitions.filter (fun d => isWithinRange d.range lineNumber) with
  | [] => none
  | best :: others =>
      some (others.foldl
        (fun b current =>
          if rangeSpan current.range < rangeSpan b.range then current else b)
        best)

/-! ### Variable-extent scanning (`changeUnitParser.ts`) -/

/-- Removal of every quoted-string match of `(["'])(?:\\.|(?!\1).)*\1`,
each replaced by `rep`; the fuel is the input length, which every
recursive step strictly consumes, so it never runs out. -/
def findQuoteClose (q : Char) : List Char → Option (List Char)
  | [] => none
  | '\\' :: _ :: rest => findQuoteClose q rest
  | c :: rest => if c = q then some rest else findQuoteClose q rest

def removeQuotedFuel (rep : List Char) : Nat → List Char → List Char
  | 0, cs => cs
  | _ + 1, [] => []
  | fuel + 1, c :: rest =>
      if c = '"' || c = '\'' then
        match findQuoteClose c rest with
        | some rest2 => rep ++ removeQuotedFuel rep fuel rest2
        | none => c :: removeQuotedFuel rep fuel rest
      else c :: removeQuotedFuel rep fuel rest

def removeQuoted (rep : List Char) (cs : List Char) : List Char :=
  removeQuotedFuel rep cs.length cs

def sanitizeForBracketScan (line : String) (language : Language) : String :=
  let text :=
    if language = .python then
      match strIndexOf line "#" with
      | some hash => String.mk (line.data.take hash)
      | none => line
    else line
  String.mk (removeQuoted [] text.data)

def bracketDelta (text : String) : Int :=
  text.data.foldl
    (fun balance c =>
      if c = '{' || c = '[' || c = '(' then balance + 1
      else if c = '}' || c = ']' || c = ')' then balance - 1
      else balance)
    0

def scanBracketGo (language : Language) (startIndex : Nat) :
    List String → Nat → Int → Nat → Nat
  | [], _, _, endLine => endLine
  | raw :: rest, i, balance, _ =>
      let text := sanitizeForBracketScan raw language
      let balance := balance + bracketDelta text
      let endLine := i + 1
      let trimmed := jsTrim raw
      let hasContinuation := language = .python && strEndsWith trimmed "\\"
      if balance ≤ 0 && !hasContinuation && i ≠ startIndex then endLine
      else if balance ≤ 0 && i = startIndex then endLine
      else scanBracketGo language startIndex rest (i + 1) balance endLine

def scanBracketRange (lines : List String) (startLine : Nat) (language : Language) :
    LineRange :=
  let startIndex := startLine - 1
  { startLine := startLine,
    endLine := scanBracketGo language startIndex (lines.drop startIndex) startIndex 0 startLine }

def findTripleQuote (line : String) : Option String :=
  let dbl := strIndexOf line "\"\"\""
  let sng := strIndexOf line "'''"
  match dbl, sng with
  | none, none => none
  | some d, some s => if d < s then some "\"\"\"" else some "'''"
  | some _, none => some "\"\"\""
  | none, some _ => some "'''"

def hasClosingTriple (line : String) (triple : String) (fromIndex : Nat) : Bool :=
  (strIndexOfFrom line triple fromIndex).isSome

def scanPyStringGo (triple : String) : List String → Nat → Option Nat
  | [], _ => none
  | l :: rest, i =>
      if hasClosingTriple l triple 0 then some (i + 1)
      else scanPyStringGo triple rest (i + 1)

def scanPythonStringRange (lines : List String) (startLine : Nat) : Option LineRange :=
  let startIndex := startLine - 1
  let firstLine := lines.getD startIndex ""
  match findTripleQuote firstLine with
  | none => none
  | some triple =>
      let openIdx := (strIndexOf firstLine triple).getD 0
      if hasClosingTriple firstLine triple (openIdx + 3) then
        some { startLine := startLine, endLine := startLine }
      else
        match scanPyStringGo triple (lines.drop (startIndex + 1)) (startIndex + 1) with
        | some endL => some { startLine := startLine, endLine := endL }
        | none => some { startLine := startLine, endLine := lines.length }

def resolveVariableRange (language : Language) (sourceText : Option String)
    (tsAst : Option TsAst) (startLine : Nat) : Option LineRange :=
  match sourceText with
  | none => none
  | some text =>
      match language with
      | .python =>
          let lines := jsSplitLines text
          match scanPythonStringRange lines startLine with
          | some stringRange => some stringRange
          | none => some (scanBracketRange lines startLine .python)
      | _ =>
          match tsAst.bind (fun ast => ast.variableRange startLine) with
          | some range => some range
          | none => some (scanBracketRange (jsSplitLines text) startLine .javascript)

def isGlobalVariable (language : Language) (definitions : List DefinitionRange)
    (sourceText : Option String) (tsAst : Option TsAst) (lineNumber : Nat) : Bool :=
  if definitions.any (fun d => isWithinRange d.range lineNumber) then false
  else
    match language with
    | .python => true
    | _ =>
        match tsAst, sourceText with
        | some ast, some _ => ast.isTopLevelVariable lineNumber
        | _, _ => true

/-! ### Enclosing definitions (`changeUnitParser.ts`) -/

def pyDefHeaderMatch (raw : String) : Option (String × String) :=
  let cs := skipSpaces raw.data
  let afterKw : Option (String × List Char) :=
    match (do
      let cs2 ← consumeKeyword "async" cs
      let cs2 ← consumeLit "def".data cs2
      pure cs2) with
    | some cs2 => some ("function", cs2)
    | none =>
        match consumeLit "def".data cs with
        | some cs2 => some ("function", cs2)
        | none =>
            match consumeLit "class".data cs with
            | some cs2 => some ("class", cs2)
            | none => none
  match afterKw with
  | none => none
  | some (kind, cs2) =>
      match consumeSpaces1 cs2 with
      | none => none
      | some cs3 =>
          match takeIdentAZ cs3 with
          | some (name, _) => some (kind, name)
          | none => none

def pyScanEnd (indentLength : Nat) : List String → Nat → Nat → Nat
  | [], _, endLine => endLine
  | next :: rest, j, endLine =>
      let t := jsTrim next
      if t = "" || strStartsWith t "#" then pyScanEnd indentLength rest (j + 1) endLine
      else
        let nextIndent := (next.data.takeWhile isSpaceChar).length
        if nextIndent ≤ indentLength then j
        else pyScanEnd indentLength rest (j + 1) (j + 1)

def pyHeaderAt (lines : List String) (i : Nat)
    (tryNext : Option DefinitionRange) : Option DefinitionRange :=
  let raw := lines.getD i ""
  let t := jsTrim raw
  if t = "" || strStartsWith t "#" then tryNext
  else
    match pyDefHeaderMatch raw with
    | none => tryNext
    | some (kind, name) =>
        let indentLength := (raw.data.takeWhile isSpaceChar).length
        let endLine := pyScanEnd indentLength (lines.drop (i + 1)) (i + 1) (i + 1)
        some { name := name,
               range := { startLine := i + 1, endLine := endLine },
               kind := some kind, qualifiedName := none }

def findPyEnclosingGo (lines : List String) : Nat → Option DefinitionRange
  | 0 => pyHeaderAt lines 0 none
  | j + 1 => pyHeaderAt lines (j + 1) (findPyEnclosingGo lines j)

def findPythonEnclosingDefinition (sourceText : String) (lineNumber : Nat) :
    Option DefinitionRange :=
  let lines := jsSplitLines sourceText
  findPyEnclosingGo lines (min (lines.length - 1) (lineNumber - 1))

def findEnclosingDefinition (language : Option Language)
    (definitions : List DefinitionRange) (lineNumber : Nat)
    (sourceText : Option String) : Option DefinitionRange :=
  match findEnclosingDefinitionRange definitions lineNumber with
  | some enclosing => some enclosing
  | none =>
      match language, sourceText with
      | some .python, some text => findPythonEnclosingDefinition text lineNumber
      | _, _ => none

/-! ### Definition hits (`findDefinitions`) -/

def definitionHitKey (name : String) (range : LineRange) (type : String) : String :=
  name ++ "|" ++ toString range.startLine ++ "-" ++ toString range.endLine ++ "|" ++ type

/-- The `isGlobal` local of `findDefinitions`' first pass. -/
def fdIsGlobal (language : Language) (definitions : List DefinitionRange)
    (sourceText : Option String) (tsAst : Option TsAst) (htype : String)
    (lineNumber : Nat) : Bool :=
  if htype = "variable" then
    isGlobalVariable language definitions sourceText tsAst lineNumber
  else false

/-- The `type` local of `findDefinitions`' first pass. -/
def fdType2 (language : Language) (definitions : List DefinitionRange)
    (sourceText : Option String) (tsAst : Option TsAst) (name htype : String)
    (lineNumber : Nat) : String :=
  if htype = "variable" && fdIsGlobal language definitions sourceText tsAst htype lineNumber
    then "global-variable"
  else (resolveDefinitionRange definitions name lineNumber (some htype)).kind.getD htype

/-- The `range` local of `findDefinitions`' first pass. -/
def fdRange1 (language : Language) (definitions : List DefinitionRange)
    (sourceText : Option String) (tsAst : Option TsAst) (name htype : String)
    (lineNumber : Nat) : LineRange :=
  if fdType2 language definitions sourceText tsAst name htype lineNumber
      = "global-variable" then
    match resolveVariableRange language sourceText tsAst lineNumber with
    | some variableRange => variableRange
    | none => (resolveDefinitionRange definitions name lineNumber (some htype)).range
  else (resolveDefinitionRange definitions name lineNumber (some htype)).range

def findDefinitionsStep1 (language : Language) (definitions : List DefinitionRange)
    (sourceText : Option String) (tsAst : Option TsAst)
    (acc : List DefinitionHit × List String) (line : AddedLine) :
    List DefinitionHit × List String :=
  match detectDefinition line.text language with
  | none => acc
  | some (name, htype) =>
      if htype = "variable" &&
          !fdIsGlobal language definitions sourceText tsAst htype line.lineNumber then acc
      else
        let type2 := fdType2 language definitions sourceText tsAst name htype line.lineNumber
        let range1 := fdRange1 language definitions sourceText tsAst name htype line.lineNumber
        if range1.startLine ≠ line.lineNumber then acc
        else
          let key := definitionHitKey name range1 type2
          if key ∈ acc.2 then acc
          else
            (acc.1 ++ [{ lineNumber := line.lineNumber, name := name, type := type2,
                         range := range1,
                         qualifiedName := (resolveDefinitionRange definitions name
                           line.lineNumber (some htype)).qualifiedName }],
             acc.2 ++ [key])

def findDefinitionsStep2 (addedLines : List AddedLine)
    (acc : List DefinitionHit × List String) (d : DefinitionRange) :
    List DefinitionHit × List String :=
  if d.range.startLine ∉ addedLines.map (·.lineNumber) then acc
  else
    let lineText :=
      ((addedLines.reverse.find? (fun l => l.lineNumber = d.range.startLine)).map (·.text)).getD ""
    if !lineContainsIdentifier lineText d.name then acc
    else
      let type2 := mapDefinitionKind d.kind
      let key := definitionHitKey d.name d.range type2
      if key ∈ acc.2 then acc
      else
        (acc.1 ++ [{ lineNumber := d.range.startLine, name := d.name, type := type2,
                     range := d.range, qualifiedName := d.qualifiedName }],
         acc.2 ++ [key])

def findDefinitions (addedLines : List AddedLine) (language : Language)
    (definitions : List DefinitionRange) (sourceText : Option String)
    (tsAst : Option TsAst) : List DefinitionHit :=
  let first :=
    addedLines.foldl (findDefinitionsStep1 language definitions sourceText tsAst) ([], [])
  (definitions.foldl (findDefinitionsStep2 addedLines) first).1

/-! ### Operational line buckets (`splitLinesByDefinitions`) -/

structure LineBucket where
  definition : Option DefinitionHit
  lineNumbers : List Nat
deriving DecidableEq

/-- One iteration of `splitLinesByDefinitions`' loop over the hits. -/
def slbdStep (lineNumbers : List Nat) (acc : List LineBucket × List Nat)
    (d : DefinitionHit) : List LineBucket × List Nat :=
  let lines := lineNumbers.filter
    (fun line => isWithinRange d.range line && line ∈ lineNumbers)
  if lines = [] then acc
  else
    (acc.1 ++ [{ definition := some d, lineNumbers := lines }],
     acc.2 ++ lines.filter (fun l => l ∉ acc.2))

def splitLinesByDefinitions (lineNumbers : List Nat)
    (definitions : List DefinitionHit) : List LineBucket :=
  if lineNumbers = [] then []
  else
    let folded := definitions.foldl (slbdStep lineNumbers) ([], [])
    let remaining := lineNumbers.filter (fun line => line ∉ folded.2)
    if remaining ≠ [] then
      folded.1 ++ [{ definition := none, lineNumbers := remaining }]
    else folded.1

/-! ### The unit splitter (`splitChangeUnitsByDefinitions`)

The per-file caches of the source are write-once lookups keyed by path,
so they are passed as the pure functions `getAnalysis` (the payload of
`getDefinitionsForFile`, external file read plus analyzers) and
`readFile` (the direct `readFileCached` fallback; `none` models a read
failure).  The accumulation into a shared `result` array is the
concatenation of the per-unit outputs. -/

/-- The operation-unit object literal that `splitChangeUnitsByDefinitions`
pushes in its three operational branches (pass-through, plain group and
definition-chunked group); the branches differ only in the range and the
filtered diff text. -/
def mkOperationUnit (unit : ChangeUnit) (range : LineRange) (diffText : String)
    (changeType : ChangeType) (enclosing : Option DefinitionRange) : ChangeUnit :=
  { unit with
    range := range,
    diffText := diffText,
    changeKind := some .operation,
    changeType := some changeType,
    elementKind := unit.elementKind <|> (enclosing.map (fun e => mapDefinitionKind e.kind)),
    symbolName := (enclosing.map (·.name)) <|> unit.symbolName,
    qualifiedName := (enclosing.bind (·.qualifiedName)) <|> unit.qualifiedName,
    definitionName := (enclosing.map (·.name)) <|> unit.definitionName,
    definitionType :=
      (enclosing.bind (fun e =>
        if e.kind.isSome then some (mapDefinitionKind e.kind) else none)) <|>
        unit.definitionType,
    segmentId := (enclosing.map (fun e => buildSegmentId unit.filePath e)) <|> unit.segmentId }

/-- The `sourceText` local of the splitter's loop body: the analysis
payload's text, re-read through `readFileCached` when falsy and the file
has a supported language. -/
def splitSourceText (getAnalysis : String → FileAnalysis)
    (readFile : String → Option String) (workspaceRoot : String)
    (unit : ChangeUnit) : Option String :=
  let analysis := getAnalysis unit.filePath
  if (analysis.sourceText.getD "") = "" && (detectLanguageFromPath unit.filePath).isSome then
    readFile
      (if pathIsAbsolute unit.filePath then unit.filePath
       else pathJoin workspaceRoot unit.filePath)
  else analysis.sourceText

/-- The `definitions` local of the splitter's loop body. -/
def splitDefinitions (getAnalysis : String → FileAnalysis)
    (readFile : String → Option String) (workspaceRoot : String)
    (unit : ChangeUnit) : List DefinitionHit :=
  match detectLanguageFromPath unit.filePath with
  | some lang =>
      findDefinitions (collectAddedLines unit.diffText) lang
        (getAnalysis unit.filePath).definitions
        (splitSourceText getAnalysis readFile workspaceRoot unit)
        (getAnalysis unit.filePath).tsAst
  | none => []

/-- The definition-unit object literal the splitter pushes per hit. -/
def splitDefUnit (unit : ChangeUnit) (changeType : ChangeType) (d : DefinitionHit) :
    ChangeUnit :=
  let defDiff := filterDiffTextByAddedLineNumbers unit.diffText
    (((collectAddedLines unit.diffText).filter
        (fun line => isWithinRange d.range line.lineNumber)).map (·.lineNumber))
    true
  { unit with
    range := d.range,
    diffText := defDiff,
    changeKind := some (if d.type = "global-variable" then .global else .definition),
    changeType := some changeType,
    definitionName := some d.name,
    definitionType := some (if d.type = "global-variable" then "variable" else d.type),
    elementKind := some
      (if d.type = "global-variable" then "global"
       else if d.type = "class" then "class"
       else if d.type = "method" then "method"
       else "function"),
    qualifiedName := d.qualifiedName,
    containerName :=
      if d.type = "method" then deriveContainerName d.qualifiedName else none }

/-- The `operationalLineNumbers` local: meaningful added lines not
claimed by any definition hit, in ascending order. -/
def splitOperationalLineNumbers (getAnalysis : String → FileAnalysis)
    (readFile : String → Option String) (workspaceRoot : String)
    (unit : ChangeUnit) : List Nat :=
  let definitions := splitDefinitions getAnalysis readFile workspaceRoot unit
  jsSortBy natCmp
    (((collectAddedLines unit.diffText).filter (fun line =>
        line.lineNumber ∉ definitions.map (·.lineNumber) &&
        !((definitions.map (·.range)).any (fun range => isWithinRange range line.lineNumber)) &&
        isMeaningfulAddedLine line.text (detectLanguageFromPath unit.filePath))).map
      (·.lineNumber))

def splitOperationalGroups (getAnalysis : String → FileAnalysis)
    (readFile : String → Option String) (workspaceRoot : String)
    (unit : ChangeUnit) : List (List Nat) :=
  groupContiguousLines (splitOperationalLineNumbers getAnalysis readFile workspaceRoot unit)

/-- The loop body over one operational group: one unit per bucket of
`splitLinesByDefinitions` (or one plain unit when there is no bucket). -/
def splitGroupUnits (getAnalysis : String → FileAnalysis)
    (readFile : String → Option String) (workspaceRoot : String)
    (unit : ChangeUnit) (group : List Nat) : List ChangeUnit :=
  let language := detectLanguageFromPath unit.filePath
  let analysisDefinitions := (getAnalysis unit.filePath).definitions
  let sourceText := splitSourceText getAnalysis readFile workspaceRoot unit
  let definitions := splitDefinitions getAnalysis readFile workspaceRoot unit
  let changeType := classifyChange unit.diffText
  let groupRange : LineRange :=
    { startLine := group.headD 0, endLine := (group.getLast?).getD 0 }
  let byDefinition := splitLinesByDefinitions group definitions
  if byDefinition = [] then
    let enclosing :=
      findEnclosingDefinition language analysisDefinitions groupRange.startLine sourceText
    let operationalDiff := filterDiffTextByAddedLineNumbers unit.diffText group false
    [mkOperationUnit unit groupRange operationalDiff changeType enclosing]
  else
    byDefinition.map (fun chunk =>
      let enclosing :=
        findEnclosingDefinition language analysisDefinitions
          (chunk.lineNumbers.headD 0) sourceText
      let operationalDiff :=
        filterDiffTextByAddedLineNumbers unit.diffText chunk.lineNumbers false
      let chunkRange : LineRange :=
        { startLine := chunk.lineNumbers.headD 0,
          endLine := (chunk.lineNumbers.getLast?).getD 0 }
      mkOperationUnit unit chunkRange operationalDiff changeType enclosing)

/-- One iteration of the splitter's loop over raw units; each `let`
local of the source body is the same-named definition above, recomputed
rather than shared (all are pure). -/
def splitOneUnit (getAnalysis : String → FileAnalysis)
    (readFile : String → Option String) (workspaceRoot : String)
    (unit : ChangeUnit) : List ChangeUnit :=
  let definitions := splitDefinitions getAnalysis readFile workspaceRoot unit
  let operationalGroups := splitOperationalGroups getAnalysis readFile workspaceRoot unit
  let changeType := classifyChange unit.diffText
  if definitions = [] ∧ operationalGroups = [] then
    let enclosing :=
      findEnclosingDefinition (detectLanguageFromPath unit.filePath)
        (getAnalysis unit.filePath).definitions unit.range.startLine
        (splitSourceText getAnalysis readFile workspaceRoot unit)
    [mkOperationUnit unit unit.range unit.diffText changeType enclosing]
  else
    definitions.map (splitDefUnit unit changeType) ++
      operationalGroups.flatMap (splitGroupUnits getAnalysis readFile workspaceRoot unit)

def splitChangeUnitsByDefinitions (getAnalysis : String → FileAnalysis)
    (readFile : String → Option String) (units : List ChangeUnit)
    (workspaceRoot : String) : List ChangeUnit :=
  units.flatMap (splitOneUnit getAnalysis readFile workspaceRoot)

/-! ### Step targets as the ordering code reads them (`tourBuilder.ts`)

`orderByGraph` reads `step.target` structurally; on a `CodeRegion`
target the optional fields are simply absent. -/

def targetRelatedCalls : StepTarget → Option (List RelatedCall)
  | .unit u => u.relatedCalls
  | .region _ => none

def targetDiffText : StepTarget → Option String
  | .unit u => some u.diffText
  | .region _ => none

def targetIntroducedDefinitions : StepTarget → Option (List IntroducedDefinition)
  | .unit u => u.introducedDefinitions
  | .region _ => none

def targetChangeKind : StepTarget → Option ChangeKind
  | .unit u => u.changeKind
  | .region _ => none

def targetDefinitionName : StepTarget → Option String
  | .unit u => u.definitionName
  | .region _ => none

/-! ### Name harvesting (`collectCallNames`, `collectIdentifierNames`)

The `matchAll` scans are embedded as left-to-right scanners that, at
each position, attempt the pattern and on success resume after the full
match, exactly as a global regex advances `lastIndex`.  The fuel of each
scanner is the input length; every step consumes at least one character. -/

def callNameMatchesFuel : Nat → List Char → List String
  | 0, _ => []
  | _ + 1, [] => []
  | fuel + 1, c :: rest =>
      match (do
        let (name, cs) ← takeIdentAZ (c :: rest)
        match skipSpaces cs with
        | '(' :: cs2 => pure (name, cs2)
        | _ => none) with
      | some (name, cs2) => name :: callNameMatchesFuel fuel cs2
      | none => callNameMatchesFuel fuel rest

def callNameMatches (cs : List Char) : List String :=
  callNameMatchesFuel cs.length cs

def selfThisDotIdent (cs : List Char) : Option (String × List Char) := do
  let cs ← (consumeLit "self.".data cs).orElse (fun _ => consumeLit "this.".data cs)
  takeIdentAZ cs

def selfThisCallMatchesFuel : Nat → List Char → List String
  | 0, _ => []
  | _ + 1, [] => []
  | fuel + 1, c :: rest =>
      match (do
        let (name, cs) ← selfThisDotIdent (c :: rest)
        match skipSpaces cs with
        | '(' :: cs2 => pure (name, cs2)
        | _ => none) with
      | some (name, cs2) => name :: selfThisCallMatchesFuel fuel cs2
      | none => selfThisCallMatchesFuel fuel rest

def selfThisCallMatches (cs : List Char) : List String :=
  selfThisCallMatchesFuel cs.length cs

def selfThisAttrMatchesFuel : Nat → List Char → List String
  | 0, _ => []
  | _ + 1, [] => []
  | fuel + 1, c :: rest =>
      match selfThisDotIdent (c :: rest) with
      | some (name, cs2) => name :: selfThisAttrMatchesFuel fuel cs2
      | none => selfThisAttrMatchesFuel fuel rest

def selfThisAttrMatches (cs : List Char) : List String :=
  selfThisAttrMatchesFuel cs.length cs

def collectCallNames (relatedCalls : Option (List RelatedCall))
    (diffText : Option String) : List String :=
  let names := (relatedCalls.getD []).foldl
    (fun names call =>
      let names := if call.name ≠ "" then setAdd names call.name else names
      match call.qualifiedName with
      | some qn =>
          if qn ≠ call.name then
            (strSplitOnDot qn).foldl
              (fun ns part =>
                if part ≠ "" && part ≠ "self" && part ≠ "this" then setAdd ns part
                else ns)
              names
          else names
      | none => names)
    []
  match diffText with
  | none => names
  | some d =>
      (jsSplitLines d).foldl
        (fun names line =>
          if !strStartsWith line "+" then names
          else
            let text := (line.drop 1).data
            let names := (callNameMatches text).foldl
              (fun ns n =>
                if n ≠ "" && n ≠ "if" && n ≠ "for" && n ≠ "while" then setAdd ns n
                else ns)
              names
            let names := (selfThisCallMatches text).foldl
              (fun ns n => if n ≠ "" then setAdd ns n else ns) names
            (selfThisAttrMatches text).foldl
              (fun ns n => if n ≠ "" then setAdd ns n else ns) names)
        names

def sanitizeLine (text : String) : String :=
  String.mk (removeQuoted [' '] text.data)

def isIgnoredIdentifier (name : String) : Bool :=
  if name = "" then true
  else name ∈ ["if", "for", "while", "return", "const", "let", "var", "function",
    "class", "def", "async", "await", "new", "import", "from", "export", "as",
    "this", "self", "true", "false", "null", "undefined"]

def identNameMatchesFuel : Nat → Option Char → List Char → List String
  | 0, _, _ => []
  | _ + 1, _, [] => []
  | fuel + 1, prev, c :: rest =>
      if (asciiAlpha c || c = '_') && !isWordCharOpt prev then
        match takeIdentAZ (c :: rest) with
        | some (name, cs2) => name :: identNameMatchesFuel fuel name.data.getLast? cs2
        | none => identNameMatchesFuel fuel (some c) rest
      else identNameMatchesFuel fuel (some c) rest

def identNameMatches (cs : List Char) : List String :=
  identNameMatchesFuel cs.length none cs

def collectIdentifierNames (diffText : Option String) : List String :=
  match diffText with
  | none => []
  | some d =>
      (jsSplitLines d).foldl
        (fun names line =>
          if !strStartsWith line "+" then names
          else
            (identNameMatches (sanitizeLine (line.drop 1)).data).foldl
              (fun ns n => if isIgnoredIdentifier n then ns else setAdd ns n)
              names)
        []

def collectRelatedNames (target : StepTarget) : List String :=
  let names := collectCallNames (targetRelatedCalls target) (targetDiffText target)
  (collectIdentifierNames (targetDiffText target)).foldl setAdd names

/-! ### The step orderer (`reorderMainSteps` / `orderByGraph`)

Node identity is positional: `idByStep` maps each (distinct) step object
to its index in the input array, so the embedding indexes nodes by
position.  The two `while` loops (component DFS, leaf-first BFS) are
modelled with fuel; the DFS fuel is computed large enough to never run
out (each iteration pops one visited-guarded push), the BFS fuel is a
parameter threaded from `reorderMainSteps` and the ordering theorems
hold for every fuel. -/

inductive NodeKind
  | definition
  | operation
  | global
  | unknown
deriving DecidableEq

structure GraphNode where
  step : TourStep
  filePath : String
  startLine : Nat
  changeKind : NodeKind
  definitionName : Option String
deriving DecidableEq

def mkGraphNode (step : TourStep) : GraphNode :=
  { step := step,
    filePath := step.target.filePath,
    startLine := step.target.range.startLine,
    changeKind :=
      match targetChangeKind step.target with
      | some .definition => .definition
      | some .operation => .operation
      | some .global => .global
      | none => .unknown,
    definitionName := targetDefinitionName step.target }

def dummyStep : TourStep :=
  { id := "", type := .main,
    target := .region { filePath := "", range := { startLine := 0, endLine := 0 }, label := none },
    explanation := "" }

def dummyNode : GraphNode :=
  { step := dummyStep, filePath := "", startLine := 0, changeKind := .unknown,
    definitionName := none }

def isGlobalStep (step : TourStep) : Bool :=
  if step.type ≠ .main then false
  else
    match step.target with
    | .region _ => false
    | .unit u => u.changeKind = some .global

def addEdge (edges : List (Nat × List Nat)) (from0 to0 : Nat) : List (Nat × List Nat) :=
  alSet edges from0 (setAdd ((alGet edges from0).getD []) to0)

def addUndirected (undirected : List (Nat × List Nat)) (a b : Nat) :
    List (Nat × List Nat) :=
  let u := alSet undirected a (setAdd ((alGet undirected a).getD []) b)
  alSet u b (setAdd ((alGet u b).getD []) a)

/-- One iteration of `buildDefByFileAndName`'s loop. -/
def bdfStep (m : List (String × List Nat)) (pair : Nat × GraphNode) :
    List (String × List Nat) :=
  if (pair.2.changeKind = .definition || pair.2.changeKind = .global) &&
      (pair.2.definitionName.getD "") ≠ "" then
    let key := pair.2.filePath ++ "|" ++ (pair.2.definitionName.getD "")
    alSet m key (((alGet m key).getD []) ++ [pair.1])
  else m

def buildDefByFileAndName (nodes : List GraphNode) : List (String × List Nat) :=
  nodes.enum.foldl bdfStep []

def lookupDefs (defByFileAndName : List (String × List Nat)) (filePath name : String) :
    List Nat :=
  (alGet defByFileAndName (filePath ++ "|" ++ name)).getD []

/-- The `linkedDefs` accumulations of `buildOrderEdges`: successive
lookups appended to an accumulator (the introduced-definition pass folds
over the definitions' names). -/
def boeLookupFold (defByFileAndName : List (String × List Nat)) (fp : String)
    (init : List Nat) (names : List String) : List Nat :=
  names.foldl (fun l name => l ++ lookupDefs defByFileAndName fp name) init

/-- The edge insertion per linked definition of a definition/global node. -/
def boeLink1 (opId : Nat)
    (acc2 : List (Nat × List Nat) × List (Nat × List Nat)) (defId : Nat) :
    List (Nat × List Nat) × List (Nat × List Nat) :=
  if defId = opId then acc2
  else (addEdge acc2.1 defId opId, addUndirected acc2.2 defId opId)

/-- The edge insertion per linked definition of an operation node. -/
def boeLink2 (opId : Nat)
    (acc2 : List (Nat × List Nat) × List (Nat × List Nat)) (defId : Nat) :
    List (Nat × List Nat) × List (Nat × List Nat) :=
  (addEdge acc2.1 opId defId, addUndirected acc2.2 opId defId)

/-- One iteration of `buildOrderEdges`' loop over the indexed nodes. -/
def boeStep (defByFileAndName : List (String × List Nat))
    (acc : List (Nat × List Nat) × List (Nat × List Nat))
    (pair : Nat × GraphNode) :
    List (Nat × List Nat) × List (Nat × List Nat) :=
  let opId := pair.1
  let node := pair.2
  let target := node.step.target
  if node.changeKind = .definition || node.changeKind = .global then
    let linkedDefs := boeLookupFold defByFileAndName node.filePath []
      (collectRelatedNames target)
    linkedDefs.foldl (boeLink1 opId) acc
  else if node.changeKind ≠ .operation then acc
  else
    let linkedDefs := boeLookupFold defByFileAndName node.filePath []
      (((targetIntroducedDefinitions target).getD []).map (·.name))
    let linkedDefs := boeLookupFold defByFileAndName node.filePath linkedDefs
      (collectRelatedNames target)
    linkedDefs.foldl (boeLink2 opId) acc

def buildOrderEdges (nodes : List GraphNode)
    (defByFileAndName : List (String × List Nat)) :
    List (Nat × List Nat) × List (Nat × List Nat) :=
  nodes.enum.foldl (boeStep defByFileAndName) ([], [])

def dfsLoop (undirected : List (Nat × List Nat)) :
    Nat → List Nat → List Nat → List Nat → List Nat × List Nat
  | 0, _, component, visited => (component, visited)
  | _ + 1, [], component, visited => (component, visited)
  | fuel + 1, current :: stack, component, visited =>
      let component := component ++ [current]
      let neighbors := (alGet undirected current).getD []
      let sv := neighbors.foldl
        (fun (sv : List Nat × List Nat) neighbor =>
          if neighbor ∈ sv.2 then sv else (neighbor :: sv.1, sv.2 ++ [neighbor]))
        (stack, visited)
      dfsLoop undirected fuel sv.1 component sv.2

def alValuesLength (m : List (Nat × List Nat)) : Nat :=
  m.foldl (fun n e => n + e.2.length) 0

/-- One iteration of `buildComponents`' loop over the node indices. -/
def bcStep (undirected : List (Nat × List Nat)) (fuel : Nat)
    (acc : List (List Nat) × List Nat) (i : Nat) : List (List Nat) × List Nat :=
  if i ∈ acc.2 then acc
  else
    let cv := dfsLoop undirected fuel [i] [] (acc.2 ++ [i])
    (acc.1 ++ [cv.1], cv.2)

def buildComponents (total : Nat) (undirected : List (Nat × List Nat)) :
    List (List Nat) :=
  ((List.range total).foldl
    (bcStep undirected (total + 1 + alValuesLength undirected)) ([], [])).1

def nodeRank (k : NodeKind) : Int :=
  match k with
  | .global => 2
  | .definition => 1
  | _ => 0

def compareNodes (a b : GraphNode) : Int :=
  if nodeRank a.changeKind ≠ nodeRank b.changeKind then
    nodeRank b.changeKind - nodeRank a.changeKind
  else if a.filePath ≠ b.filePath then strCmp a.filePath b.filePath
  else natCmp a.startLine b.startLine

def cmpIds (nodes : List GraphNode) (a b : Nat) : Int :=
  compareNodes (nodes.getD a dummyNode) (nodes.getD b dummyNode)

structure ComponentKey where
  hasGlobal : Bool
  hasOperation : Bool
  filePath : String
  startLine : Nat
deriving DecidableEq

def componentSortKey (nodes : List GraphNode) (component : List Nat) : ComponentKey :=
  let best0 := nodes.getD (component.headD 0) dummyNode
  let st := component.foldl
    (fun (acc : GraphNode × Bool × Bool) id =>
      let best := acc.1
      let node := nodes.getD id dummyNode
      let hasGlobal := acc.2.1 || node.changeKind = .global
      let hasOperation := acc.2.2 || node.changeKind = .operation
      if node.changeKind = .global && best.changeKind ≠ .global then
        (node, hasGlobal, hasOperation)
      else if strLt node.filePath best.filePath then (node, hasGlobal, hasOperation)
      else if node.filePath = best.filePath && node.startLine < best.startLine then
        (node, hasGlobal, hasOperation)
      else (best, hasGlobal, hasOperation))
    (best0, best0.changeKind = .global, best0.changeKind = .operation)
  { hasGlobal := st.2.1, hasOperation := st.2.2, filePath := st.1.filePath,
    startLine := st.1.startLine }

def componentCmp (nodes : List GraphNode) (a b : List Nat) : Int :=
  let aKey := componentSortKey nodes a
  let bKey := componentSortKey nodes b
  if aKey.hasGlobal ≠ bKey.hasGlobal then (if aKey.hasGlobal then -1 else 1)
  else if aKey.hasOperation ≠ bKey.hasOperation then (if aKey.hasOperation then -1 else 1)
  else if aKey.filePath ≠ bKey.filePath then strCmp aKey.filePath bKey.filePath
  else natCmp aKey.startLine bKey.startLine

def bfsLoop (outEdges : List (Nat × List Nat)) :
    Nat → List Nat → List Nat → List Nat → List Nat × List Nat
  | 0, _, ordered, visited => (ordered, visited)
  | _ + 1, [], ordered, visited => (ordered, visited)
  | fuel + 1, current :: queue, ordered, visited =>
      let ov :=
        if current ∈ visited then (ordered, visited)
        else (ordered ++ [current], visited ++ [current])
      let nexts := (alGet outEdges current).getD []
      bfsLoop outEdges fuel (queue ++ nexts.filter (fun next => next ∉ ov.2)) ov.1 ov.2

/-- The inner loop of the per-component out-edge/in-degree pass. -/
def ocbInner (component : List Nat) (e1 : Nat)
    (acc2 : List (Nat × List Nat) × List (Nat × Nat)) (to0 : Nat) :
    List (Nat × List Nat) × List (Nat × Nat) :=
  if to0 ∉ component then acc2
  else
    let oe :=
      match alGet acc2.1 e1 with
      | some list => alSet acc2.1 e1 (list ++ [to0])
      | none => acc2.1
    (oe, alSet acc2.2 to0 ((alGet acc2.2 to0).getD 0 + 1))

/-- The outer loop of the per-component out-edge/in-degree pass. -/
def ocbStep (component : List Nat)
    (acc : List (Nat × List Nat) × List (Nat × Nat)) (e : Nat × List Nat) :
    List (Nat × List Nat) × List (Nat × Nat) :=
  if e.1 ∉ component then acc
  else e.2.foldl (ocbInner component e.1) acc

def orderComponentLeafFirstBfs (bfsFuel : Nat) (nodes : List GraphNode)
    (component : List Nat) (edges : List (Nat × List Nat)) : List Nat :=
  let outEdges0 := component.foldl (fun m id => alSet m id []) []
  let inDegree0 := component.foldl (fun m id => alSet m id 0) []
  let oi := edges.foldl (ocbStep component) (outEdges0, inDegree0)
  let outEdges := oi.1.map (fun e => (e.1, jsSortBy (cmpIds nodes) e.2))
  let inDegree := oi.2
  let leaves := jsSortBy (cmpIds nodes)
    (component.filter (fun id => ((alGet outEdges id).getD []).length = 0))
  let ordered := leaves
  let visited := leaves.foldl setAdd []
  let roots := jsSortBy (cmpIds nodes)
    (component.filter (fun id => ((alGet inDegree id).getD 0) = 0))
  let ov := bfsLoop outEdges bfsFuel roots ordered visited
  let remaining := jsSortBy (cmpIds nodes) (component.filter (fun id => id ∉ ov.2))
  ov.1 ++ remaining

def orderByGraph (bfsFuel : Nat) (steps : List TourStep) : List TourStep :=
  let nodes := steps.map mkGraphNode
  let defByFileAndName := buildDefByFileAndName nodes
  let eu := buildOrderEdges nodes defByFileAndName
  let components := buildComponents nodes.length eu.2
  let orderedComponents := jsSortBy (componentCmp nodes) components
  orderedComponents.flatMap (fun component =>
    (orderComponentLeafFirstBfs bfsFuel nodes component eu.1).map
      (fun nodeId => (nodes.getD nodeId dummyNode).step))

def globalStepCmp (a b : TourStep) : Int :=
  if a.target.filePath ≠ b.target.filePath then
    strCmp a.target.filePath b.target.filePath
  else natCmp a.target.range.startLine b.target.range.startLine

def reorderMainSteps (bfsFuel : Nat) (steps : List TourStep) : List TourStep :=
  let globals := steps.filter isGlobalStep
  let nonGlobals := steps.filter (fun step => !isGlobalStep step)
  let orderedGlobals := jsSortBy globalStepCmp globals
  orderedGlobals ++ orderByGraph bfsFuel nonGlobals

/-! ### The tour graph builder (`tourGraph.ts`)

`buildTourGraph` reads each main step's target as a `ChangeUnit`; absent
fields of a region target read as `undefined`.  TypeScript truthiness
tests on optional strings (`if (target.qualifiedName)`) are `strTruthy`;
nullish coalescing (`??`) is `Option` fallback.  The graph file's
`collectCallNames` / `collectIdentifierNames` / `sanitizeLine` /
`isIgnoredIdentifier` are verbatim duplicates of the ones in
`tourBuilder.ts` and share one embedding above.  Edge `type` keeps the
source's string union `'op-to-def' | 'def-to-def'`. -/

def targetSymbolName : StepTarget → Option String
  | .unit u => u.symbolName
  | .region _ => none

def targetQualifiedName : StepTarget → Option String
  | .unit u => u.qualifiedName
  | .region _ => none

def targetContainerName : StepTarget → Option String
  | .unit u => u.containerName
  | .region _ => none

def targetSegmentId : StepTarget → Option String
  | .unit u => u.segmentId
  | .region _ => none

def targetElementKind : StepTarget → Option String
  | .unit u => u.elementKind
  | .region _ => none

def targetIsOverall : StepTarget → Option Bool
  | .unit u => u.isOverall
  | .region _ => none

def strTruthy (s : Option String) : Bool := (s.getD "") ≠ ""

structure StepRef where
  id : String
  label : String
  startLine : Nat
  endLine : Nat
deriving DecidableEq

structure OpStepRef where
  id : String
  label : String
  startLine : Nat
  endLine : Nat
  order : Nat
deriving DecidableEq

/-- A node of the derived graph; the declared-but-never-written `hidden`
flag of the interface is omitted. -/
structure TourGraphNode where
  id : String
  index : Nat
  kind : NodeKind
  label : String
  filePath : String
  startLine : Nat
  endLine : Nat
  elementKind : Option String
  qualifiedName : Option String
  containerName : Option String
  isOverall : Option Bool
  identityKey : Option String
  layoutKey : Option String
  steps : Option (List StepRef)
deriving DecidableEq

/-- A graph edge; the source's field names `from` and `to` are Lean
keywords and appear here as `fromId` / `toId`. -/
structure TourGraphEdge where
  fromId : String
  toId : String
  type : String
deriving DecidableEq

structure TourGraph where
  nodes : List TourGraphNode
  edges : List TourGraphEdge
deriving DecidableEq

def nodeKindStr : NodeKind → String
  | .definition => "definition"
  | .operation => "operation"
  | .global => "global"
  | .unknown => "unknown"

def buildIdentityKey (kind : NodeKind) (filePath label : String)
    (suffix : Option String) : String :=
  String.intercalate "|"
    ([nodeKindStr kind, filePath, label, suffix.getD ""].filter (fun s => s ≠ ""))

def buildLayoutKey (filePath label : String) : String :=
  String.intercalate "|" ([filePath, label].filter (fun s => s ≠ ""))

def resolveLayoutLabel (target : StepTarget) : String :=
  if strTruthy (targetQualifiedName target) then (targetQualifiedName target).getD ""
  else if strTruthy (targetContainerName target) && strTruthy (targetDefinitionName target) then
    (targetContainerName target).getD "" ++ "." ++ (targetDefinitionName target).getD ""
  else if strTruthy (targetContainerName target) && strTruthy (targetSymbolName target) then
    (targetContainerName target).getD "" ++ "." ++ (targetSymbolName target).getD ""
  else
    match targetDefinitionName target with
    | some s => s
    | none => (targetSymbolName target).getD ""

structure CallRef where
  name : String
  qualifiedName : Option String
deriving DecidableEq

def collectRelatedCalls (target : StepTarget) : List CallRef :=
  let calls := ((targetRelatedCalls target).getD []).map
    (fun call => ({ name := call.name, qualifiedName := call.qualifiedName } : CallRef))
  calls ++ (collectIdentifierNames (targetDiffText target)).map
    (fun name => ({ name := name, qualifiedName := none } : CallRef))

def listModify {α : Type} : List α → Nat → (α → α) → List α
  | [], _, _ => []
  | x :: rest, 0, f => f x :: rest
  | x :: rest, n + 1, f => x :: listModify rest n f

def resolveDefinitions (byQualified byName byNameGlobal : List (String × List Nat))
    (filePath name : String) (qualifiedName : Option String) : List Nat :=
  let qualifiedHit :=
    if strTruthy qualifiedName then
      match alGet byQualified (filePath ++ "|" ++ qualifiedName.getD "") with
      | some qualified => if qualified.length > 0 then some qualified else none
      | none => none
    else none
  match qualifiedHit with
  | some qualified => qualified
  | none =>
      match alGet byName (filePath ++ "|" ++ name) with
      | some local0 =>
          if local0.length > 0 then local0
          else
            match alGet byNameGlobal name with
            | some g => if g.length = 1 then g else []
            | none => []
      | none =>
          match alGet byNameGlobal name with
          | some g => if g.length = 1 then g else []
          | none => []

def dummyTourGraphNode : TourGraphNode :=
  { id := "", index := 0, kind := .unknown, label := "", filePath := "",
    startLine := 0, endLine := 0, elementKind := none, qualifiedName := none,
    containerName := none, isOverall := none, identityKey := none,
    layoutKey := none, steps := none }

structure TGBuild where
  nodes : List TourGraphNode
  nodeByStepId : List (String × Nat)
  opGroupByKey : List (String × Nat)
  opStepsByKey : List (String × List OpStepRef)

def stepLabelOf (order startLine endLine : Nat) : String :=
  "Step " ++ toString order ++ " · L" ++ toString startLine ++ "-" ++ toString endLine

def tgNodeStep (stepOrder : List (String × Nat)) (st : TGBuild)
    (i : Nat) (step : TourStep) : TGBuild :=
  let target := step.target
  let kind :=
    match targetChangeKind target with
    | some .definition => NodeKind.definition
    | some .operation => NodeKind.operation
    | some .global => NodeKind.global
    | none => NodeKind.unknown
  if kind = .operation then
    let identityRange :=
      if strTruthy (targetSegmentId target) then
        "segment:" ++ (targetSegmentId target).getD ""
      else if strTruthy (targetDefinitionName target) then
        "range:" ++ toString target.range.startLine ++ "-" ++ toString target.range.endLine
      else ""
    let identityName :=
      ((targetQualifiedName target).orElse (fun _ =>
        (targetSymbolName target).orElse (fun _ =>
          targetDefinitionName target))).getD ""
    let identity := if identityRange ≠ "" then identityRange else identityName
    let key :=
      if identity ≠ "" then "op|" ++ target.filePath ++ "|" ++ identity
      else
        "op|" ++ target.filePath ++ "|range:" ++ toString target.range.startLine ++
          "-" ++ toString target.range.endLine ++ "|" ++ step.id
    let st :=
      match alGet st.opGroupByKey key with
      | none =>
          let label :=
            ((targetSymbolName target).orElse (fun _ => targetDefinitionName target)).getD
              "Operation"
          let identityKey := buildIdentityKey .operation target.filePath
            (((targetQualifiedName target).orElse (fun _ => some label)).getD "")
            ((targetSegmentId target).orElse (fun _ => targetDefinitionName target))
          let layoutKey := buildLayoutKey target.filePath (resolveLayoutLabel target)
          let node : TourGraphNode :=
            { id := "op:" ++ key, index := i, kind := kind, label := label,
              filePath := target.filePath,
              startLine := target.range.startLine, endLine := target.range.endLine,
              elementKind := targetElementKind target,
              qualifiedName := targetQualifiedName target,
              containerName := targetContainerName target,
              isOverall := targetIsOverall target,
              identityKey := some identityKey, layoutKey := some layoutKey,
              steps := none }
          { st with
            nodes := st.nodes ++ [node],
            opGroupByKey := alSet st.opGroupByKey key st.nodes.length }
      | some idx =>
          { st with
            nodes := listModify st.nodes idx (fun node =>
              { node with
                startLine := min node.startLine target.range.startLine,
                endLine := max node.endLine target.range.endLine }) }
    let order := (alGet stepOrder step.id).getD (i + 1)
    let entry : OpStepRef :=
      { id := step.id,
        label := stepLabelOf order target.range.startLine target.range.endLine,
        startLine := target.range.startLine, endLine := target.range.endLine,
        order := order }
    { st with
      opStepsByKey := alSet st.opStepsByKey key
        (((alGet st.opStepsByKey key).getD []) ++ [entry]),
      nodeByStepId := alSet st.nodeByStepId step.id
        ((alGet st.opGroupByKey key).getD 0) }
  else
    let label :=
      if kind = .definition then
        ((targetDefinitionName target).orElse (fun _ => targetSymbolName target)).getD
          "Definition"
      else if kind = .global then
        ((targetDefinitionName target).orElse (fun _ => targetSymbolName target)).getD
          "Global"
      else (targetSymbolName target).getD "Operation"
    let identityKey := buildIdentityKey kind target.filePath
      (((targetQualifiedName target).orElse (fun _ => some label)).getD "") none
    let layoutKey := buildLayoutKey target.filePath (resolveLayoutLabel target)
    let node : TourGraphNode :=
      { id := step.id, index := i, kind := kind, label := label,
        filePath := target.filePath,
        startLine := target.range.startLine, endLine := target.range.endLine,
        elementKind := (targetElementKind target).orElse
          (fun _ => if kind = .global then some "global" else none),
        qualifiedName := targetQualifiedName target,
        containerName := targetContainerName target,
        isOverall := targetIsOverall target,
        identityKey := some identityKey, layoutKey := some layoutKey,
        steps := some
          [{ id := step.id,
             label := stepLabelOf ((alGet stepOrder step.id).getD (i + 1))
               target.range.startLine target.range.endLine,
             startLine := target.range.startLine, endLine := target.range.endLine }] }
    { st with
      nodes := st.nodes ++ [node],
      nodeByStepId := alSet st.nodeByStepId step.id st.nodes.length }

structure TGResolution where
  defByFileAndName : List (String × List Nat)
  defByFileAndQualified : List (String × List Nat)
  defByNameGlobal : List (String × List Nat)
  classByFileAndName : List (String × List Nat)

def alAppend (m : List (String × List Nat)) (key : String) (idx : Nat) :
    List (String × List Nat) :=
  alSet m key (((alGet m key).getD []) ++ [idx])

def buildTGResolution (nodes : List TourGraphNode) : TGResolution :=
  nodes.enum.foldl
    (fun (acc : TGResolution) pair =>
      let (idx, node) := pair
      let canResolve :=
        node.elementKind.isSome || node.kind = .definition || node.kind = .global
      if !canResolve then acc
      else
        let key := node.filePath ++ "|" ++ node.label
        let acc :=
          { acc with
            defByFileAndName := alAppend acc.defByFileAndName key idx,
            defByNameGlobal := alAppend acc.defByNameGlobal node.label idx }
        let acc :=
          if strTruthy node.qualifiedName then
            { acc with
              defByFileAndQualified := alAppend acc.defByFileAndQualified
                (node.filePath ++ "|" ++ node.qualifiedName.getD "") idx }
          else acc
        if node.elementKind = some "class" then
          { acc with classByFileAndName := alAppend acc.classByFileAndName key idx }
        else acc)
    { defByFileAndName := [], defByFileAndQualified := [], defByNameGlobal := [],
      classByFileAndName := [] }

def tgEdgesForStep (nodes : List TourGraphNode) (res : TGResolution)
    (nodeByStepId : List (String × Nat)) (step : TourStep) : List TourGraphEdge :=
  let target := step.target
  match alGet nodeByStepId step.id with
  | none => []
  | some fromIdx =>
      let fromNode := nodes.getD fromIdx dummyTourGraphNode
      let fromId := fromNode.id
      if fromNode.kind = .operation then
        let introEdges := ((targetIntroducedDefinitions target).getD []).flatMap
          (fun d =>
            (resolveDefinitions res.defByFileAndQualified res.defByFileAndName
              res.defByNameGlobal target.filePath d.name none).map
              (fun defIdx =>
                ({ fromId := (nodes.getD defIdx dummyTourGraphNode).id, toId := fromId,
                   type := "op-to-def" } : TourGraphEdge)))
        let callEdges := (collectRelatedCalls target).flatMap
          (fun call =>
            (resolveDefinitions res.defByFileAndQualified res.defByFileAndName
              res.defByNameGlobal target.filePath call.name call.qualifiedName).map
              (fun defIdx =>
                ({ fromId := (nodes.getD defIdx dummyTourGraphNode).id, toId := fromId,
                   type := "op-to-def" } : TourGraphEdge)))
        introEdges ++ callEdges
      else
        let defEdges :=
          if fromNode.kind = .definition ||
              ((targetIsOverall target).getD false &&
                ((targetRelatedCalls target).getD []).length ≠ 0) then
            (collectRelatedCalls target).flatMap
              (fun call =>
                ((resolveDefinitions res.defByFileAndQualified res.defByFileAndName
                  res.defByNameGlobal target.filePath call.name call.qualifiedName).filter
                    (fun defIdx => (nodes.getD defIdx dummyTourGraphNode).id ≠ fromId)).map
                  (fun defIdx =>
                    ({ fromId := (nodes.getD defIdx dummyTourGraphNode).id, toId := fromId,
                       type := "def-to-def" } : TourGraphEdge)))
          else []
        let classEdges :=
          if (targetIsOverall target).getD false &&
              targetElementKind target = some "method" &&
              strTruthy (targetContainerName target) then
            let key := target.filePath ++ "|" ++ (targetContainerName target).getD ""
            (((alGet res.classByFileAndName key).getD []).filter
              (fun classIdx => (nodes.getD classIdx dummyTourGraphNode).id ≠ fromId)).map
              (fun classIdx =>
                ({ fromId := fromId, toId := (nodes.getD classIdx dummyTourGraphNode).id,
                   type := "def-to-def" } : TourGraphEdge))
          else []
        defEdges ++ classEdges

def buildTourGraph (steps : List TourStep) : TourGraph :=
  let mainSteps := steps.filter (fun step => step.type = .main)
  let stepOrder := mainSteps.enum.foldl
    (fun m pair => alSet m pair.2.id (pair.1 + 1)) []
  let built := mainSteps.enum.foldl
    (fun st pair => tgNodeStep stepOrder st pair.1 pair.2)
    { nodes := [], nodeByStepId := [], opGroupByKey := [], opStepsByKey := [] }
  let nodes := built.opGroupByKey.foldl
    (fun ns (pair : String × Nat) =>
      let stepsForKey := jsSortBy (fun (a b : OpStepRef) => natCmp a.order b.order)
        ((alGet built.opStepsByKey pair.1).getD [])
      listModify ns pair.2 (fun node =>
        { node with
          steps := some (stepsForKey.map (fun s =>
            ({ id := s.id, label := s.label, startLine := s.startLine,
               endLine := s.endLine } : StepRef))) }))
    built.nodes
  let res := buildTGResolution nodes
  let edges := mainSteps.flatMap (tgEdgesForStep nodes res built.nodeByStepId)
  { nodes := nodes, edges := edges }

/-! ### The background resolver (`backgroundContextBuilder.ts`)

`attachBackgroundRegions` groups the units by normalized relative path
so that git content, the working-tree content and the two analyses are
obtained once per file, and then mutates each unit of the file in place.
The collaborators (git `show`, `fs.readFile`, the tree-sitter analyzer)
are pure function parameters here, so the per-file batching has no
observable effect and the embedding updates each unit from its own
file's data; a `none` from a collaborator models a thrown read error or
a null analysis, and both make the file's units be skipped. -/

structure DefinitionLike where
  name : String
  qualifiedName : String
  range : LineRange
deriving DecidableEq

structure AnalyzerCall where
  name : String
  qualifiedName : Option String
  range : LineRange
deriving DecidableEq

structure BgAnalysis where
  functions : List DefinitionLike
  calls : List AnalyzerCall
  functionsByName : List (String × List DefinitionLike)
  functionsByQualifiedName : List (String × List DefinitionLike)

structure BgWorld where
  getFileContentAtHead : String → String → Option String
  readFile : String → Option String
  analyzeFile : String → String → Option BgAnalysis

def pathRelative (root abs : String) : String :=
  if strStartsWith abs (root ++ "/") then abs.drop (root ++ "/").length else abs

def normalizeRelativePath (workspaceRoot filePath : String) : String :=
  let absolute :=
    if pathIsAbsolute filePath then filePath else pathJoin workspaceRoot filePath
  replaceBackslashes (pathRelative workspaceRoot absolute)

def toRegion (filePath : String) (definition : DefinitionLike) : CodeRegion :=
  { filePath := filePath, range := definition.range,
    label := some definition.qualifiedName }

def findMatchingDefinition (call : AnalyzerCall)
    (map : List (String × List DefinitionLike)) : Option DefinitionLike :=
  let qualifiedHit :=
    if strTruthy call.qualifiedName then
      (alGet map (call.qualifiedName.getD "")).bind (fun qualified => qualified.head?)
    else none
  match qualifiedHit with
  | some d => some d
  | none => (alGet map call.name).bind (fun simple => simple.head?)

def isSameRegion (a b : CodeRegion) : Bool :=
  a.filePath = b.filePath && a.range.startLine = b.range.startLine &&
    a.range.endLine = b.range.endLine

/-- One iteration of `buildBackgroundRegionsForUnit`'s loop over the
overlapping calls: a resolved call is recorded and its definition's
region pushed unless an identical file-and-range region already is. -/
def bgStep (relativePath : String)
    (byName byQualified : List (String × List DefinitionLike))
    (acc : List CodeRegion × List AnalyzerCall) (call : AnalyzerCall) :
    List CodeRegion × List AnalyzerCall :=
  match (findMatchingDefinition call byQualified).orElse
      (fun _ => findMatchingDefinition call byName) with
  | none => acc
  | some definition =>
      let region := toRegion relativePath definition
      let regions :=
        if acc.1.any (fun existing => isSameRegion existing region) then acc.1
        else acc.1 ++ [region]
      (regions, acc.2 ++ [call])

def buildBackgroundRegionsForUnit (unit : ChangeUnit) (relativePath : String)
    (_functions : List DefinitionLike) (calls : List AnalyzerCall)
    (byName byQualified : List (String × List DefinitionLike)) :
    List CodeRegion × List AnalyzerCall :=
  let relatedCalls := calls.filter (fun call => rangesOverlap call.range unit.range)
  relatedCalls.foldl (bgStep relativePath byName byQualified) ([], [])

def bgFileData (world : BgWorld) (workspaceRoot relativePath : String) :
    Option (BgAnalysis × BgAnalysis) :=
  match world.getFileContentAtHead workspaceRoot relativePath,
      world.readFile (pathJoin workspaceRoot relativePath) with
  | some headText, some revisedText =>
      if headText = "" || revisedText = "" then none
      else
        match world.analyzeFile relativePath headText,
            world.analyzeFile relativePath revisedText with
        | some headAnalysis, some revisedAnalysis => some (headAnalysis, revisedAnalysis)
        | _, _ => none
  | _, _ => none

def attachBackgroundRegionsUnit (world : BgWorld) (workspaceRoot : String)
    (unit : ChangeUnit) : ChangeUnit :=
  let relativePath := normalizeRelativePath workspaceRoot unit.filePath
  match bgFileData world workspaceRoot relativePath with
  | none => unit
  | some analyses =>
      let br := buildBackgroundRegionsForUnit unit relativePath analyses.1.functions
        analyses.2.calls analyses.1.functionsByName analyses.1.functionsByQualifiedName
      let unit :=
        if br.1.length > 0 then { unit with backgroundRegions := some br.1 } else unit
      if br.2.length > 0 then { unit with relatedCalls := some (br.2.map (fun c =>
        ({ name := c.name, qualifiedName := c.qualifiedName, range := c.range } : RelatedCall))) }
      else unit

def attachBackgroundRegions (world : BgWorld) (workspaceRoot : String)
    (units : List ChangeUnit) : List ChangeUnit :=
  units.map (attachBackgroundRegionsUnit world workspaceRoot)

/-! ### Concrete instances used by the claim evaluations -/

def emptyFileAnalysis : FileAnalysis :=
  { definitions := [], sourceText := none, tsAst := none }

def noRead : String → Option String := fun _ => none

/-- A deleted-file style hunk header (`+0,0`) under a kept file header. -/
def c6diff : String := "diff --git a/f.ts b/f.ts\n+++ b/f.ts\n@@ -1,2 +0,0 @@\n"

/-- A hunk replacing one line: one removed line, one added operational line. -/
def c5raw : ChangeUnit :=
  { filePath := "a.ts", range := { startLine := 1, endLine := 2 },
    diffText := "@@ -1,2 +1,2 @@\n-old line\n+newcall()" }

/-- A hunk whose added lines are only `//` comments. -/
def c4raw : ChangeUnit :=
  { filePath := "a.ts", range := { startLine := 2, endLine := 3 },
    diffText := "@@ -1,0 +2,2 @@\n+// one\n+// two" }

/-- A hunk adding a class with a nested method (plus a comment line). -/
def c3raw : ChangeUnit :=
  { filePath := "a.ts", range := { startLine := 1, endLine := 5 },
    diffText := "@@ -0,0 +1,5 @@\n+class A \x7b\n+  // note\n+  m() \x7b\n+  \x7d\n+\x7d" }

/-- The analyzer result for the revised `a.ts` of `c3raw`: the class `A`
spanning lines 1-5 and its method `A.m` spanning lines 3-4. -/
def c3analysis : FileAnalysis :=
  { definitions :=
      [{ name := "A", range := { startLine := 1, endLine := 5 }, kind := some "class",
         qualifiedName := some "A" },
       { name := "m", range := { startLine := 3, endLine := 4 }, kind := some "method",
         qualifiedName := some "A.m" }],
    sourceText := some "class A \x7b\n  // note\n  m() \x7b\n  \x7d\n\x7d", tsAst := none }

def c3getAnalysis : String → FileAnalysis := fun _ => c3analysis

/-- A changed definition `callee` and a changed definition `caller` whose
related calls name `callee`; the graph builder links them callee → caller. -/
def calleeUnit : ChangeUnit :=
  { filePath := "a.py", range := { startLine := 1, endLine := 5 }, diffText := "",
    changeKind := some .definition, definitionName := some "callee" }

def callerUnit : ChangeUnit :=
  { filePath := "a.py", range := { startLine := 10, endLine := 20 }, diffText := "",
    changeKind := some .definition, definitionName := some "caller",
    relatedCalls := some
      [{ name := "callee", qualifiedName := none,
         range := { startLine := 11, endLine := 11 } }] }

def stepCallee : TourStep :=
  { id := "main-1", type := .main, target := .unit calleeUnit, explanation := "" }

def stepCaller : TourStep :=
  { id := "main-2", type := .main, target := .unit callerUnit, explanation := "" }

/-- Two operation steps tying on every ordering key (same file, same
start line, same kind) but distinguishable by their end lines. -/
def tieUnitA : ChangeUnit :=
  { filePath := "a.ts", range := { startLine := 1, endLine := 2 }, diffText := "",
    changeKind := some .operation }

def tieUnitB : ChangeUnit :=
  { filePath := "a.ts", range := { startLine := 1, endLine := 3 }, diffText := "",
    changeKind := some .operation }

def tieStepA : TourStep :=
  { id := "main-1", type := .main, target := .unit tieUnitA, explanation := "" }

def tieStepB : TourStep :=
  { id := "main-2", type := .main, target := .unit tieUnitB, explanation := "" }

/-! ### Specification-side definitions

These restate, for the theorems below, what the claims quantify over;
they are read off the spec's wording, not the code. -/

/-- The added lines of a raw hunk that lie in an emitted unit's range:
the very sets `splitChangeUnitsByDefinitions` filters each unit's diff
text by (a definition unit keeps the added lines of its definition's
range; an operation unit's range is the contiguous run it was built
from). -/
def unitClaimedLines (added : List AddedLine) (u : ChangeUnit) : List Nat :=
  (added.filter (fun l => isWithinRange u.range l.lineNumber)).map (·.lineNumber)

/-- A diff text has an added line as `classifyChange` counts one. -/
def diffHasAdd (diffText : String) : Bool :=
  (jsSplitLines diffText).any (fun line =>
    !(strStartsWith line "+++" || strStartsWith line "---" || strStartsWith line "@@") &&
    strStartsWith line "+")

/-- A diff text has a removed line as `classifyChange` counts one. -/
def diffHasRemove (diffText : String) : Bool :=
  (jsSplitLines diffText).any (fun line =>
    !(strStartsWith line "+++" || strStartsWith line "---" || strStartsWith line "@@") &&
    strStartsWith line "-")

/-- A step whose target unit is classified `global` (the claims' notion;
`isGlobalStep` additionally tests the step type and the target shape). -/
def stepIsGlobalUnit (s : TourStep) : Prop :=
  targetChangeKind s.target = some ChangeKind.global

/-- A line range is valid when it starts at line 1 or later and does not
end before it starts. -/
def validRange (r : LineRange) : Prop :=
  1 ≤ r.startLine ∧ r.startLine ≤ r.endLine

/-- No call overlapping the unit resolves against the original file's
definition tables (or the file's content/analysis is unavailable): the
condition under which the background resolver leaves a unit untouched. -/
def bgNoResolvedCall (world : BgWorld) (root : String) (unit : ChangeUnit) : Prop :=
  match bgFileData world root (normalizeRelativePath root unit.filePath) with
  | none => True
  | some analyses =>
      (buildBackgroundRegionsForUnit unit (normalizeRelativePath root unit.filePath)
        analyses.1.functions analyses.2.calls analyses.1.functionsByName
        analyses.1.functionsByQualifiedName).2 = []

/-- A world with no retrievable file content at all. -/
def bgNoneWorld : BgWorld :=
  { getFileContentAtHead := fun _ _ => none, readFile := fun _ => none,
    analyzeFile := fun _ _ => none }

/-- A prior definition `helper` on lines 1-2 of `a.py`. -/
def c7def : DefinitionLike :=
  { name := "helper", qualifiedName := "helper",
    range := { startLine := 1, endLine := 2 } }

/-- A revised-side call of `helper` on line 5. -/
def c7call : AnalyzerCall :=
  { name := "helper", qualifiedName := none,
    range := { startLine := 5, endLine := 5 } }

def c7headAnalysis : BgAnalysis :=
  { functions := [c7def], calls := [],
    functionsByName := [("helper", [c7def])],
    functionsByQualifiedName := [("helper", [c7def])] }

def c7revAnalysis : BgAnalysis :=
  { functions := [c7def], calls := [c7call],
    functionsByName := [("helper", [c7def])],
    functionsByQualifiedName := [("helper", [c7def])] }

def c7world : BgWorld :=
  { getFileContentAtHead := fun _ _ => some "head",
    readFile := fun _ => some "rev",
    analyzeFile := fun _ text =>
      if text = "head" then some c7headAnalysis else some c7revAnalysis }

def c7unit : ChangeUnit :=
  { filePath := "a.py", range := { startLine := 4, endLine := 6 }, diffText := "" }

/-- A global-variable unit and step for the ordering instances. -/
def c2unitG : ChangeUnit :=
  { filePath := "g.ts", range := { startLine := 1, endLine := 1 }, diffText := "",
    changeKind := some .global }

def c2stepG : TourStep :=
  { id := "main-0", type := .main, target := .unit c2unitG, explanation := "" }

/-- The unit the diff parser emits for `c6diff`. -/
def c6parsedUnit : ChangeUnit :=
  { filePath := "f.ts", range := { startLine := 1, endLine := 1 },
    diffText := "@@ -1,2 +0,0 @@\n" }

/-- The single unit the splitter emits for `c5raw`. -/
def c5outUnit : ChangeUnit :=
  { filePath := "a.ts", range := { startLine := 1, endLine := 1 },
    diffText := "@@ -1,2 +1,2 @@\n+newcall()",
    changeKind := some .operation, changeType := some .modify }

end Mentor

namespace Mentor

/-! ## Claim evaluations -/

/-- C1, failing input: the final order places the caller definition
(`main-2`) at index 0 and the callee definition (`main-1`) at index 1,
while `buildTourGraph` over that very order emits the `def-to-def` edge
`main-1 → main-2`; the edge's `from` index (1) exceeds its `to` index
(0), so dependency precedence fails on the code, against the code's own
comment that a callee definition is explained before its caller. -/
theorem c1_def_to_def_edge_violates_order :
    reorderMainSteps 100 [stepCallee, stepCaller] = [stepCaller, stepCallee] ∧
    (buildTourGraph (reorderMainSteps 100 [stepCallee, stepCaller])).edges =
      [{ fromId := "main-1", toId := "main-2", type := "def-to-def" }] ∧
    List.findIdx (fun s => s.id == "main-1") (reorderMainSteps 100 [stepCallee, stepCaller]) = 1 ∧
    List.findIdx (fun s => s.id == "main-2") (reorderMainSteps 100 [stepCallee, stepCaller]) = 0 := by
  decide

/-- C8, counterexample: swapping two steps that tie on every comparator
key swaps the output order, so the ordering is not a pure function of
the step graph. -/
theorem c8_shuffle_changes_order :
    reorderMainSteps 1000 [tieStepA, tieStepB] = [tieStepA, tieStepB] ∧
    reorderMainSteps 1000 [tieStepB, tieStepA] = [tieStepB, tieStepA] ∧
    reorderMainSteps 1000 [tieStepA, tieStepB] ≠ reorderMainSteps 1000 [tieStepB, tieStepA] := by
  decide

/-- C3, counterexample: splitting the class-with-method hunk yields two
definition units whose claimed added lines (the added lines of the hunk
lying in each unit's range, exactly the sets the splitter filters the
diff by) are `[1,2,3,4,5]` and `[3,4]` — not pairwise disjoint (lines 3
and 4 appear in both sibling units), and their union contains the
comment line 2, which is not a meaningful added line. -/
theorem c3_nested_definitions_share_lines :
    ((splitChangeUnitsByDefinitions c3getAnalysis noRead [c3raw] "/w").map
      (fun u => ((collectAddedLines c3raw.diffText).filter
        (fun l => isWithinRange u.range l.lineNumber)).map (·.lineNumber))) =
      [[1, 2, 3, 4, 5], [3, 4]] ∧
    isMeaningfulAddedLine "  // note" (some Language.typescript) = false := by
  decide

/-- C4, counterexample: a hunk whose added lines are all comments
produces one pass-through unit, not zero units. -/
theorem c4_comment_hunk_counterexample :
    ((collectAddedLines c4raw.diffText).all
      (fun l => !isMeaningfulAddedLine l.text (detectLanguageFromPath c4raw.filePath))) = true ∧
    (splitChangeUnitsByDefinitions (fun _ => emptyFileAnalysis) noRead [c4raw] "/w").length = 1 := by
  decide

/-- C5, counterexample: the emitted operation unit keeps the raw hunk's
`modify` classification while its own diff text (removed lines filtered
out) would classify as `add`. -/
theorem c5_changetype_counterexample :
    (splitChangeUnitsByDefinitions (fun _ => emptyFileAnalysis) noRead [c5raw] "/w").map
      (fun u => (u.changeType, classifyChange u.diffText)) =
      [(some ChangeType.modify, ChangeType.add)] := by
  decide

/-- C6, counterexample: a matched header `+0,0` yields the clamped range
`[1,1]`, not the claim's `[newStart, newStart + max(newLength,1) - 1] = [0,0]`. -/
theorem c6_hunk_range_counterexample :
    (parseChangeUnitsFromDiff c6diff "/w").map (·.range) =
      [{ startLine := 1, endLine := 1 }] ∧
    ({ startLine := 1, endLine := 1 } : LineRange) ≠
      { startLine := 0, endLine := 0 + max 0 1 - 1 } := by
  decide

/-- C6, amended: every flush of a hunk whose header matched
`+newStart,newLength` (an omitted length having been parsed as 1) under
a current file emits one unit whose revised-side range is
`[max(1,newStart), max(1,newStart) + max(newLength,1) - 1]`: the claim's
formula with the new-side start clamped to 1. -/
theorem c6_hunk_range_amended (st : ParseState) (file : String) (s l : Nat)
    (hfile : st.currentFile = some file)
    (hhdr : st.currentHunkHeader = some { newStart := s, newLength := l }) :
    (flushHunk st).units = st.units ++
      [{ filePath := file,
         range := { startLine := max 1 s, endLine := max 1 s + max l 1 - 1 },
         diffText := String.intercalate "\n" st.currentHunkLines }] := by
  have h2 : (if l > 0 then max 1 s + l - 1 else max 1 s) = max 1 s + max l 1 - 1 := by
    by_cases hl : l > 0
    · simp only [if_pos hl]
      omega
    · simp only [if_neg hl]
      omega
  simp only [flushHunk, hfile, hhdr, h2]

theorem c6_hunk_range_amended_witness :
    (flushHunk
      { currentFile := some "f.ts", currentHunkLines := ["@@ -1,2 +3,0 @@"],
        currentHunkHeader := some { newStart := 3, newLength := 0 }, units := [] }).units =
      [] ++ [{ filePath := "f.ts",
               range := { startLine := max 1 3, endLine := max 1 3 + max 0 1 - 1 },
               diffText := String.intercalate "\n" ["@@ -1,2 +3,0 @@"] }] :=
  c6_hunk_range_amended _ "f.ts" 3 0 rfl rfl

/-! ### C5 support: the classification of `classifyChange` -/

theorem strStartsWith_plus_not_minus (l : String) (h : strStartsWith l "+" = true) :
    strStartsWith l "-" = false := by
  unfold strStartsWith at h ⊢
  have hp : ("+" : String).data = ['+'] := rfl
  have hm : ("-" : String).data = ['-'] := rfl
  rw [hp] at h
  rw [hm]
  cases hd : l.data with
  | nil => rw [hd] at h; simp [charsHaveAt] at h
  | cons c cs =>
      rw [hd] at h
      simp only [charsHaveAt, Bool.and_eq_true, decide_eq_true_eq] at h
      simp [charsHaveAt, h.1]

theorem classify_foldl (lines : List String) (a b : Bool) :
    lines.foldl classifyStep (a, b) =
    (a || lines.any (fun line =>
        !(strStartsWith line "+++" || strStartsWith line "---" || strStartsWith line "@@") &&
        strStartsWith line "+"),
     b || lines.any (fun line =>
        !(strStartsWith line "+++" || strStartsWith line "---" || strStartsWith line "@@") &&
        strStartsWith line "-")) := by
  induction lines generalizing a b with
  | nil => simp
  | cons l ls ih =>
      rw [List.foldl_cons]
      by_cases h1 : (strStartsWith l "+++" || strStartsWith l "---" || strStartsWith l "@@") = true
      · have hstep : classifyStep (a, b) l = (a, b) := by
          simp [classifyStep, h1]
        have hP : (!(strStartsWith l "+++" || strStartsWith l "---" || strStartsWith l "@@") &&
            strStartsWith l "+") = false := by simp [h1]
        have hQ : (!(strStartsWith l "+++" || strStartsWith l "---" || strStartsWith l "@@") &&
            strStartsWith l "-") = false := by simp [h1]
        rw [hstep, ih]
        simp only [List.any_cons, hP, hQ, Bool.false_or]
      · have h1f : (strStartsWith l "+++" || strStartsWith l "---" || strStartsWith l "@@") = false := by
          simpa using h1
        by_cases h2 : strStartsWith l "+" = true
        · have h3 := strStartsWith_plus_not_minus l h2
          have hstep : classifyStep (a, b) l = (true, b) := by
            simp [classifyStep, h1f, h2]
          have hP : (!(strStartsWith l "+++" || strStartsWith l "---" || strStartsWith l "@@") &&
              strStartsWith l "+") = true := by simp [h1f, h2]
          have hQ : (!(strStartsWith l "+++" || strStartsWith l "---" || strStartsWith l "@@") &&
              strStartsWith l "-") = false := by simp [h3]
          rw [hstep, ih]
          simp only [List.any_cons, hP, hQ, Bool.false_or, Bool.true_or, Bool.or_true]
        · have h2f : strStartsWith l "+" = false := by simpa using h2
          by_cases h3 : strStartsWith l "-" = true
          · have hstep : classifyStep (a, b) l = (a, true) := by
              simp [classifyStep, h1f, h2f, h3]
            have hP : (!(strStartsWith l "+++" || strStartsWith l "---" || strStartsWith l "@@") &&
                strStartsWith l "+") = false := by simp [h2f]
            have hQ : (!(strStartsWith l "+++" || strStartsWith l "---" || strStartsWith l "@@") &&
                strStartsWith l "-") = true := by simp [h1f, h3]
            rw [hstep, ih]
            simp only [List.any_cons, hP, hQ, Bool.false_or, Bool.true_or, Bool.or_true]
          · have h3f : strStartsWith l "-" = false := by simpa using h3
            have hstep : classifyStep (a, b) l = (a, b) := by
              simp [classifyStep, h1f, h2f, h3f]
            have hP : (!(strStartsWith l "+++" || strStartsWith l "---" || strStartsWith l "@@") &&
                strStartsWith l "+") = false := by simp [h2f]
            have hQ : (!(strStartsWith l "+++" || strStartsWith l "---" || strStartsWith l "@@") &&
                strStartsWith l "-") = false := by simp [h3f]
            rw [hstep, ih]
            simp only [List.any_cons, hP, hQ, Bool.false_or]

theorem classifyChange_spec (d : String) :
    classifyChange d =
      (if diffHasAdd d && diffHasRemove d then ChangeType.modify
       else if diffHasAdd d then ChangeType.add
       else if diffHasRemove d then ChangeType.remove
       else ChangeType.unknown) := by
  unfold classifyChange diffHasAdd diffHasRemove
  rw [classify_foldl]
  simp

theorem splitOneUnit_changeType (g : String → FileAnalysis)
    (r : String → Option String) (w : String) (raw : ChangeUnit) :
    ∀ u ∈ splitOneUnit g r w raw, u.changeType = some (classifyChange raw.diffText) := by
  intro u hu
  simp only [splitOneUnit] at hu
  split at hu
  · simp only [List.mem_cons, List.not_mem_nil, or_false] at hu
    subst hu; rfl
  · simp only [List.mem_append, List.mem_map, List.mem_flatMap] at hu
    rcases hu with ⟨d, _, hu⟩ | ⟨grp, _, hu⟩
    · subst hu; rfl
    · simp only [splitGroupUnits] at hu
      split at hu
      · simp only [List.mem_cons, List.not_mem_nil, or_false] at hu
        subst hu; rfl
      · simp only [List.mem_map] at hu
        obtain ⟨chunk, _, hu⟩ := hu
        subst hu; rfl

/-- C5, amended: a split unit's `changeType` is computed by
`classifyChange` from the *raw hunk's* diff text (the unit it was split
from), not from the emitted unit's own filtered diff text; and
`classifyChange` maps presence of added/removed lines to
modify / add / remove / unknown as the claim describes. -/
theorem c5_changetype_amended (getAnalysis : String → FileAnalysis)
    (readFile : String → Option String) (units : List ChangeUnit) (root : String) :
    (∀ u ∈ splitChangeUnitsByDefinitions getAnalysis readFile units root,
      ∃ raw ∈ units, u.changeType = some (classifyChange raw.diffText)) ∧
    (∀ d : String, classifyChange d =
      (if diffHasAdd d && diffHasRemove d then ChangeType.modify
       else if diffHasAdd d then ChangeType.add
       else if diffHasRemove d then ChangeType.remove
       else ChangeType.unknown)) := by
  constructor
  · intro u hu
    rw [splitChangeUnitsByDefinitions] at hu
    simp only [List.mem_flatMap] at hu
    obtain ⟨raw, hraw, hu⟩ := hu
    exact ⟨raw, hraw, splitOneUnit_changeType _ _ _ _ u hu⟩
  · exact classifyChange_spec

theorem c5_changetype_amended_witness :
    ChangeUnit.changeType c5outUnit = some (classifyChange c5raw.diffText) := by
  obtain ⟨raw, hraw, h⟩ :=
    (c5_changetype_amended (fun _ => emptyFileAnalysis) noRead [c5raw] "/w").1
      c5outUnit (by decide)
  have hr : raw = c5raw := by simpa using hraw
  rw [hr] at h
  exact h

/-! ### C10 support: the accumulator shape of the background fold -/

theorem bgStep_foldl_shape (relativePath : String)
    (byName byQualified : List (String × List DefinitionLike)) :
    ∀ (calls : List AnalyzerCall) (acc : List CodeRegion × List AnalyzerCall),
      ∃ t, (calls.foldl (bgStep relativePath byName byQualified) acc).2 = acc.2 ++ t ∧
        (t = [] → (calls.foldl (bgStep relativePath byName byQualified) acc).1 = acc.1) := by
  intro calls
  induction calls with
  | nil =>
      intro acc
      exact ⟨[], by simp, fun _ => rfl⟩
  | cons c cs ih =>
      intro acc
      rw [List.foldl_cons]
      cases hm : (findMatchingDefinition c byQualified).orElse
          (fun _ => findMatchingDefinition c byName) with
      | none =>
          have hstep : bgStep relativePath byName byQualified acc c = acc := by
            simp [bgStep, hm]
          rw [hstep]
          exact ih acc
      | some d =>
          have hstep : bgStep relativePath byName byQualified acc c =
              ((if acc.1.any (fun existing =>
                  isSameRegion existing (toRegion relativePath d)) then acc.1
                else acc.1 ++ [toRegion relativePath d]), acc.2 ++ [c]) := by
            simp [bgStep, hm]
          rw [hstep]
          obtain ⟨t, ht, _⟩ := ih _
          refine ⟨c :: t, ?_, ?_⟩
          · rw [ht]
            simp
          · intro h
            simp at h

/-- C10: the background resolver maps each unit independently through
`attachBackgroundRegionsUnit`; that map never changes a unit's identity
fields (path, range, diff text, names, kinds, ids, introduced
definitions, overall flag), and when no overlapping call resolves (or
the file's head/revised content or analysis is unavailable) it leaves
`backgroundRegions` and `relatedCalls` untouched as well, returning the
unit unchanged. -/
theorem c10_frame_effect (world : BgWorld) (root : String) (units : List ChangeUnit)
    (unit : ChangeUnit) (hno : bgNoResolvedCall world root unit) :
    attachBackgroundRegions world root units =
      units.map (attachBackgroundRegionsUnit world root) ∧
    (∀ u : ChangeUnit,
      (attachBackgroundRegionsUnit world root u).filePath = u.filePath ∧
      (attachBackgroundRegionsUnit world root u).range = u.range ∧
      (attachBackgroundRegionsUnit world root u).diffText = u.diffText ∧
      (attachBackgroundRegionsUnit world root u).symbolName = u.symbolName ∧
      (attachBackgroundRegionsUnit world root u).changeKind = u.changeKind ∧
      (attachBackgroundRegionsUnit world root u).changeType = u.changeType ∧
      (attachBackgroundRegionsUnit world root u).definitionName = u.definitionName ∧
      (attachBackgroundRegionsUnit world root u).definitionType = u.definitionType ∧
      (attachBackgroundRegionsUnit world root u).elementKind = u.elementKind ∧
      (attachBackgroundRegionsUnit world root u).qualifiedName = u.qualifiedName ∧
      (attachBackgroundRegionsUnit world root u).containerName = u.containerName ∧
      (attachBackgroundRegionsUnit world root u).segmentId = u.segmentId ∧
      (attachBackgroundRegionsUnit world root u).introducedDefinitions =
        u.introducedDefinitions ∧
      (attachBackgroundRegionsUnit world root u).isOverall = u.isOverall) ∧
    attachBackgroundRegionsUnit world root unit = unit := by
  refine ⟨rfl, ?_, ?_⟩
  · intro u
    unfold attachBackgroundRegionsUnit
    cases h : bgFileData world root (normalizeRelativePath root u.filePath) with
    | none => simp [h]
    | some analyses =>
        simp only [h]
        split <;> split <;> simp
  · unfold bgNoResolvedCall at hno
    unfold attachBackgroundRegionsUnit
    cases h : bgFileData world root (normalizeRelativePath root unit.filePath) with
    | none => simp [h]
    | some analyses =>
        simp only [h] at hno ⊢
        have h1 : (buildBackgroundRegionsForUnit unit
            (normalizeRelativePath root unit.filePath) analyses.1.functions
            analyses.2.calls analyses.1.functionsByName
            analyses.1.functionsByQualifiedName).1 = [] := by
          unfold buildBackgroundRegionsForUnit at hno ⊢
          obtain ⟨t, ht, himp⟩ := bgStep_foldl_shape
            (normalizeRelativePath root unit.filePath) analyses.1.functionsByName
            analyses.1.functionsByQualifiedName
            (analyses.2.calls.filter (fun call => rangesOverlap call.range unit.range))
            ([], [])
          rw [ht] at hno
          simp only [List.nil_append] at hno
          exact himp hno
        rw [hno, h1]
        simp

theorem c10_frame_effect_witness :
    attachBackgroundRegionsUnit bgNoneWorld "/w" c4raw = c4raw :=
  (c10_frame_effect bgNoneWorld "/w" [] c4raw (by
    unfold bgNoResolvedCall
    simp [bgFileData, bgNoneWorld])).2.2

/-! ### C7 support: provenance and distinctness of the background fold -/

theorem bgStep_foldl_mem_snd (p : String)
    (byName byQualified : List (String × List DefinitionLike)) :
    ∀ (calls : List AnalyzerCall) (acc : List CodeRegion × List AnalyzerCall)
      (c : AnalyzerCall),
      c ∈ (calls.foldl (bgStep p byName byQualified) acc).2 →
      c ∈ acc.2 ∨ (c ∈ calls ∧
        ((findMatchingDefinition c byQualified).orElse
          (fun _ => findMatchingDefinition c byName)).isSome = true) := by
  intro calls
  induction calls with
  | nil =>
      intro acc c hc
      exact Or.inl hc
  | cons x xs ih =>
      intro acc c hc
      rw [List.foldl_cons] at hc
      cases hm : (findMatchingDefinition x byQualified).orElse
          (fun _ => findMatchingDefinition x byName) with
      | none =>
          have hstep : bgStep p byName byQualified acc x = acc := by
            simp [bgStep, hm]
          rw [hstep] at hc
          rcases ih acc c hc with h | ⟨h1, h2⟩
          · exact Or.inl h
          · exact Or.inr ⟨List.mem_cons_of_mem _ h1, h2⟩
      | some d =>
          have hstep : bgStep p byName byQualified acc x =
              ((if acc.1.any (fun existing => isSameRegion existing (toRegion p d))
                  then acc.1 else acc.1 ++ [toRegion p d]), acc.2 ++ [x]) := by
            simp [bgStep, hm]
          rw [hstep] at hc
          rcases ih _ c hc with hmem | ⟨h1, h2⟩
          · have hmem' : c ∈ acc.2 ++ [x] := hmem
            rcases List.mem_append.mp hmem' with h | h
            · exact Or.inl h
            · have hx : c = x := by simpa using h
              subst hx
              exact Or.inr ⟨List.mem_cons_self _ _, by rw [hm]; rfl⟩
          · exact Or.inr ⟨List.mem_cons_of_mem _ h1, h2⟩

theorem bgStep_foldl_mem_fst (p : String)
    (byName byQualified : List (String × List DefinitionLike)) :
    ∀ (calls : List AnalyzerCall) (acc : List CodeRegion × List AnalyzerCall)
      (r : CodeRegion),
      r ∈ (calls.foldl (bgStep p byName byQualified) acc).1 →
      r ∈ acc.1 ∨ ∃ c ∈ calls, ∃ d,
        (findMatchingDefinition c byQualified).orElse
          (fun _ => findMatchingDefinition c byName) = some d ∧
        r = toRegion p d := by
  intro calls
  induction calls with
  | nil =>
      intro acc r hr
      exact Or.inl hr
  | cons x xs ih =>
      intro acc r hr
      rw [List.foldl_cons] at hr
      cases hm : (findMatchingDefinition x byQualified).orElse
          (fun _ => findMatchingDefinition x byName) with
      | none =>
          have hstep : bgStep p byName byQualified acc x = acc := by
            simp [bgStep, hm]
          rw [hstep] at hr
          rcases ih acc r hr with h | ⟨c, hc, d, hd, hrd⟩
          · exact Or.inl h
          · exact Or.inr ⟨c, List.mem_cons_of_mem _ hc, d, hd, hrd⟩
      | some d =>
          have hstep : bgStep p byName byQualified acc x =
              ((if acc.1.any (fun existing => isSameRegion existing (toRegion p d))
                  then acc.1 else acc.1 ++ [toRegion p d]), acc.2 ++ [x]) := by
            simp [bgStep, hm]
          rw [hstep] at hr
          rcases ih _ r hr with hmem | ⟨c, hc, d', hd', hrd'⟩
          · have hmem' : r ∈ (if acc.1.any (fun existing =>
                isSameRegion existing (toRegion p d)) then acc.1
                else acc.1 ++ [toRegion p d]) := hmem
            by_cases hany : acc.1.any (fun existing =>
                isSameRegion existing (toRegion p d)) = true
            · rw [if_pos hany] at hmem'
              exact Or.inl hmem'
            · rw [if_neg hany] at hmem'
              rcases List.mem_append.mp hmem' with h | h
              · exact Or.inl h
              · have hreg : r = toRegion p d := by simpa using h
                exact Or.inr ⟨x, List.mem_cons_self _ _, d, hm, hreg⟩
          · exact Or.inr ⟨c, List.mem_cons_of_mem _ hc, d', hd', hrd'⟩

theorem bgStep_foldl_pairwise (p : String)
    (byName byQualified : List (String × List DefinitionLike)) :
    ∀ (calls : List AnalyzerCall) (acc : List CodeRegion × List AnalyzerCall),
      List.Pairwise (fun a b => isSameRegion a b = false) acc.1 →
      List.Pairwise (fun a b => isSameRegion a b = false)
        (calls.foldl (bgStep p byName byQualified) acc).1 := by
  intro calls
  induction calls with
  | nil =>
      intro acc hacc
      exact hacc
  | cons x xs ih =>
      intro acc hacc
      rw [List.foldl_cons]
      cases hm : (findMatchingDefinition x byQualified).orElse
          (fun _ => findMatchingDefinition x byName) with
      | none =>
          have hstep : bgStep p byName byQualified acc x = acc := by
            simp [bgStep, hm]
          rw [hstep]
          exact ih acc hacc
      | some d =>
          have hstep : bgStep p byName byQualified acc x =
              ((if acc.1.any (fun existing => isSameRegion existing (toRegion p d))
                  then acc.1 else acc.1 ++ [toRegion p d]), acc.2 ++ [x]) := by
            simp [bgStep, hm]
          rw [hstep]
          apply ih
          show List.Pairwise (fun a b => isSameRegion a b = false)
            (if acc.1.any (fun existing => isSameRegion existing (toRegion p d))
              then acc.1 else acc.1 ++ [toRegion p d])
          by_cases hany : acc.1.any (fun existing =>
              isSameRegion existing (toRegion p d)) = true
          · rw [if_pos hany]
            exact hacc
          · rw [if_neg hany]
            refine List.pairwise_append.mpr ⟨hacc, by simp, ?_⟩
            intro a ha b hb
            have hb' : b = toRegion p d := by simpa using hb
            subst hb'
            by_contra hcon
            have htrue : isSameRegion a (toRegion p d) = true := by
              cases hcase : isSameRegion a (toRegion p d)
              · exact absurd hcase hcon
              · rfl
            exact hany (List.any_eq_true.mpr ⟨a, ha, htrue⟩)

/-- The three properties of one unit's background computation: every
call kept resolved and overlapped, every region is a resolved call's
definition region, and the regions are pairwise distinct. -/
theorem buildBackground_props (u : ChangeUnit) (p : String)
    (fns : List DefinitionLike) (calls : List AnalyzerCall)
    (byName byQualified : List (String × List DefinitionLike)) :
    (∀ c ∈ (buildBackgroundRegionsForUnit u p fns calls byName byQualified).2,
      c ∈ calls ∧ rangesOverlap c.range u.range = true ∧
      ((findMatchingDefinition c byQualified).orElse
        (fun _ => findMatchingDefinition c byName)).isSome = true) ∧
    (∀ r ∈ (buildBackgroundRegionsForUnit u p fns calls byName byQualified).1,
      ∃ c ∈ calls, rangesOverlap c.range u.range = true ∧ ∃ d,
        (findMatchingDefinition c byQualified).orElse
          (fun _ => findMatchingDefinition c byName) = some d ∧
        r = toRegion p d) ∧
    List.Pairwise (fun a b => isSameRegion a b = false)
      (buildBackgroundRegionsForUnit u p fns calls byName byQualified).1 := by
  unfold buildBackgroundRegionsForUnit
  refine ⟨?_, ?_, ?_⟩
  · intro c hc
    rcases bgStep_foldl_mem_snd p byName byQualified _ _ c hc with h | ⟨h1, h2⟩
    · simp at h
    · simp only [List.mem_filter] at h1
      exact ⟨h1.1, h1.2, h2⟩
  · intro r hr
    rcases bgStep_foldl_mem_fst p byName byQualified _ _ r hr with h | ⟨c, hc, d, hd, hrd⟩
    · simp at h
    · simp only [List.mem_filter] at hc
      exact ⟨c, hc.1, hc.2, d, hd, hrd⟩
  · exact bgStep_foldl_pairwise p byName byQualified _ _ List.Pairwise.nil

/-- The output fields of `attachBackgroundRegionsUnit` when the file's
head and revised analyses are available. -/
theorem attachUnit_fields (world : BgWorld) (root : String) (u : ChangeUnit)
    (analyses : BgAnalysis × BgAnalysis)
    (h : bgFileData world root (normalizeRelativePath root u.filePath) = some analyses) :
    (attachBackgroundRegionsUnit world root u).filePath = u.filePath ∧
    (attachBackgroundRegionsUnit world root u).range = u.range ∧
    (attachBackgroundRegionsUnit world root u).relatedCalls =
      (if 0 < (buildBackgroundRegionsForUnit u (normalizeRelativePath root u.filePath)
          analyses.1.functions analyses.2.calls analyses.1.functionsByName
          analyses.1.functionsByQualifiedName).2.length then
        some ((buildBackgroundRegionsForUnit u (normalizeRelativePath root u.filePath)
          analyses.1.functions analyses.2.calls analyses.1.functionsByName
          analyses.1.functionsByQualifiedName).2.map (fun c =>
            ({ name := c.name, qualifiedName := c.qualifiedName,
               range := c.range } : RelatedCall)))
      else u.relatedCalls) ∧
    (attachBackgroundRegionsUnit world root u).backgroundRegions =
      (if 0 < (buildBackgroundRegionsForUnit u (normalizeRelativePath root u.filePath)
          analyses.1.functions analyses.2.calls analyses.1.functionsByName
          analyses.1.functionsByQualifiedName).1.length then
        some (buildBackgroundRegionsForUnit u (normalizeRelativePath root u.filePath)
          analyses.1.functions analyses.2.calls analyses.1.functionsByName
          analyses.1.functionsByQualifiedName).1
      else u.backgroundRegions) := by
  unfold attachBackgroundRegionsUnit
  simp only [h]
  refine ⟨?_, ?_, ?_, ?_⟩
  all_goals split
  all_goals try split
  all_goals simp

/-- C7: after the background resolver runs, every related call recorded
on a unit is a revised-side analyzer call overlapping the unit's range
that resolved (by qualified or simple name) against the original file's
definition tables; every background region is the definition region of
such a resolved call (so a call resolving to no prior definition
contributes neither entry); and no two background regions of one unit
share both file path and range. -/
theorem c7_background_resolution (world : BgWorld) (root : String)
    (units : List ChangeUnit)
    (h0 : ∀ u ∈ units, u.relatedCalls = none ∧ u.backgroundRegions = none) :
    ∀ v ∈ attachBackgroundRegions world root units,
      (∀ rc ∈ v.relatedCalls.getD [],
        ∃ analyses : BgAnalysis × BgAnalysis,
          bgFileData world root (normalizeRelativePath root v.filePath) = some analyses ∧
          ∃ ac ∈ analyses.2.calls,
            rc = { name := ac.name, qualifiedName := ac.qualifiedName,
                   range := ac.range } ∧
            rangesOverlap ac.range v.range = true ∧
            ((findMatchingDefinition ac analyses.1.functionsByQualifiedName).orElse
              (fun _ => findMatchingDefinition ac analyses.1.functionsByName)).isSome
              = true) ∧
      (∀ r ∈ v.backgroundRegions.getD [],
        ∃ analyses : BgAnalysis × BgAnalysis,
          bgFileData world root (normalizeRelativePath root v.filePath) = some analyses ∧
          ∃ ac ∈ analyses.2.calls, rangesOverlap ac.range v.range = true ∧
          ∃ d, (findMatchingDefinition ac analyses.1.functionsByQualifiedName).orElse
              (fun _ => findMatchingDefinition ac analyses.1.functionsByName) = some d ∧
            r = toRegion (normalizeRelativePath root v.filePath) d) ∧
      List.Pairwise (fun a b => isSameRegion a b = false)
        (v.backgroundRegions.getD []) := by
  intro v hv
  simp only [attachBackgroundRegions, List.mem_map] at hv
  obtain ⟨u, hu, rfl⟩ := hv
  obtain ⟨hrc0, hbg0⟩ := h0 u hu
  cases h : bgFileData world root (normalizeRelativePath root u.filePath) with
  | none =>
      have hvu : attachBackgroundRegionsUnit world root u = u := by
        unfold attachBackgroundRegionsUnit
        simp [h]
      rw [hvu, hrc0, hbg0]
      exact ⟨by simp, by simp, by simp⟩
  | some analyses =>
      obtain ⟨hfp, hrg, hrel, hbg⟩ := attachUnit_fields world root u analyses h
      rw [hfp, hrg, hrel, hbg]
      refine ⟨?_, ?_, ?_⟩
      · by_cases hb2 : 0 < (buildBackgroundRegionsForUnit u
            (normalizeRelativePath root u.filePath) analyses.1.functions
            analyses.2.calls analyses.1.functionsByName
            analyses.1.functionsByQualifiedName).2.length
        · rw [if_pos hb2]
          intro rc hrc
          simp only [Option.getD_some, List.mem_map] at hrc
          obtain ⟨ac, hac, rfl⟩ := hrc
          obtain ⟨h1, h2, h3⟩ := (buildBackground_props u
            (normalizeRelativePath root u.filePath) analyses.1.functions
            analyses.2.calls analyses.1.functionsByName
            analyses.1.functionsByQualifiedName).1 ac hac
          exact ⟨analyses, h, ac, h1, rfl, h2, h3⟩
        · rw [if_neg hb2, hrc0]
          intro rc hrc
          simp at hrc
      · by_cases hb1 : 0 < (buildBackgroundRegionsForUnit u
            (normalizeRelativePath root u.filePath) analyses.1.functions
            analyses.2.calls analyses.1.functionsByName
            analyses.1.functionsByQualifiedName).1.length
        · rw [if_pos hb1]
          intro r hr
          simp only [Option.getD_some] at hr
          obtain ⟨c, hc, hov, d, hd, hrd⟩ := (buildBackground_props u
            (normalizeRelativePath root u.filePath) analyses.1.functions
            analyses.2.calls analyses.1.functionsByName
            analyses.1.functionsByQualifiedName).2.1 r hr
          exact ⟨analyses, h, c, hc, hov, d, hd, hrd⟩
        · rw [if_neg hb1, hbg0]
          intro r hr
          simp at hr
      · by_cases hb1 : 0 < (buildBackgroundRegionsForUnit u
            (normalizeRelativePath root u.filePath) analyses.1.functions
            analyses.2.calls analyses.1.functionsByName
            analyses.1.functionsByQualifiedName).1.length
        · rw [if_pos hb1]
          simpa using (buildBackground_props u
            (normalizeRelativePath root u.filePath) analyses.1.functions
            analyses.2.calls analyses.1.functionsByName
            analyses.1.functionsByQualifiedName).2.2
        · rw [if_neg hb1, hbg0]
          simp

theorem c7_background_resolution_witness :
    List.Pairwise (fun a b => isSameRegion a b = false)
      ((attachBackgroundRegionsUnit c7world "/w" c7unit).backgroundRegions.getD []) :=
  (c7_background_resolution c7world "/w" [c7unit] (by decide)
    (attachBackgroundRegionsUnit c7world "/w" c7unit)
    (by simp [attachBackgroundRegions])).2.2

/-! ### C4 support: comment lines never detect a definition -/

theorem head_of_charsHaveAt (cs : List Char) (c : Char) (ps : List Char)
    (h : charsHaveAt cs (c :: ps) = true) : ∃ rest, cs = c :: rest := by
  cases cs with
  | nil => simp [charsHaveAt] at h
  | cons x xs =>
      simp only [charsHaveAt, Bool.and_eq_true, decide_eq_true_eq] at h
      exact ⟨xs, by rw [h.1]⟩

theorem detectDefinitionPy_hash (cs : List Char) :
    detectDefinitionPy ('#' :: cs) = none := by
  simp [detectDefinitionPy, consumeKeyword, consumeLit, charsHaveAt, takeIdentAZ,
    asciiAlpha, bind, Option.bind]

theorem detectDefinitionJs_comment_head (c : Char) (cs : List Char)
    (h : c = '/' ∨ c = '*') : detectDefinitionJs (c :: cs) = none := by
  rcases h with h | h <;> subst h <;>
    simp [detectDefinitionJs, consumeOptKeyword, consumeKeyword, consumeLit,
      charsHaveAt, bind, Option.bind]

theorem detectDefinitionJs_of_comment (t : String)
    (h23 : strStartsWith t "//" = true ∨
      (strStartsWith t "/*" || strStartsWith t "*" || strStartsWith t "*/") = true) :
    detectDefinitionJs t.data = none := by
  rcases h23 with h | h
  · unfold strStartsWith at h
    have hd : ("//" : String).data = ['/', '/'] := rfl
    rw [hd] at h
    obtain ⟨rest, hrest⟩ := head_of_charsHaveAt _ '/' _ h
    rw [hrest]
    exact detectDefinitionJs_comment_head '/' rest (Or.inl rfl)
  · rcases Bool.or_eq_true_iff.mp h with h1 | h1
    rcases Bool.or_eq_true_iff.mp h1 with h2 | h2
    · unfold strStartsWith at h2
      have hd : ("/*" : String).data = ['/', '*'] := rfl
      rw [hd] at h2
      obtain ⟨rest, hrest⟩ := head_of_charsHaveAt _ '/' _ h2
      rw [hrest]
      exact detectDefinitionJs_comment_head '/' rest (Or.inl rfl)
    · unfold strStartsWith at h2
      have hd : ("*" : String).data = ['*'] := rfl
      rw [hd] at h2
      obtain ⟨rest, hrest⟩ := head_of_charsHaveAt _ '*' _ h2
      rw [hrest]
      exact detectDefinitionJs_comment_head '*' rest (Or.inr rfl)
    · unfold strStartsWith at h1
      have hd : ("*/" : String).data = ['*', '/'] := rfl
      rw [hd] at h1
      obtain ⟨rest, hrest⟩ := head_of_charsHaveAt _ '*' _ h1
      rw [hrest]
      exact detectDefinitionJs_comment_head '*' rest (Or.inr rfl)

theorem detectDefinition_none_of_not_meaningful (line : String) (lang : Language)
    (h : isMeaningfulAddedLine line (some lang) = false) :
    detectDefinition line lang = none := by
  by_cases ht : jsTrim line = ""
  · simp [detectDefinition, ht]
  · cases lang with
    | python =>
        have hh : strStartsWith (jsTrim line) "#" = true := by
          unfold isMeaningfulAddedLine at h
          simpa [ht] using h
        have hh' : charsHaveAt (jsTrim line).data ['#'] = true := by
          unfold strStartsWith at hh
          have hd : ("#" : String).data = ['#'] := rfl
          rw [hd] at hh
          exact hh
        obtain ⟨rest, hrest⟩ := head_of_charsHaveAt _ '#' [] hh'
        simp only [detectDefinition]
        rw [if_neg ht, hrest]
        exact detectDefinitionPy_hash rest
    | javascript =>
        by_cases h2 : strStartsWith (jsTrim line) "//" = true
        · have hnone := detectDefinitionJs_of_comment (jsTrim line) (Or.inl h2)
          simp only [detectDefinition]
          rw [if_neg ht]
          exact hnone
        · by_cases h3 : (strStartsWith (jsTrim line) "/*" || strStartsWith (jsTrim line) "*"
              || strStartsWith (jsTrim line) "*/") = true
          · have hnone := detectDefinitionJs_of_comment (jsTrim line) (Or.inr h3)
            simp only [detectDefinition]
            rw [if_neg ht]
            exact hnone
          · exfalso
            have h2f : strStartsWith (jsTrim line) "//" = false := by
              cases hx : strStartsWith (jsTrim line) "//"
              · rfl
              · exact absurd hx h2
            have h3f : (strStartsWith (jsTrim line) "/*" || strStartsWith (jsTrim line) "*"
                || strStartsWith (jsTrim line) "*/") = false := by
              cases hx : (strStartsWith (jsTrim line) "/*" || strStartsWith (jsTrim line) "*"
                  || strStartsWith (jsTrim line) "*/")
              · rfl
              · exact absurd hx h3
            obtain ⟨h3ab, h3c⟩ := Bool.or_eq_false_iff.mp h3f
            obtain ⟨h3a, h3b⟩ := Bool.or_eq_false_iff.mp h3ab
            unfold isMeaningfulAddedLine at h
            simp [ht, h2f, h3a, h3b, h3c] at h
    | typescript =>
        by_cases h2 : strStartsWith (jsTrim line) "//" = true
        · have hnone := detectDefinitionJs_of_comment (jsTrim line) (Or.inl h2)
          simp only [detectDefinition]
          rw [if_neg ht]
          exact hnone
        · by_cases h3 : (strStartsWith (jsTrim line) "/*" || strStartsWith (jsTrim line) "*"
              || strStartsWith (jsTrim line) "*/") = true
          · have hnone := detectDefinitionJs_of_comment (jsTrim line) (Or.inr h3)
            simp only [detectDefinition]
            rw [if_neg ht]
            exact hnone
          · exfalso
            have h2f : strStartsWith (jsTrim line) "//" = false := by
              cases hx : strStartsWith (jsTrim line) "//"
              · rfl
              · exact absurd hx h2
            have h3f : (strStartsWith (jsTrim line) "/*" || strStartsWith (jsTrim line) "*"
                || strStartsWith (jsTrim line) "*/") = false := by
              cases hx : (strStartsWith (jsTrim line) "/*" || strStartsWith (jsTrim line) "*"
                  || strStartsWith (jsTrim line) "*/")
              · rfl
              · exact absurd hx h3
            obtain ⟨h3ab, h3c⟩ := Bool.or_eq_false_iff.mp h3f
            obtain ⟨h3a, h3b⟩ := Bool.or_eq_false_iff.mp h3ab
            unfold isMeaningfulAddedLine at h
            simp [ht, h2f, h3a, h3b, h3c] at h

theorem findDefinitionsStep1_skip (language : Language)
    (definitions : List DefinitionRange) (sourceText : Option String)
    (tsAst : Option TsAst) :
    ∀ (addedLines : List AddedLine) (acc : List DefinitionHit × List String),
      (∀ l ∈ addedLines, detectDefinition l.text language = none) →
      addedLines.foldl (findDefinitionsStep1 language definitions sourceText tsAst) acc
        = acc := by
  intro addedLines
  induction addedLines with
  | nil =>
      intro acc _
      rfl
  | cons x xs ih =>
      intro acc hall
      rw [List.foldl_cons]
      have hx : findDefinitionsStep1 language definitions sourceText tsAst acc x = acc := by
        unfold findDefinitionsStep1
        rw [hall x (List.mem_cons_self _ _)]
      rw [hx]
      exact ih acc (fun l hl => hall l (List.mem_cons_of_mem _ hl))

theorem findDefinitionsStep2_skip (addedLines : List AddedLine) :
    ∀ (defs : List DefinitionRange) (acc : List DefinitionHit × List String),
      (∀ d ∈ defs, d.range.startLine ∉ addedLines.map (·.lineNumber)) →
      defs.foldl (findDefinitionsStep2 addedLines) acc = acc := by
  intro defs
  induction defs with
  | nil =>
      intro acc _
      rfl
  | cons x xs ih =>
      intro acc hall
      rw [List.foldl_cons]
      have hx : findDefinitionsStep2 addedLines acc x = acc := by
        unfold findDefinitionsStep2
        rw [if_pos (hall x (List.mem_cons_self _ _))]
      rw [hx]
      exact ih acc (fun d hd => hall d (List.mem_cons_of_mem _ hd))

theorem splitDefinitions_of_comments (getAnalysis : String → FileAnalysis)
    (readFile : String → Option String) (root : String) (unit : ChangeUnit)
    (lang : Language)
    (hlang : detectLanguageFromPath unit.filePath = some lang)
    (hcomments : ∀ l ∈ collectAddedLines unit.diffText,
      isMeaningfulAddedLine l.text (some lang) = false)
    (hdefs : ∀ d ∈ (getAnalysis unit.filePath).definitions,
      d.range.startLine ∉ (collectAddedLines unit.diffText).map (·.lineNumber)) :
    splitDefinitions getAnalysis readFile root unit = [] := by
  unfold splitDefinitions
  simp only [hlang]
  unfold findDefinitions
  rw [findDefinitionsStep1_skip lang (getAnalysis unit.filePath).definitions
    (splitSourceText getAnalysis readFile root unit) (getAnalysis unit.filePath).tsAst
    (collectAddedLines unit.diffText) ([], [])
    (fun l hl => detectDefinition_none_of_not_meaningful l.text lang (hcomments l hl))]
  dsimp only
  rw [findDefinitionsStep2_skip (collectAddedLines unit.diffText)
    (getAnalysis unit.filePath).definitions ([], []) hdefs]

theorem splitOperationalGroups_of_comments (getAnalysis : String → FileAnalysis)
    (readFile : String → Option String) (root : String) (unit : ChangeUnit)
    (lang : Language)
    (hlang : detectLanguageFromPath unit.filePath = some lang)
    (hcomments : ∀ l ∈ collectAddedLines unit.diffText,
      isMeaningfulAddedLine l.text (some lang) = false) :
    splitOperationalGroups getAnalysis readFile root unit = [] := by
  have hfil : ∀ dl : List DefinitionHit,
      (collectAddedLines unit.diffText).filter (fun line =>
        line.lineNumber ∉ dl.map (·.lineNumber) &&
        !((dl.map (·.range)).any (fun range => isWithinRange range line.lineNumber)) &&
        isMeaningfulAddedLine line.text (detectLanguageFromPath unit.filePath)) = [] := by
    intro dl
    rw [List.filter_eq_nil_iff]
    intro l hl
    simp [hlang, hcomments l hl]
  unfold splitOperationalGroups splitOperationalLineNumbers
  dsimp only
  rw [hfil]
  rfl

/-- C4, amended: a hunk whose added lines are all non-meaningful (blank
or comment) and start no analyzer-known definition yields, not zero
units, but exactly one pass-through operation unit: the raw unit's range
and diff text with `changeKind` `operation`, the raw hunk's
classification and the enclosing definition's identity fields. -/
theorem c4_comment_hunk_amended (getAnalysis : String → FileAnalysis)
    (readFile : String → Option String) (root : String) (unit : ChangeUnit)
    (lang : Language)
    (hlang : detectLanguageFromPath unit.filePath = some lang)
    (hcomments : ∀ l ∈ collectAddedLines unit.diffText,
      isMeaningfulAddedLine l.text (some lang) = false)
    (hdefs : ∀ d ∈ (getAnalysis unit.filePath).definitions,
      d.range.startLine ∉ (collectAddedLines unit.diffText).map (·.lineNumber)) :
    splitOneUnit getAnalysis readFile root unit =
      [mkOperationUnit unit unit.range unit.diffText (classifyChange unit.diffText)
        (findEnclosingDefinition (some lang) (getAnalysis unit.filePath).definitions
          unit.range.startLine (splitSourceText getAnalysis readFile root unit))] := by
  have h1 := splitDefinitions_of_comments getAnalysis readFile root unit lang
    hlang hcomments hdefs
  have h2 := splitOperationalGroups_of_comments getAnalysis readFile root unit lang
    hlang hcomments
  unfold splitOneUnit
  rw [h1, h2, hlang]
  simp

/-! ### C9 support: the ranges the parser and splitter emit -/

theorem flushHunk_valid (st : ParseState)
    (h : ∀ u ∈ st.units, validRange u.range) :
    ∀ u ∈ (flushHunk st).units, validRange u.range := by
  intro u hu
  unfold flushHunk at hu
  cases hf : st.currentFile with
  | none =>
      simp only [hf] at hu
      exact h u hu
  | some file =>
      cases hh : st.currentHunkHeader with
      | none =>
          simp only [hf, hh] at hu
          exact h u hu
      | some hdr =>
          simp only [hf, hh] at hu
          rcases List.mem_append.mp hu with h1 | h1
          · exact h u h1
          · obtain rfl := List.mem_singleton.mp h1
            refine ⟨?_, ?_⟩
            · show 1 ≤ max 1 hdr.newStart
              omega
            · show max 1 hdr.newStart ≤
                (if hdr.newLength > 0 then max 1 hdr.newStart + hdr.newLength - 1
                 else max 1 hdr.newStart)
              split <;> omega

theorem parseDiffLine_valid (st : ParseState) (line : String)
    (h : ∀ u ∈ st.units, validRange u.range) :
    ∀ u ∈ (parseDiffLine st line).units, validRange u.range := by
  intro u hu
  unfold parseDiffLine at hu
  split at hu
  · exact flushHunk_valid st h u (by simpa using hu)
  · split at hu
    · dsimp only at hu
      split at hu
      · exact h u (by simpa using hu)
      · split at hu
        · exact h u (by simpa using hu)
        · exact h u (by simpa using hu)
    · split at hu
      · exact flushHunk_valid st h u (by simpa using hu)
      · split at hu
        · exact h u (by simpa using hu)
        · exact h u hu

theorem parseChangeUnitsFromDiff_valid (diffText workspaceRoot : String) :
    ∀ u ∈ parseChangeUnitsFromDiff diffText workspaceRoot, validRange u.range := by
  intro u hu
  unfold parseChangeUnitsFromDiff at hu
  have key : ∀ (lines : List String) (st : ParseState),
      (∀ v ∈ st.units, validRange v.range) →
      ∀ v ∈ (lines.foldl parseDiffLine st).units, validRange v.range := by
    intro lines
    induction lines with
    | nil =>
        intro st hst
        exact hst
    | cons l ls ih =>
        intro st hst
        rw [List.foldl_cons]
        exact ih _ (parseDiffLine_valid st l hst)
  have hu' := List.mem_of_mem_filter hu
  exact flushHunk_valid _ (key _ _ (by simp)) u hu'

theorem scanBracketGo_ge (language : Language) (si s : Nat) :
    ∀ (rest : List String) (i : Nat) (balance : Int) (e : Nat),
      s ≤ e → s ≤ i + 1 → s ≤ scanBracketGo language si rest i balance e := by
  intro rest
  induction rest with
  | nil =>
      intro i bal e he _
      exact he
  | cons raw rs ih =>
      intro i bal e he hi
      unfold scanBracketGo
      dsimp only
      split
      · exact hi
      · split
        · exact hi
        · exact ih (i + 1) _ (i + 1) hi (by omega)

theorem scanBracketRange_le (lines : List String) (startLine : Nat)
    (language : Language) :
    (scanBracketRange lines startLine language).startLine = startLine ∧
    startLine ≤ (scanBracketRange lines startLine language).endLine := by
  refine ⟨rfl, ?_⟩
  show startLine ≤ scanBracketGo language (startLine - 1)
    (lines.drop (startLine - 1)) (startLine - 1) 0 startLine
  exact scanBracketGo_ge language (startLine - 1) startLine _ _ _ _ (le_refl _) (by omega)

theorem scanPyStringGo_ge (triple : String) :
    ∀ (rest : List String) (i e : Nat),
      scanPyStringGo triple rest i = some e → i + 1 ≤ e := by
  intro rest
  induction rest with
  | nil =>
      intro i e he
      simp [scanPyStringGo] at he
  | cons l rs ih =>
      intro i e he
      unfold scanPyStringGo at he
      split at he
      · have : i + 1 = e := by simpa using he
        omega
      · have := ih (i + 1) e he
        omega

theorem scanPythonStringRange_le (lines : List String) (s : Nat) (r : LineRange)
    (h : scanPythonStringRange lines s = some r) :
    r.startLine = s ∧ s ≤ r.endLine := by
  unfold scanPythonStringRange at h
  cases hf : findTripleQuote (lines.getD (s - 1) "") with
  | none =>
      simp only [hf] at h
      cases h
  | some triple =>
      simp only [hf] at h
      split at h
      · have hr : ({ startLine := s, endLine := s } : LineRange) = r := Option.some.inj h
        subst hr
        exact ⟨rfl, le_refl s⟩
      · split at h
        · rename_i endL hsome
          have hr : ({ startLine := s, endLine := endL } : LineRange) = r := Option.some.inj h
          subst hr
          have := scanPyStringGo_ge triple _ _ _ hsome
          refine ⟨rfl, ?_⟩
          show s ≤ endL
          omega
        · have hr : ({ startLine := s, endLine := lines.length } : LineRange) = r :=
            Option.some.inj h
          subst hr
          refine ⟨rfl, ?_⟩
          show s ≤ lines.length
          by_contra hgt
          have hlen : lines.length ≤ s - 1 := by omega
          have hdef : lines.getD (s - 1) "" = "" := List.getD_eq_default _ _ hlen
          rw [hdef] at hf
          have hempty : findTripleQuote "" = none := by decide
          rw [hempty] at hf
          cases hf

theorem foldl_minSpan_mem :
    ∀ (rest : List DefinitionRange) (b : DefinitionRange),
      rest.foldl (fun prev current =>
        if rangeSpan current.range < rangeSpan prev.range then current else prev) b
        ∈ b :: rest := by
  intro rest
  induction rest with
  | nil =>
      intro b
      simp
  | cons c cs ih =>
      intro b
      rw [List.foldl_cons]
      rcases List.mem_cons.mp
          (ih (if rangeSpan c.range < rangeSpan b.range then c else b)) with h1 | h1
      · rw [h1]
        split
        · exact List.mem_cons_of_mem _ (List.mem_cons_self _ _)
        · exact List.mem_cons_self _ _
      · exact List.mem_cons_of_mem _ (List.mem_cons_of_mem _ h1)

theorem reduceMinSpan_mem (first : DefinitionRange) (rest : List DefinitionRange) :
    reduceMinSpan first rest ∈ first :: rest := by
  unfold reduceMinSpan
  exact foldl_minSpan_mem rest first

theorem resolveDefinitionRange_range (definitions : List DefinitionRange)
    (name : String) (lineNumber : Nat) (expectedType : Option String) :
    (∃ d ∈ definitions,
      (resolveDefinitionRange definitions name lineNumber expectedType).range = d.range) ∨
    (resolveDefinitionRange definitions name lineNumber expectedType).range =
      { startLine := lineNumber, endLine := lineNumber } := by
  unfold resolveDefinitionRange
  cases hc : definitions.filter (fun d => isWithinRange d.range lineNumber) with
  | nil =>
      simp only [hc]
      cases hn : definitions.filter (fun d => d.name = name) with
      | nil =>
          simp only [hn]
          right
          trivial
      | cons named rest2 =>
          simp only [hn]
          left
          refine ⟨named, ?_, rfl⟩
          exact List.mem_of_mem_filter (by rw [hn]; exact List.mem_cons_self _ _)
  | cons first others =>
      simp only [hc]
      left
      have hcont : ∀ d, d ∈ first :: others → d ∈ definitions := by
        intro d hd
        rw [← hc] at hd
        exact List.mem_of_mem_filter hd
      split
      · rename_i b bs hsel
        refine ⟨reduceMinSpan b bs, ?_, rfl⟩
        have hmem : reduceMinSpan b bs ∈ b :: bs := reduceMinSpan_mem b bs
        rw [← hsel] at hmem
        apply hcont
        split at hmem
        · cases hK : expectedType.bind normalizeDefinitionKind with
          | some k =>
              simp only [hK] at hmem
              exact List.mem_of_mem_filter hmem
          | none =>
              simp only [hK] at hmem
              exact hmem
        · exact hmem
      · rename_i hsel
        exact ⟨reduceMinSpan first others, hcont _ (reduceMinSpan_mem first others), rfl⟩

theorem resolveDefinitionRange_valid (definitions : List DefinitionRange)
    (name : String) (lineNumber : Nat) (expectedType : Option String)
    (hdefs : ∀ d ∈ definitions, d.range.startLine ≤ d.range.endLine) :
    (resolveDefinitionRange definitions name lineNumber expectedType).range.startLine ≤
      (resolveDefinitionRange definitions name lineNumber expectedType).range.endLine := by
  rcases resolveDefinitionRange_range definitions name lineNumber expectedType with
    ⟨d, hd, heq⟩ | heq
  · rw [heq]
    exact hdefs d hd
  · rw [heq]

theorem resolveVariableRange_valid (language : Language) (sourceText : Option String)
    (tsAst : Option TsAst) (startLine : Nat) (r : LineRange)
    (hast : ∀ ast, tsAst = some ast → ∀ n rr, ast.variableRange n = some rr →
      rr.startLine ≤ rr.endLine)
    (h : resolveVariableRange language sourceText tsAst startLine = some r) :
    r.startLine ≤ r.endLine := by
  cases sourceText with
  | none => simp [resolveVariableRange] at h
  | some text =>
      cases language with
      | python =>
          simp only [resolveVariableRange] at h
          cases hpy : scanPythonStringRange (jsSplitLines text) startLine with
          | some sr =>
              simp only [hpy] at h
              obtain rfl := Option.some.inj h
              have hle := scanPythonStringRange_le (jsSplitLines text) startLine _ hpy
              omega
          | none =>
              simp only [hpy] at h
              obtain rfl := Option.some.inj h
              have hle := scanBracketRange_le (jsSplitLines text) startLine .python
              omega
      | javascript =>
          simp only [resolveVariableRange] at h
          cases hb : tsAst.bind (fun ast => ast.variableRange startLine) with
          | some vr =>
              simp only [hb] at h
              obtain rfl := Option.some.inj h
              obtain ⟨ast, hasteq, hvr⟩ := Option.bind_eq_some.mp hb
              exact hast ast hasteq _ _ hvr
          | none =>
              simp only [hb] at h
              obtain rfl := Option.some.inj h
              have hle := scanBracketRange_le (jsSplitLines text) startLine .javascript
              omega
      | typescript =>
          simp only [resolveVariableRange] at h
          cases hb : tsAst.bind (fun ast => ast.variableRange startLine) with
          | some vr =>
              simp only [hb] at h
              obtain rfl := Option.some.inj h
              obtain ⟨ast, hasteq, hvr⟩ := Option.bind_eq_some.mp hb
              exact hast ast hasteq _ _ hvr
          | none =>
              simp only [hb] at h
              obtain rfl := Option.some.inj h
              have hle := scanBracketRange_le (jsSplitLines text) startLine .javascript
              omega

theorem insertCmpAsc_perm {α : Type} (cmp : α → α → Int) (x : α) (l : List α) :
    (insertCmpAsc cmp x l).Perm (x :: l) := by
  induction l with
  | nil => exact List.Perm.refl _
  | cons y ys ih =>
      unfold insertCmpAsc
      split
      · exact (ih.cons y).trans (List.Perm.swap x y ys)
      · exact List.Perm.refl _

theorem jsSortBy_perm {α : Type} (cmp : α → α → Int) (l : List α) :
    (jsSortBy cmp l).Perm l := by
  have key : ∀ (l acc : List α),
      (l.foldl (fun acc x => insertCmpAsc cmp x acc) acc).Perm (acc ++ l) := by
    intro l
    induction l with
    | nil =>
        intro acc
        simp
    | cons x xs ih =>
        intro acc
        rw [List.foldl_cons]
        refine ((ih _).trans ?_)
        refine (List.Perm.append_right xs (insertCmpAsc_perm cmp x acc)).trans ?_
        exact List.perm_middle.symm
  simpa using key l []

theorem insertCmpAsc_pairwise {α : Type} (cmp : α → α → Int)
    (htot : ∀ a b, ¬ cmp a b ≤ 0 → cmp b a ≤ 0)
    (htrans : ∀ a b c, cmp a b ≤ 0 → cmp b c ≤ 0 → cmp a c ≤ 0)
    (x : α) (l : List α) (hl : List.Pairwise (fun a b => cmp a b ≤ 0) l) :
    List.Pairwise (fun a b => cmp a b ≤ 0) (insertCmpAsc cmp x l) := by
  induction l with
  | nil => simp [insertCmpAsc]
  | cons y ys ih =>
      rw [List.pairwise_cons] at hl
      obtain ⟨hy, hys⟩ := hl
      unfold insertCmpAsc
      split
      · rename_i hc
        rw [List.pairwise_cons]
        refine ⟨?_, ih hys⟩
        intro a ha
        rcases List.mem_cons.mp ((insertCmpAsc_perm cmp x ys).mem_iff.mp ha) with rfl | hmem
        · exact hc
        · exact hy a hmem
      · rename_i hc
        rw [List.pairwise_cons]
        refine ⟨?_, List.pairwise_cons.mpr ⟨hy, hys⟩⟩
        intro a ha
        rcases List.mem_cons.mp ha with h | hmem
        · rw [h]
          exact htot y x hc
        · exact htrans x y a (htot y x hc) (hy a hmem)

theorem jsSortBy_pairwise {α : Type} (cmp : α → α → Int)
    (htot : ∀ a b, ¬ cmp a b ≤ 0 → cmp b a ≤ 0)
    (htrans : ∀ a b c, cmp a b ≤ 0 → cmp b c ≤ 0 → cmp a c ≤ 0)
    (l : List α) :
    List.Pairwise (fun a b => cmp a b ≤ 0) (jsSortBy cmp l) := by
  have key : ∀ (l acc : List α),
      List.Pairwise (fun a b => cmp a b ≤ 0) acc →
      List.Pairwise (fun a b => cmp a b ≤ 0)
        (l.foldl (fun acc x => insertCmpAsc cmp x acc) acc) := by
    intro l
    induction l with
    | nil =>
        intro acc hacc
        exact hacc
    | cons x xs ih =>
        intro acc hacc
        rw [List.foldl_cons]
        exact ih _ (insertCmpAsc_pairwise cmp htot htrans x acc hacc)
  exact key l [] List.Pairwise.nil

theorem natCmp_le (a b : Nat) : natCmp a b ≤ 0 ↔ a ≤ b := by
  unfold natCmp
  omega

theorem jsSortBy_natCmp_sorted (l : List Nat) :
    List.Pairwise (· ≤ ·) (jsSortBy natCmp l) := by
  have h := jsSortBy_pairwise natCmp
    (fun a b hab => by rw [natCmp_le] at hab ⊢; omega)
    (fun a b c hab hbc => by rw [natCmp_le] at hab hbc ⊢; omega) l
  exact h.imp (fun hab => (natCmp_le _ _).mp hab)

theorem headD_mem (g : List Nat) (hne : g ≠ []) : g.headD 0 ∈ g := by
  cases g with
  | nil => cases hne rfl
  | cons a as => exact List.mem_cons_self _ _

theorem getLastD_mem (g : List Nat) (hne : g ≠ []) : (g.getLast?).getD 0 ∈ g := by
  induction g with
  | nil => cases hne rfl
  | cons a as ih =>
      cases as with
      | nil => simp
      | cons b bs =>
          rw [List.getLast?_cons_cons]
          exact List.mem_cons_of_mem _ (ih (by simp))

theorem headD_le_getLastD (g : List Nat) (hne : g ≠ [])
    (hs : List.Pairwise (· ≤ ·) g) :
    g.headD 0 ≤ (g.getLast?).getD 0 := by
  cases g with
  | nil => cases hne rfl
  | cons a as =>
      rcases List.mem_cons.mp (getLastD_mem (a :: as) hne) with h | h
      · rw [List.headD_cons, h]
      · exact (List.pairwise_cons.mp hs).1 _ h

theorem groupContiguousGo_props :
    ∀ (l : List Nat) (prev : Nat) (current : List Nat),
      current ≠ [] → List.Pairwise (· ≤ ·) current → (∀ x ∈ current, x ≤ prev) →
      ∀ g ∈ groupContiguousGo l prev current,
        g ≠ [] ∧ List.Pairwise (· ≤ ·) g ∧ ∀ x ∈ g, x ∈ current ∨ x ∈ l := by
  intro l
  induction l with
  | nil =>
      intro prev current hne hs hb g hg
      have : g = current := by simpa [groupContiguousGo] using hg
      subst this
      exact ⟨hne, hs, fun x hx => Or.inl hx⟩
  | cons v rest ih =>
      intro prev current hne hs hb g hg
      unfold groupContiguousGo at hg
      split at hg
      · rename_i hv
        have hsub := ih v (current ++ [v]) (by simp)
          (List.pairwise_append.mpr ⟨hs, by simp, by
            intro a ha b hbm
            have : b = v := by simpa using hbm
            subst this
            have := hb a ha
            omega⟩)
          (by
            intro x hx
            rcases List.mem_append.mp hx with h1 | h1
            · have := hb x h1
              omega
            · have : x = v := by simpa using h1
              omega)
          g hg
        refine ⟨hsub.1, hsub.2.1, ?_⟩
        intro x hx
        rcases hsub.2.2 x hx with h1 | h1
        · rcases List.mem_append.mp h1 with h2 | h2
          · exact Or.inl h2
          · have : x = v := by simpa using h2
            subst this
            exact Or.inr (List.mem_cons_self _ _)
        · exact Or.inr (List.mem_cons_of_mem _ h1)
      · rcases List.mem_cons.mp hg with h1 | h1
        · subst h1
          exact ⟨hne, hs, fun x hx => Or.inl hx⟩
        · have hsub := ih v [v] (by simp) (by simp) (by simp) g h1
          refine ⟨hsub.1, hsub.2.1, ?_⟩
          intro x hx
          rcases hsub.2.2 x hx with h2 | h2
          · have : x = v := by simpa using h2
            subst this
            exact Or.inr (List.mem_cons_self _ _)
          · exact Or.inr (List.mem_cons_of_mem _ h2)

theorem groupContiguousLines_props (l : List Nat) (hs : List.Pairwise (· ≤ ·) l) :
    ∀ g ∈ groupContiguousLines l,
      g ≠ [] ∧ List.Pairwise (· ≤ ·) g ∧ ∀ x ∈ g, x ∈ l := by
  cases l with
  | nil =>
      intro g hg
      simp [groupContiguousLines] at hg
  | cons n rest =>
      intro g hg
      have hsub := groupContiguousGo_props rest n [n] (by simp) (by simp) (by simp) g hg
      refine ⟨hsub.1, hsub.2.1, ?_⟩
      intro x hx
      rcases hsub.2.2 x hx with h1 | h1
      · have : x = n := by simpa using h1
        subst this
        exact List.mem_cons_self _ _
      · exact List.mem_cons_of_mem _ h1

theorem fdRange1_le (language : Language) (definitions : List DefinitionRange)
    (sourceText : Option String) (tsAst : Option TsAst) (name htype : String)
    (lineNumber : Nat)
    (hdefs : ∀ d ∈ definitions, d.range.startLine ≤ d.range.endLine)
    (hast : ∀ ast, tsAst = some ast → ∀ n rr, ast.variableRange n = some rr →
      rr.startLine ≤ rr.endLine) :
    (fdRange1 language definitions sourceText tsAst name htype lineNumber).startLine ≤
      (fdRange1 language definitions sourceText tsAst name htype lineNumber).endLine := by
  unfold fdRange1
  split
  · cases hrv : resolveVariableRange language sourceText tsAst lineNumber with
    | some vr =>
        simp only [hrv]
        exact resolveVariableRange_valid _ _ _ _ _ hast hrv
    | none =>
        simp only [hrv]
        exact resolveDefinitionRange_valid definitions name lineNumber (some htype) hdefs
  · exact resolveDefinitionRange_valid definitions name lineNumber (some htype) hdefs

theorem findDefinitionsStep1_valid (language : Language)
    (definitions : List DefinitionRange) (sourceText : Option String)
    (tsAst : Option TsAst)
    (hdefs : ∀ d ∈ definitions, d.range.startLine ≤ d.range.endLine)
    (hast : ∀ ast, tsAst = some ast → ∀ n rr, ast.variableRange n = some rr →
      rr.startLine ≤ rr.endLine) :
    ∀ (addedLines : List AddedLine) (acc : List DefinitionHit × List String),
      (∀ l ∈ addedLines, 1 ≤ l.lineNumber) →
      (∀ hit ∈ acc.1, validRange hit.range) →
      ∀ hit ∈ (addedLines.foldl (findDefinitionsStep1 language definitions sourceText
        tsAst) acc).1, validRange hit.range := by
  intro addedLines
  induction addedLines with
  | nil =>
      intro acc _ hacc
      exact hacc
  | cons x xs ih =>
      intro acc hlines hacc
      rw [List.foldl_cons]
      refine ih _ (fun l hl => hlines l (List.mem_cons_of_mem _ hl)) ?_
      intro hit hhit
      unfold findDefinitionsStep1 at hhit
      dsimp only at hhit
      split at hhit
      · exact hacc hit hhit
      · rename_i name2 htype2 hdet
        split at hhit
        · exact hacc hit hhit
        · split at hhit
          · exact hacc hit hhit
          · split at hhit
            · exact hacc hit hhit
            · rename_i hne2 hkey2
              rcases List.mem_append.mp hhit with hold | hnew
              · exact hacc hit hold
              · obtain rfl := List.mem_singleton.mp hnew
                constructor
                · show 1 ≤ (fdRange1 language definitions sourceText tsAst name2 htype2
                    x.lineNumber).startLine
                  have heq : (fdRange1 language definitions sourceText tsAst name2 htype2
                      x.lineNumber).startLine = x.lineNumber := by
                    by_contra hc
                    exact hne2 hc
                  rw [heq]
                  exact hlines x (List.mem_cons_self _ _)
                · show (fdRange1 language definitions sourceText tsAst name2 htype2
                      x.lineNumber).startLine ≤
                    (fdRange1 language definitions sourceText tsAst name2 htype2
                      x.lineNumber).endLine
                  exact fdRange1_le language definitions sourceText tsAst name2 htype2
                    x.lineNumber hdefs hast

theorem findDefinitionsStep2_valid (addedLines : List AddedLine)
    (hlines : ∀ l ∈ addedLines, 1 ≤ l.lineNumber) :
    ∀ (defs : List DefinitionRange) (acc : List DefinitionHit × List String),
      (∀ d ∈ defs, d.range.startLine ≤ d.range.endLine) →
      (∀ hit ∈ acc.1, validRange hit.range) →
      ∀ hit ∈ (defs.foldl (findDefinitionsStep2 addedLines) acc).1,
        validRange hit.range := by
  intro defs
  induction defs with
  | nil =>
      intro acc _ hacc
      exact hacc
  | cons d ds ih =>
      intro acc hdefs hacc
      rw [List.foldl_cons]
      refine ih _ (fun e he => hdefs e (List.mem_cons_of_mem _ he)) ?_
      intro hit hhit
      unfold findDefinitionsStep2 at hhit
      dsimp only at hhit
      split at hhit
      · exact hacc hit hhit
      · rename_i hmem2
        split at hhit
        · exact hacc hit hhit
        · split at hhit
          · exact hacc hit hhit
          · rcases List.mem_append.mp hhit with hold | hnew
            · exact hacc hit hold
            · obtain rfl := List.mem_singleton.mp hnew
              constructor
              · show 1 ≤ d.range.startLine
                have hmem3 : d.range.startLine ∈ addedLines.map (fun l => l.lineNumber) := by
                  by_contra hc
                  exact hmem2 hc
                obtain ⟨l, hl, hleq⟩ := List.mem_map.mp hmem3
                rw [← hleq]
                exact hlines l hl
              · show d.range.startLine ≤ d.range.endLine
                exact hdefs d (List.mem_cons_self _ _)

theorem findDefinitions_valid (addedLines : List AddedLine) (language : Language)
    (definitions : List DefinitionRange) (sourceText : Option String)
    (tsAst : Option TsAst)
    (hlines : ∀ l ∈ addedLines, 1 ≤ l.lineNumber)
    (hdefs : ∀ d ∈ definitions, d.range.startLine ≤ d.range.endLine)
    (hast : ∀ ast, tsAst = some ast → ∀ n rr, ast.variableRange n = some rr →
      rr.startLine ≤ rr.endLine) :
    ∀ hit ∈ findDefinitions addedLines language definitions sourceText tsAst,
      validRange hit.range := by
  intro hit hhit
  unfold findDefinitions at hhit
  dsimp only at hhit
  exact findDefinitionsStep2_valid addedLines hlines definitions _ hdefs
    (findDefinitionsStep1_valid language definitions sourceText tsAst hdefs hast
      addedLines ([], []) hlines (by simp)) hit hhit

theorem slbdStep_foldl_props (lineNumbers : List Nat)
    (hs : List.Pairwise (· ≤ ·) lineNumbers) :
    ∀ (ds : List DefinitionHit) (acc : List LineBucket × List Nat),
      (∀ b ∈ acc.1, b.lineNumbers ≠ [] ∧ List.Pairwise (· ≤ ·) b.lineNumbers ∧
        ∀ x ∈ b.lineNumbers, x ∈ lineNumbers) →
      ∀ b ∈ (ds.foldl (slbdStep lineNumbers) acc).1,
        b.lineNumbers ≠ [] ∧ List.Pairwise (· ≤ ·) b.lineNumbers ∧
        ∀ x ∈ b.lineNumbers, x ∈ lineNumbers := by
  intro ds
  induction ds with
  | nil =>
      intro acc hacc
      exact hacc
  | cons d rest ih =>
      intro acc hacc
      rw [List.foldl_cons]
      refine ih _ ?_
      intro b hb
      unfold slbdStep at hb
      dsimp only at hb
      split at hb
      · exact hacc b hb
      · rename_i hne
        rcases List.mem_append.mp hb with hold | hnew
        · exact hacc b hold
        · obtain rfl := List.mem_singleton.mp hnew
          refine ⟨hne, hs.filter _, ?_⟩
          intro x hx
          exact List.mem_of_mem_filter hx

theorem splitLinesByDefinitions_props (lineNumbers : List Nat)
    (defs : List DefinitionHit) (hs : List.Pairwise (· ≤ ·) lineNumbers) :
    ∀ b ∈ splitLinesByDefinitions lineNumbers defs,
      b.lineNumbers ≠ [] ∧ List.Pairwise (· ≤ ·) b.lineNumbers ∧
      ∀ x ∈ b.lineNumbers, x ∈ lineNumbers := by
  intro b hb
  unfold splitLinesByDefinitions at hb
  split at hb
  · simp at hb
  · dsimp only at hb
    split at hb
    · rename_i hrem
      rcases List.mem_append.mp hb with hold | hnew
      · exact slbdStep_foldl_props lineNumbers hs defs ([], []) (by simp) b hold
      · obtain rfl := List.mem_singleton.mp hnew
        refine ⟨hrem, hs.filter _, ?_⟩
        intro x hx
        exact List.mem_of_mem_filter hx
    · exact slbdStep_foldl_props lineNumbers hs defs ([], []) (by simp) b hb

theorem mkOperationUnit_range (unit : ChangeUnit) (range : LineRange)
    (diffText : String) (changeType : ChangeType)
    (enclosing : Option DefinitionRange) :
    (mkOperationUnit unit range diffText changeType enclosing).range = range := rfl

theorem splitGroupUnits_valid (getAnalysis : String → FileAnalysis)
    (readFile : String → Option String) (root : String) (unit : ChangeUnit)
    (group : List Nat) (hne : group ≠ [])
    (hs : List.Pairwise (· ≤ ·) group) (h1 : ∀ x ∈ group, 1 ≤ x) :
    ∀ u ∈ splitGroupUnits getAnalysis readFile root unit group, validRange u.range := by
  intro u hu
  unfold splitGroupUnits at hu
  dsimp only at hu
  split at hu
  · obtain rfl := List.mem_singleton.mp hu
    rw [mkOperationUnit_range]
    refine ⟨?_, ?_⟩
    · exact h1 _ (headD_mem group hne)
    · exact headD_le_getLastD group hne hs
  · rcases List.mem_map.mp hu with ⟨chunk, hchunk, rfl⟩
    obtain ⟨hcne, hcs, hcsub⟩ := splitLinesByDefinitions_props group _ hs chunk hchunk
    rw [mkOperationUnit_range]
    refine ⟨?_, ?_⟩
    · exact h1 _ (hcsub _ (headD_mem _ hcne))
    · exact headD_le_getLastD _ hcne hcs

theorem splitOperationalLineNumbers_sorted (getAnalysis : String → FileAnalysis)
    (readFile : String → Option String) (root : String) (unit : ChangeUnit) :
    List.Pairwise (· ≤ ·)
      (splitOperationalLineNumbers getAnalysis readFile root unit) := by
  unfold splitOperationalLineNumbers
  dsimp only
  exact jsSortBy_natCmp_sorted _

theorem splitOperationalLineNumbers_ge1 (getAnalysis : String → FileAnalysis)
    (readFile : String → Option String) (root : String) (unit : ChangeUnit)
    (hlines : ∀ l ∈ collectAddedLines unit.diffText, 1 ≤ l.lineNumber) :
    ∀ x ∈ splitOperationalLineNumbers getAnalysis readFile root unit, 1 ≤ x := by
  intro x hx
  unfold splitOperationalLineNumbers at hx
  dsimp only at hx
  have hx2 := (jsSortBy_perm natCmp _).mem_iff.mp hx
  obtain ⟨l, hl, rfl⟩ := List.mem_map.mp hx2
  exact hlines l (List.mem_of_mem_filter hl)

theorem splitOneUnit_valid (getAnalysis : String → FileAnalysis)
    (readFile : String → Option String) (root : String) (unit : ChangeUnit)
    (hraw : validRange unit.range)
    (hlines : ∀ l ∈ collectAddedLines unit.diffText, 1 ≤ l.lineNumber)
    (hdefs : ∀ d ∈ (getAnalysis unit.filePath).definitions,
      d.range.startLine ≤ d.range.endLine)
    (hast : ∀ ast, (getAnalysis unit.filePath).tsAst = some ast →
      ∀ n rr, ast.variableRange n = some rr → rr.startLine ≤ rr.endLine) :
    ∀ u ∈ splitOneUnit getAnalysis readFile root unit, validRange u.range := by
  intro u hu
  simp only [splitOneUnit] at hu
  split at hu
  · obtain rfl := List.mem_singleton.mp hu
    rw [mkOperationUnit_range]
    exact hraw
  · simp only [List.mem_append, List.mem_map, List.mem_flatMap] at hu
    rcases hu with ⟨d, hd, rfl⟩ | ⟨grp, hgrp, hu⟩
    · have hdval : validRange d.range := by
        unfold splitDefinitions at hd
        cases hl2 : detectLanguageFromPath unit.filePath with
        | none =>
            simp only [hl2] at hd
            simp at hd
        | some lang =>
            simp only [hl2] at hd
            exact findDefinitions_valid _ lang _ _ _ hlines hdefs hast d hd
      exact hdval
    · unfold splitOperationalGroups at hgrp
      obtain ⟨hgne, hgs, hgsub⟩ := groupContiguousLines_props _
        (splitOperationalLineNumbers_sorted getAnalysis readFile root unit) grp hgrp
      exact splitGroupUnits_valid getAnalysis readFile root unit grp hgne hgs
        (fun x hx => splitOperationalLineNumbers_ge1 getAnalysis readFile root unit
          hlines x (hgsub x hx)) u hu

/-- C9: every change unit the diff parser emits has a valid revised-side
range (its start is at least line 1 and its end does not precede its
start); the unit splitter likewise emits only valid ranges, provided the
raw units it is given, the analyzer's definition ranges and the
TypeScript-AST variable ranges it consults are valid and the added lines
carry positive line numbers — all true of the pipeline that feeds it. -/
theorem c9_valid_ranges :
    (∀ (diffText workspaceRoot : String),
      ∀ u ∈ parseChangeUnitsFromDiff diffText workspaceRoot, validRange u.range) ∧
    (∀ (getAnalysis : String → FileAnalysis) (readFile : String → Option String)
        (root : String) (units : List ChangeUnit),
      (∀ raw ∈ units, validRange raw.range) →
      (∀ raw ∈ units, ∀ l ∈ collectAddedLines raw.diffText, 1 ≤ l.lineNumber) →
      (∀ raw ∈ units, ∀ d ∈ (getAnalysis raw.filePath).definitions,
        validRange d.range) →
      (∀ raw ∈ units, ∀ ast, (getAnalysis raw.filePath).tsAst = some ast →
        ∀ n rr, ast.variableRange n = some rr → rr.startLine ≤ rr.endLine) →
      ∀ u ∈ splitChangeUnitsByDefinitions getAnalysis readFile units root,
        validRange u.range) := by
  refine ⟨parseChangeUnitsFromDiff_valid, ?_⟩
  intro getAnalysis readFile root units h1 h2 h3 h4 u hu
  rw [splitChangeUnitsByDefinitions] at hu
  simp only [List.mem_flatMap] at hu
  obtain ⟨raw, hraw, hu⟩ := hu
  exact splitOneUnit_valid getAnalysis readFile root raw (h1 raw hraw) (h2 raw hraw)
    (fun d hd => (h3 raw hraw d hd).2) (h4 raw hraw) u hu

theorem c9_valid_ranges_witness :
    validRange c6parsedUnit.range ∧
    validRange (mkOperationUnit c4raw c4raw.range c4raw.diffText
      (classifyChange c4raw.diffText)
      (findEnclosingDefinition (some Language.typescript)
        emptyFileAnalysis.definitions c4raw.range.startLine
        (splitSourceText (fun _ => emptyFileAnalysis) noRead "/w" c4raw))).range :=
  ⟨c9_valid_ranges.1 c6diff "/w" c6parsedUnit (by decide),
   c9_valid_ranges.2 (fun _ => emptyFileAnalysis) noRead "/w" [c4raw]
     (by
       intro raw hraw
       obtain rfl := List.mem_singleton.mp hraw
       exact ⟨by decide, by decide⟩)
     (by decide)
     (by
       intro raw hraw d hd
       exact absurd hd (List.not_mem_nil d))
     (fun raw hraw ast hast => by cases hast)
     _ (by decide)⟩

/-! ### C2 support: the code-point string order and the global comparator -/

theorem charsLt_irrefl : ∀ a : List Char, charsLt a a = false := by
  intro a
  induction a with
  | nil => rfl
  | cons c cs ih =>
      unfold charsLt
      rw [if_neg (lt_irrefl c), if_neg (lt_irrefl c)]
      exact ih

theorem charsLt_trans : ∀ a b c : List Char,
    charsLt a b = true → charsLt b c = true → charsLt a c = true := by
  intro a
  induction a with
  | nil =>
      intro b c hab hbc
      cases b with
      | nil => simp [charsLt] at hab
      | cons bh bt =>
          cases c with
          | nil => simp [charsLt] at hbc
          | cons ch ct => rfl
  | cons ah at2 ih =>
      intro b c hab hbc
      cases b with
      | nil => simp [charsLt] at hab
      | cons bh bt =>
          cases c with
          | nil => simp [charsLt] at hbc
          | cons ch ct =>
              unfold charsLt at hab hbc ⊢
              split at hab
              · rename_i h1
                split at hbc
                · rename_i h2
                  rw [if_pos (lt_trans h1 h2)]
                · split at hbc
                  · cases hbc
                  · rename_i h2 h3
                    have he : bh = ch := le_antisymm (not_lt.mp h3) (not_lt.mp h2)
                    rw [if_pos (he ▸ h1)]
              · split at hab
                · cases hab
                · rename_i h1 h2
                  have he : ah = bh := le_antisymm (not_lt.mp h2) (not_lt.mp h1)
                  subst he
                  split at hbc
                  · rename_i h3
                    rw [if_pos h3]
                  · split at hbc
                    · cases hbc
                    · rename_i h3 h4
                      have he2 : ah = ch := le_antisymm (not_lt.mp h4) (not_lt.mp h3)
                      subst he2
                      rw [if_neg (lt_irrefl ah), if_neg (lt_irrefl ah)]
                      exact ih bt ct hab hbc

theorem charsLt_connex : ∀ a b : List Char, a ≠ b →
    charsLt a b = true ∨ charsLt b a = true := by
  intro a
  induction a with
  | nil =>
      intro b hne
      cases b with
      | nil => cases hne rfl
      | cons bh bt => exact Or.inl rfl
  | cons ah at2 ih =>
      intro b hne
      cases b with
      | nil => exact Or.inr rfl
      | cons bh bt =>
          rcases lt_trichotomy ah bh with h | h | h
          · left
            unfold charsLt
            rw [if_pos h]
          · subst h
            have hne2 : at2 ≠ bt := by
              intro he
              exact hne (by rw [he])
            rcases ih bt hne2 with h2 | h2
            · left
              unfold charsLt
              rw [if_neg (lt_irrefl ah), if_neg (lt_irrefl ah)]
              exact h2
            · right
              unfold charsLt
              rw [if_neg (lt_irrefl ah), if_neg (lt_irrefl ah)]
              exact h2
          · right
            unfold charsLt
            rw [if_pos h]

theorem strLt_trans (a b c : String) (h1 : strLt a b = true) (h2 : strLt b c = true) :
    strLt a c = true := charsLt_trans a.data b.data c.data h1 h2

theorem strLt_irrefl (a : String) : strLt a a = false := charsLt_irrefl a.data

theorem strLt_connex (a b : String) (hne : a ≠ b) :
    strLt a b = true ∨ strLt b a = true := by
  refine charsLt_connex a.data b.data ?_
  intro hd
  apply hne
  cases a
  cases b
  exact congrArg String.mk hd

theorem strCmp_le_of_lt (a b : String) (h : strLt a b = true) : strCmp a b ≤ 0 := by
  unfold strCmp
  rw [if_pos h]
  omega

theorem strCmp_le_cases (a b : String) (h : strCmp a b ≤ 0) :
    strLt a b = true ∨ (strLt a b = false ∧ strLt b a = false) := by
  unfold strCmp at h
  by_cases h1 : strLt a b = true
  · exact Or.inl h1
  · have h1f : strLt a b = false := by
      cases hx : strLt a b
      · rfl
      · exact absurd hx h1
    rw [if_neg h1] at h
    by_cases h2 : strLt b a = true
    · rw [if_pos h2] at h
      omega
    · have h2f : strLt b a = false := by
        cases hx : strLt b a
        · rfl
        · exact absurd hx h2
      exact Or.inr ⟨h1f, h2f⟩

theorem globalStepCmp_tot (a b : TourStep) (h : ¬ globalStepCmp a b ≤ 0) :
    globalStepCmp b a ≤ 0 := by
  unfold globalStepCmp at h ⊢
  by_cases hp : a.target.filePath = b.target.filePath
  · rw [if_neg (fun hn => hn hp)] at h
    rw [if_neg (fun hn => hn hp.symm)]
    unfold natCmp at h ⊢
    omega
  · rw [if_pos hp] at h
    rw [if_pos (Ne.symm hp)]
    unfold strCmp at h ⊢
    by_cases h1 : strLt a.target.filePath b.target.filePath = true
    · rw [if_pos h1] at h
      exact absurd (by omega) h
    · rw [if_neg h1] at h
      by_cases h2 : strLt b.target.filePath a.target.filePath = true
      · rw [if_pos h2]
        omega
      · rw [if_neg h2] at h
        exact absurd (by omega) h

theorem globalStepCmp_trans (a b c : TourStep)
    (h1 : globalStepCmp a b ≤ 0) (h2 : globalStepCmp b c ≤ 0) :
    globalStepCmp a c ≤ 0 := by
  unfold globalStepCmp at h1 h2 ⊢
  by_cases hab : a.target.filePath = b.target.filePath
  · rw [if_neg (fun hn => hn hab)] at h1
    by_cases hbc : b.target.filePath = c.target.filePath
    · rw [if_neg (fun hn => hn hbc)] at h2
      rw [if_neg (fun hn => hn (hab.trans hbc))]
      unfold natCmp at h1 h2 ⊢
      omega
    · rw [if_pos hbc] at h2
      have hac : a.target.filePath ≠ c.target.filePath := by
        rw [hab]
        exact hbc
      rw [if_pos hac, hab]
      exact h2
  · rw [if_pos hab] at h1
    by_cases hbc : b.target.filePath = c.target.filePath
    · rw [if_neg (fun hn => hn hbc)] at h2
      have hac : a.target.filePath ≠ c.target.filePath := by
        rw [← hbc]
        exact hab
      rw [if_pos hac, ← hbc]
      exact h1
    · rw [if_pos hbc] at h2
      have hltab : strLt a.target.filePath b.target.filePath = true := by
        rcases strCmp_le_cases _ _ h1 with h | ⟨hf1, hf2⟩
        · exact h
        · rcases strLt_connex _ _ hab with h | h
          · exact h
          · rw [h] at hf2
            cases hf2
      have hltbc : strLt b.target.filePath c.target.filePath = true := by
        rcases strCmp_le_cases _ _ h2 with h | ⟨hf1, hf2⟩
        · exact h
        · rcases strLt_connex _ _ hbc with h | h
          · exact h
          · rw [h] at hf2
            cases hf2
      have hltac := strLt_trans _ _ _ hltab hltbc
      have hac : a.target.filePath ≠ c.target.filePath := by
        intro he
        rw [he, strLt_irrefl] at hltac
        cases hltac
      rw [if_pos hac]
      exact strCmp_le_of_lt _ _ hltac

theorem getD_mem_or {α : Type} (l : List α) (n : Nat) (d : α) :
    l.getD n d ∈ l ∨ l.getD n d = d := by
  by_cases h : n < l.length
  · left
    rw [List.getD_eq_getElem l d h]
    exact List.getElem_mem h
  · right
    exact List.getD_eq_default _ _ (by omega)

theorem orderByGraph_mem (bfsFuel : Nat) (ns : List TourStep) :
    ∀ s ∈ orderByGraph bfsFuel ns, s = dummyStep ∨ s ∈ ns := by
  intro s hs
  unfold orderByGraph at hs
  dsimp only at hs
  simp only [List.mem_flatMap, List.mem_map] at hs
  obtain ⟨comp, hcomp, id, hid, rfl⟩ := hs
  rcases getD_mem_or (ns.map mkGraphNode) id dummyNode with h | h
  · obtain ⟨t, ht, hmk⟩ := List.mem_map.mp h
    right
    rw [← hmk]
    exact ht
  · left
    rw [h]
    rfl

/-- C2: every ordering output decomposes as the sorted globals followed
by only non-global steps: when all steps are main unit steps, each step
whose target unit is classified `global` comes first, those steps sorted
lexicographically by file path then start line, and no step of the
remainder targets a global unit. -/
theorem c2_global_precedence (bfsFuel : Nat) (steps : List TourStep)
    (hmain : ∀ s ∈ steps, s.type = TourStepType.main ∧
      ∃ u, s.target = StepTarget.unit u) :
    ∃ gs rest,
      reorderMainSteps bfsFuel steps = gs ++ rest ∧
      gs.Perm (steps.filter isGlobalStep) ∧
      (∀ s ∈ gs, stepIsGlobalUnit s) ∧
      (∀ s ∈ rest, ¬ stepIsGlobalUnit s) ∧
      List.Pairwise (fun a b =>
        strLt a.target.filePath b.target.filePath = true ∨
        (a.target.filePath = b.target.filePath ∧
          a.target.range.startLine ≤ b.target.range.startLine)) gs := by
  refine ⟨jsSortBy globalStepCmp (steps.filter isGlobalStep),
    orderByGraph bfsFuel (steps.filter (fun step => !isGlobalStep step)),
    rfl, jsSortBy_perm _ _, ?_, ?_, ?_⟩
  · intro s hs
    have hsf := (jsSortBy_perm globalStepCmp _).mem_iff.mp hs
    obtain ⟨hsin, hglob⟩ := List.mem_filter.mp hsf
    unfold stepIsGlobalUnit
    unfold isGlobalStep at hglob
    split at hglob
    · cases hglob
    · split at hglob
      · cases hglob
      · rename_i u hequ
        rw [hequ]
        exact of_decide_eq_true hglob
  · intro s hs
    rcases orderByGraph_mem _ _ s hs with rfl | hsin
    · intro hcon
      unfold stepIsGlobalUnit at hcon
      cases hcon
    · obtain ⟨hin, hng⟩ := List.mem_filter.mp hsin
      have hf : isGlobalStep s = false := by simpa using hng
      obtain ⟨htype, u, hu⟩ := hmain s hin
      intro hcon
      unfold stepIsGlobalUnit at hcon
      rw [hu] at hcon
      unfold isGlobalStep at hf
      rw [if_neg (fun hn => hn htype), hu] at hf
      exact absurd hcon (of_decide_eq_false hf)
  · have hp := jsSortBy_pairwise globalStepCmp globalStepCmp_tot globalStepCmp_trans
      (steps.filter isGlobalStep)
    refine List.Pairwise.imp ?_ hp
    intro a b hab
    by_cases hpq : a.target.filePath = b.target.filePath
    · right
      refine ⟨hpq, ?_⟩
      unfold globalStepCmp at hab
      rw [if_neg (fun hn => hn hpq)] at hab
      unfold natCmp at hab
      omega
    · left
      unfold globalStepCmp at hab
      rw [if_pos hpq] at hab
      rcases strCmp_le_cases _ _ hab with h | ⟨hf1, hf2⟩
      · exact h
      · rcases strLt_connex _ _ hpq with h | h
        · exact h
        · rw [h] at hf2
          cases hf2

theorem c2_global_precedence_witness :
    ∃ gs rest,
      reorderMainSteps 5 [c2stepG, tieStepA] = gs ++ rest ∧
      gs.Perm ([c2stepG, tieStepA].filter isGlobalStep) ∧
      (∀ s ∈ gs, stepIsGlobalUnit s) ∧
      (∀ s ∈ rest, ¬ stepIsGlobalUnit s) ∧
      List.Pairwise (fun a b =>
        strLt a.target.filePath b.target.filePath = true ∨
        (a.target.filePath = b.target.filePath ∧
          a.target.range.startLine ≤ b.target.range.startLine)) gs :=
  c2_global_precedence 5 [c2stepG, tieStepA] (by
    intro s hs
    rcases List.mem_cons.mp hs with rfl | hs2
    · exact ⟨rfl, c2unitG, rfl⟩
    · obtain rfl := List.mem_singleton.mp hs2
      exact ⟨rfl, tieUnitA, rfl⟩)

/-! ### C8 support: the step orderer permutes its input -/

theorem nodup_length_le (l : List Nat) (n : Nat) (hnd : l.Nodup)
    (hb : ∀ x ∈ l, x < n) : l.length ≤ n := by
  classical
  have h1 : l.toFinset.card = l.length := List.toFinset_card_of_nodup hnd
  have h2 : l.toFinset ⊆ Finset.range n := by
    intro x hx
    rw [List.mem_toFinset] at hx
    exact Finset.mem_range.mpr (hb x hx)
  have h3 := Finset.card_le_card h2
  rw [h1, Finset.card_range] at h3
  exact h3

theorem setAdd_mem {α : Type} [DecidableEq α] (s : List α) (y x : α)
    (h : x ∈ setAdd s y) : x ∈ s ∨ x = y := by
  unfold setAdd at h
  split at h
  · exact Or.inl h
  · rcases List.mem_append.mp h with h1 | h1
    · exact Or.inl h1
    · exact Or.inr (by simpa using h1)

theorem foldl_setAdd_eq {α : Type} [DecidableEq α] :
    ∀ (l acc : List α), (∀ x ∈ l, x ∉ acc) → l.Nodup →
      l.foldl setAdd acc = acc ++ l := by
  intro l
  induction l with
  | nil =>
      intro acc _ _
      simp
  | cons a as ih =>
      intro acc hdis hnd
      rw [List.foldl_cons]
      have hstep : setAdd acc a = acc ++ [a] := by
        unfold setAdd
        rw [if_neg (hdis a (List.mem_cons_self _ _))]
      have hdis2 : ∀ x ∈ as, x ∉ acc ++ [a] := by
        intro x hx hmem
        rcases List.mem_append.mp hmem with h1 | h1
        · exact hdis x (List.mem_cons_of_mem _ hx) h1
        · have hxa : x = a := by simpa using h1
          subst hxa
          exact (List.nodup_cons.mp hnd).1 hx
      rw [hstep, ih (acc ++ [a]) hdis2 (List.nodup_cons.mp hnd).2]
      simp

theorem dfs_push (und : List (Nat × List Nat)) (neighbors : List Nat) :
    ∀ (s v : List Nat),
      ∃ news,
        (neighbors.foldl (fun (sv : List Nat × List Nat) neighbor =>
          if neighbor ∈ sv.2 then sv else (neighbor :: sv.1, sv.2 ++ [neighbor]))
          (s, v)).2 = v ++ news ∧
        (neighbors.foldl (fun (sv : List Nat × List Nat) neighbor =>
          if neighbor ∈ sv.2 then sv else (neighbor :: sv.1, sv.2 ++ [neighbor]))
          (s, v)).1.Perm (news ++ s) ∧
        news.Nodup ∧ (∀ x ∈ news, x ∉ v) ∧ (∀ x ∈ news, x ∈ neighbors) := by
  induction neighbors with
  | nil =>
      intro s v
      exact ⟨[], by simp, List.Perm.refl _, List.Pairwise.nil, by simp, by simp⟩
  | cons nb nbs ih =>
      intro s v
      rw [List.foldl_cons]
      by_cases h : nb ∈ v
      · have hstep : (if nb ∈ (Prod.mk s v).2 then (s, v)
            else (nb :: (Prod.mk s v).1, (Prod.mk s v).2 ++ [nb])) = (s, v) := if_pos h
        rw [hstep]
        obtain ⟨news, h1, h2, h3, h4, h5⟩ := ih s v
        exact ⟨news, h1, h2, h3, h4, fun x hx => List.mem_cons_of_mem _ (h5 x hx)⟩
      · have hstep : (if nb ∈ (Prod.mk s v).2 then (s, v)
            else (nb :: (Prod.mk s v).1, (Prod.mk s v).2 ++ [nb]))
            = (nb :: s, v ++ [nb]) := if_neg h
        rw [hstep]
        obtain ⟨news2, h1, h2, h3, h4, h5⟩ := ih (nb :: s) (v ++ [nb])
        refine ⟨nb :: news2, ?_, ?_, ?_, ?_, ?_⟩
        · rw [h1]
          simp
        · exact h2.trans List.perm_middle
        · refine List.nodup_cons.mpr ⟨?_, h3⟩
          intro hmem
          exact h4 nb hmem (List.mem_append_right _ (List.mem_singleton.mpr rfl))
        · intro x hx
          rcases List.mem_cons.mp hx with hxe | hxm
          · subst hxe
            exact h
          · intro hxv
            exact h4 x hxm (List.mem_append_left _ hxv)
        · intro x hx
          rcases List.mem_cons.mp hx with hxe | hxm
          · subst hxe
            exact List.mem_cons_self _ _
          · exact List.mem_cons_of_mem _ (h5 x hxm)

theorem dfsLoop_main (und : List (Nat × List Nat)) (n : Nat)
    (hund : ∀ k v, alGet und k = some v → ∀ x ∈ v, x < n) :
    ∀ (fuel : Nat) (stack comp vis visPrior : List Nat),
      vis.Perm (visPrior ++ comp ++ stack) →
      vis.Nodup → (∀ x ∈ vis, x < n) →
      stack.length + (n - vis.length) ≤ fuel →
      (dfsLoop und fuel stack comp vis).2.Perm
        (visPrior ++ (dfsLoop und fuel stack comp vis).1) ∧
      (dfsLoop und fuel stack comp vis).2.Nodup ∧
      (∀ x ∈ (dfsLoop und fuel stack comp vis).2, x < n) ∧
      (∀ x ∈ vis, x ∈ (dfsLoop und fuel stack comp vis).2) := by
  intro fuel
  induction fuel with
  | zero =>
      intro stack comp vis visPrior hperm hnd hb hfuel
      have hstack : stack = [] := by
        cases stack with
        | nil => rfl
        | cons a b => simp at hfuel
      subst hstack
      refine ⟨?_, hnd, hb, fun x hx => hx⟩
      simpa using hperm
  | succ f ih =>
      intro stack comp vis visPrior hperm hnd hb hfuel
      cases stack with
      | nil =>
          refine ⟨?_, hnd, hb, fun x hx => hx⟩
          simpa using hperm
      | cons cur rest =>
          unfold dfsLoop
          dsimp only
          obtain ⟨news, hv', hs', hndnews, hdisj, hsubn⟩ :=
            dfs_push und ((alGet und cur).getD []) rest vis
          rw [hv']
          have hnewsS : ∀ x ∈ news, x < n := by
            intro x hx
            have hx2 := hsubn x hx
            cases hget : alGet und cur with
            | none =>
                rw [hget] at hx2
                simp at hx2
            | some v =>
                rw [hget] at hx2
                exact hund cur v hget x hx2
          have hnd2 : (vis ++ news).Nodup := by
            refine List.Nodup.append hnd hndnews ?_
            intro a ha hb2
            exact hdisj a hb2 ha
          have hb2 : ∀ x ∈ vis ++ news, x < n := by
            intro x hx
            rcases List.mem_append.mp hx with h1 | h1
            · exact hb x h1
            · exact hnewsS x h1
          have hlen2 : (vis ++ news).length ≤ n :=
            nodup_length_le _ n hnd2 hb2
          have hperm2 : (vis ++ news).Perm
              (visPrior ++ (comp ++ [cur]) ++
                ((alGet und cur).getD [] |>.foldl (fun (sv : List Nat × List Nat) neighbor =>
                  if neighbor ∈ sv.2 then sv
                  else (neighbor :: sv.1, sv.2 ++ [neighbor])) (rest, vis)).1) := by
            refine (hperm.append_right news).trans ?_
            have h1 : (visPrior ++ comp ++ cur :: rest) ++ news =
                (visPrior ++ (comp ++ [cur])) ++ (rest ++ news) := by
              simp
            have h2 : ∀ z : List Nat, visPrior ++ (comp ++ [cur]) ++ z =
                (visPrior ++ (comp ++ [cur])) ++ z := fun z => rfl
            rw [h1, h2]
            refine (List.Perm.append_left _ List.perm_append_comm).trans ?_
            exact List.Perm.append_left _ hs'.symm
          have hfuel2 : ((alGet und cur).getD [] |>.foldl
              (fun (sv : List Nat × List Nat) neighbor =>
                if neighbor ∈ sv.2 then sv
                else (neighbor :: sv.1, sv.2 ++ [neighbor])) (rest, vis)).1.length +
              (n - (vis ++ news).length) ≤ f := by
            have hslen : ((alGet und cur).getD [] |>.foldl
                (fun (sv : List Nat × List Nat) neighbor =>
                  if neighbor ∈ sv.2 then sv
                  else (neighbor :: sv.1, sv.2 ++ [neighbor])) (rest, vis)).1.length =
                news.length + rest.length := by
              rw [hs'.length_eq]
              simp
            rw [hslen, List.length_append]
            simp only [List.length_cons] at hfuel
            rw [List.length_append] at hlen2
            omega
          obtain ⟨hA, hB, hC, hD⟩ := ih _ (comp ++ [cur]) _ visPrior hperm2 hnd2 hb2 hfuel2
          exact ⟨hA, hB, hC, fun x hx => hD x (List.mem_append_left _ hx)⟩

theorem alGet_alSet {κ α : Type} [DecidableEq κ] :
    ∀ (m : List (κ × α)) (k k' : κ) (v : α),
      alGet (alSet m k v) k' = if k' = k then some v else alGet m k' := by
  intro m
  induction m with
  | nil =>
      intro k k' v
      by_cases h : k' = k
      · rw [if_pos h]
        show alGet [(k, v)] k' = some v
        unfold alGet
        rw [List.find?_cons_of_pos _ (by simp [h.symm])]
        rfl
      · rw [if_neg h]
        have h2 : ¬ k = k' := fun hh => h hh.symm
        show alGet [(k, v)] k' = alGet [] k'
        unfold alGet
        rw [List.find?_cons_of_neg _ (by simpa using h2)]
  | cons e rest ih =>
      intro k k' v
      unfold alSet
      by_cases he : e.1 = k
      · rw [if_pos he]
        by_cases h : k' = k
        · rw [if_pos h]
          unfold alGet
          rw [List.find?_cons_of_pos _ (by simp [h.symm])]
          rfl
        · rw [if_neg h]
          have h2 : ¬ k = k' := fun hh => h hh.symm
          have hek : ¬ e.1 = k' := fun hh => h2 (he.symm.trans hh)
          unfold alGet
          rw [List.find?_cons_of_neg _ (by simpa using h2),
            List.find?_cons_of_neg _ (by simpa using hek)]
      · rw [if_neg he]
        by_cases h : k' = k
        · rw [if_pos h]
          have hek : ¬ e.1 = k' := fun hh => he (hh.trans h)
          unfold alGet
          rw [List.find?_cons_of_neg _ (by simpa using hek)]
          have hih := ih k k' v
          rw [if_pos h] at hih
          unfold alGet at hih
          exact hih
        · rw [if_neg h]
          by_cases hek : e.1 = k'
          · unfold alGet
            rw [List.find?_cons_of_pos _ (by simpa using hek),
              List.find?_cons_of_pos _ (by simpa using hek)]
          · unfold alGet
            rw [List.find?_cons_of_neg _ (by simpa using hek),
              List.find?_cons_of_neg _ (by simpa using hek)]
            have hih := ih k k' v
            rw [if_neg h] at hih
            unfold alGet at hih
            exact hih

theorem bfsLoop_snd_eq_fst (outEdges : List (Nat × List Nat)) :
    ∀ (fuel : Nat) (queue o : List Nat),
      (bfsLoop outEdges fuel queue o o).2 = (bfsLoop outEdges fuel queue o o).1 := by
  intro fuel
  induction fuel with
  | zero =>
      intro queue o
      rfl
  | succ f ih =>
      intro queue o
      cases queue with
      | nil => rfl
      | cons cur q =>
          unfold bfsLoop
          dsimp only
          by_cases h : cur ∈ o
          · rw [if_pos h]
            exact ih _ o
          · rw [if_neg h]
            exact ih _ (o ++ [cur])

theorem bfsLoop_facts (outEdges : List (Nat × List Nat)) (S : List Nat)
    (hout : ∀ k v, alGet outEdges k = some v → ∀ x ∈ v, x ∈ S) :
    ∀ (fuel : Nat) (queue o : List Nat),
      (∀ x ∈ queue, x ∈ S) → (∀ x ∈ o, x ∈ S) → o.Nodup →
      (∀ x ∈ (bfsLoop outEdges fuel queue o o).1, x ∈ S) ∧
      (bfsLoop outEdges fuel queue o o).1.Nodup := by
  intro fuel
  induction fuel with
  | zero =>
      intro queue o hq ho hnd
      exact ⟨ho, hnd⟩
  | succ f ih =>
      intro queue o hq ho hnd
      cases queue with
      | nil => exact ⟨ho, hnd⟩
      | cons cur q =>
          unfold bfsLoop
          dsimp only
          have hqS : ∀ x ∈ q ++ ((alGet outEdges cur).getD []).filter
              (fun next => next ∉ o), x ∈ S := by
            intro x hx
            rcases List.mem_append.mp hx with h1 | h1
            · exact hq x (List.mem_cons_of_mem _ h1)
            · have hx2 := List.mem_of_mem_filter h1
              cases hget : alGet outEdges cur with
              | none =>
                  rw [hget] at hx2
                  simp at hx2
              | some v =>
                  rw [hget] at hx2
                  exact hout cur v hget x hx2
          by_cases h : cur ∈ o
          · rw [if_pos h]
            exact ih _ o hqS ho hnd
          · rw [if_neg h]
            have hqS2 : ∀ x ∈ q ++ ((alGet outEdges cur).getD []).filter
                (fun next => next ∉ o ++ [cur]), x ∈ S := by
              intro x hx
              rcases List.mem_append.mp hx with h1 | h1
              · exact hq x (List.mem_cons_of_mem _ h1)
              · have hx2 := List.mem_of_mem_filter h1
                cases hget : alGet outEdges cur with
                | none =>
                    rw [hget] at hx2
                    simp at hx2
                | some v =>
                    rw [hget] at hx2
                    exact hout cur v hget x hx2
            refine ih _ (o ++ [cur]) hqS2 ?_ ?_
            · intro x hx
              rcases List.mem_append.mp hx with h1 | h1
              · exact ho x h1
              · have hxc : x = cur := by simpa using h1
                subst hxc
                exact hq x (List.mem_cons_self _ _)
            · refine List.Nodup.append hnd (List.nodup_singleton _) ?_
              intro a ha hb
              have hac : a = cur := by simpa using hb
              subst hac
              exact h ha

theorem nodup_subset_filter_perm (l r : List Nat) (hl : l.Nodup) (hr : r.Nodup)
    (hsub : ∀ x ∈ r, x ∈ l) :
    (r ++ l.filter (fun x => x ∉ r)).Perm l := by
  rw [List.perm_iff_count]
  intro x
  rw [List.count_append]
  by_cases hx : x ∈ r
  · have h1 : r.count x = 1 := List.count_eq_one_of_mem hr hx
    have h2 : (l.filter (fun x => x ∉ r)).count x = 0 := by
      rw [List.count_eq_zero]
      intro hmem
      have hp := List.of_mem_filter hmem
      simp only [decide_eq_true_eq] at hp
      exact hp hx
    have h3 : l.count x = 1 := List.count_eq_one_of_mem hl (hsub x hx)
    omega
  · have h1 : r.count x = 0 := List.count_eq_zero.mpr hx
    have h2 : (l.filter (fun x => x ∉ r)).count x = l.count x := by
      rw [List.count_filter]
      simp [hx]
    omega

theorem bfs_append_remaining_perm (bfsFuel : Nat) (nodes : List GraphNode)
    (component leaves roots : List Nat) (outEdges : List (Nat × List Nat))
    (hndc : component.Nodup) (hndl : leaves.Nodup)
    (hlsub : ∀ x ∈ leaves, x ∈ component) (hrsub : ∀ x ∈ roots, x ∈ component)
    (hout : ∀ k v, alGet outEdges k = some v → ∀ x ∈ v, x ∈ component) :
    ((bfsLoop outEdges bfsFuel roots leaves (leaves.foldl setAdd [])).1 ++
      jsSortBy (cmpIds nodes) (component.filter (fun id =>
        id ∉ (bfsLoop outEdges bfsFuel roots leaves (leaves.foldl setAdd [])).2))).Perm
      component := by
  have hfold : leaves.foldl setAdd [] = leaves := by
    have := foldl_setAdd_eq leaves [] (by simp) hndl
    simpa using this
  rw [hfold, bfsLoop_snd_eq_fst]
  obtain ⟨hsub, hndr⟩ :=
    bfsLoop_facts outEdges component hout bfsFuel roots leaves hrsub hlsub hndl
  refine (List.Perm.append_left _ (jsSortBy_perm _ _)).trans ?_
  exact nodup_subset_filter_perm component _ hndc hndr hsub

theorem alGet_map_snd (m : List (Nat × List Nat)) (f : List Nat → List Nat) (k : Nat) :
    alGet (m.map (fun e => (e.1, f e.2))) k = (alGet m k).map f := by
  induction m with
  | nil => rfl
  | cons e rest ih =>
      rw [List.map_cons]
      unfold alGet
      by_cases h : e.1 = k
      · rw [List.find?_cons_of_pos _ (by simpa using h),
          List.find?_cons_of_pos _ (by simpa using h)]
        rfl
      · rw [List.find?_cons_of_neg _ (by simpa using h),
          List.find?_cons_of_neg _ (by simpa using h)]
        unfold alGet at ih
        exact ih

theorem ocbInner_bound (component : List Nat) (e1 : Nat) :
    ∀ (tos : List Nat) (acc2 : List (Nat × List Nat) × List (Nat × Nat)),
      (∀ k v, alGet acc2.1 k = some v → ∀ x ∈ v, x ∈ component) →
      ∀ k v, alGet ((tos.foldl (ocbInner component e1) acc2).1) k = some v →
        ∀ x ∈ v, x ∈ component := by
  intro tos
  induction tos with
  | nil =>
      intro acc2 h
      exact h
  | cons to0 rest ih =>
      intro acc2 h
      rw [List.foldl_cons]
      refine ih _ ?_
      unfold ocbInner
      split
      · exact h
      · rename_i hto
        have hto2 : to0 ∈ component := by
          by_contra hc
          exact hto hc
        dsimp only
        intro k v hk x hx
        cases hget : alGet acc2.1 e1 with
        | none =>
            rw [hget] at hk
            exact h k v hk x hx
        | some list =>
            rw [hget] at hk
            rw [alGet_alSet] at hk
            split at hk
            · have hv : v = list ++ [to0] := (Option.some.inj hk).symm
              subst hv
              rcases List.mem_append.mp hx with h1 | h1
              · exact h e1 list hget x h1
              · have : x = to0 := by simpa using h1
                subst this
                exact hto2
            · exact h k v hk x hx

theorem ocbStep_bound (component : List Nat) :
    ∀ (es : List (Nat × List Nat)) (acc : List (Nat × List Nat) × List (Nat × Nat)),
      (∀ k v, alGet acc.1 k = some v → ∀ x ∈ v, x ∈ component) →
      ∀ k v, alGet ((es.foldl (ocbStep component) acc).1) k = some v →
        ∀ x ∈ v, x ∈ component := by
  intro es
  induction es with
  | nil =>
      intro acc h
      exact h
  | cons e rest ih =>
      intro acc h
      rw [List.foldl_cons]
      refine ih _ ?_
      unfold ocbStep
      split
      · exact h
      · exact ocbInner_bound component e.1 e.2 acc h

theorem outEdges0_bound (S : List Nat) :
    ∀ (comp : List Nat) (m : List (Nat × List Nat)),
      (∀ k v, alGet m k = some v → ∀ x ∈ v, x ∈ S) →
      ∀ k v, alGet (comp.foldl (fun m id => alSet m id ([] : List Nat)) m) k = some v →
        ∀ x ∈ v, x ∈ S := by
  intro comp
  induction comp with
  | nil =>
      intro m h
      exact h
  | cons i rest ih =>
      intro m h
      rw [List.foldl_cons]
      refine ih _ ?_
      intro k v hk x hx
      rw [alGet_alSet] at hk
      split at hk
      · have hv : v = [] := (Option.some.inj hk).symm
        subst hv
        simp at hx
      · exact h k v hk x hx

theorem orderComponent_perm (bfsFuel : Nat) (nodes : List GraphNode)
    (component : List Nat) (edges : List (Nat × List Nat))
    (hnd : component.Nodup) :
    (orderComponentLeafFirstBfs bfsFuel nodes component edges).Perm component := by
  unfold orderComponentLeafFirstBfs
  dsimp only
  apply bfs_append_remaining_perm
  · exact hnd
  · exact ((jsSortBy_perm _ _).nodup_iff).mpr (hnd.filter _)
  · intro x hx
    exact List.mem_of_mem_filter ((jsSortBy_perm _ _).mem_iff.mp hx)
  · intro x hx
    exact List.mem_of_mem_filter ((jsSortBy_perm _ _).mem_iff.mp hx)
  · intro k v hkv x hx
    rw [alGet_map_snd] at hkv
    obtain ⟨w, hw, hv⟩ := Option.map_eq_some'.mp hkv
    subst hv
    have hxw := (jsSortBy_perm (cmpIds nodes) w).mem_iff.mp hx
    exact ocbStep_bound component edges _
      (outEdges0_bound component component [] (by
        intro k2 v2 hk2
        simp [alGet, List.find?] at hk2)) k w hw x hxw

theorem enum_fst_lt {α : Type} (l : List α) : ∀ p ∈ l.enum, p.1 < l.length := by
  intro p hp
  rw [List.enum_eq_zip_range] at hp
  have := List.of_mem_zip hp
  exact List.mem_range.mp this.1

theorem bdfStep_bound (n : Nat) :
    ∀ (ps : List (Nat × GraphNode)) (m : List (String × List Nat)),
      (∀ p ∈ ps, p.1 < n) →
      (∀ k v, alGet m k = some v → ∀ x ∈ v, x < n) →
      ∀ k v, alGet (ps.foldl bdfStep m) k = some v → ∀ x ∈ v, x < n := by
  intro ps
  induction ps with
  | nil =>
      intro m _ h
      exact h
  | cons p rest ih =>
      intro m hps h
      rw [List.foldl_cons]
      refine ih _ (fun q hq => hps q (List.mem_cons_of_mem _ hq)) ?_
      unfold bdfStep
      split
      · dsimp only
        intro k v hk x hx
        rw [alGet_alSet] at hk
        split at hk
        · have hv : v = (alGet m (p.2.filePath ++ "|" ++
              (p.2.definitionName.getD ""))).getD [] ++ [p.1] :=
            (Option.some.inj hk).symm
          subst hv
          rcases List.mem_append.mp hx with h1 | h1
          · cases hget : alGet m (p.2.filePath ++ "|" ++
                (p.2.definitionName.getD "")) with
            | none =>
                rw [hget] at h1
                simp at h1
            | some w =>
                rw [hget] at h1
                exact h _ w hget x h1
          · have hxp : x = p.1 := by simpa using h1
            subst hxp
            exact hps p (List.mem_cons_self _ _)
        · exact h k v hk x hx
      · exact h

theorem buildDefByFileAndName_bound (nodes : List GraphNode) :
    ∀ k v, alGet (buildDefByFileAndName nodes) k = some v →
      ∀ x ∈ v, x < nodes.length := by
  unfold buildDefByFileAndName
  exact bdfStep_bound nodes.length nodes.enum [] (enum_fst_lt nodes) (by
    intro k v hk
    simp [alGet, List.find?] at hk)

theorem alSet_setAdd_bound (n : Nat) (m : List (Nat × List Nat)) (a b : Nat)
    (hb : b < n)
    (h : ∀ k v, alGet m k = some v → ∀ x ∈ v, x < n) :
    ∀ k v, alGet (alSet m a (setAdd ((alGet m a).getD []) b)) k = some v →
      ∀ x ∈ v, x < n := by
  intro k v hk x hx
  rw [alGet_alSet] at hk
  split at hk
  · have hv : v = setAdd ((alGet m a).getD []) b := (Option.some.inj hk).symm
    subst hv
    rcases setAdd_mem _ _ _ hx with hmem | hxb
    · cases hga : alGet m a with
      | none =>
          rw [hga] at hmem
          simp at hmem
      | some w =>
          rw [hga] at hmem
          exact h a w hga x hmem
    · subst hxb
      exact hb
  · exact h k v hk x hx

theorem addUndirected_bound (n : Nat) (und : List (Nat × List Nat)) (a b : Nat)
    (ha : a < n) (hb : b < n)
    (h : ∀ k v, alGet und k = some v → ∀ x ∈ v, x < n) :
    ∀ k v, alGet (addUndirected und a b) k = some v → ∀ x ∈ v, x < n := by
  unfold addUndirected
  dsimp only
  exact alSet_setAdd_bound n _ b a ha (alSet_setAdd_bound n und a b hb h)

theorem boeLookupFold_bound (n : Nat) (dbf : List (String × List Nat))
    (hdbf : ∀ k v, alGet dbf k = some v → ∀ x ∈ v, x < n) (fp : String) :
    ∀ (names : List String) (init : List Nat), (∀ x ∈ init, x < n) →
      ∀ x ∈ boeLookupFold dbf fp init names, x < n := by
  intro names
  induction names with
  | nil =>
      intro init h
      exact h
  | cons nm rest ih =>
      intro init h
      unfold boeLookupFold
      rw [List.foldl_cons]
      refine ih _ ?_
      intro x hx
      rcases List.mem_append.mp hx with h1 | h1
      · exact h x h1
      · unfold lookupDefs at h1
        cases hget : alGet dbf (fp ++ "|" ++ nm) with
        | none =>
            rw [hget] at h1
            simp at h1
        | some w =>
            rw [hget] at h1
            exact hdbf _ w hget x h1

theorem boeLink1_bound (n : Nat) (opId : Nat) (hop : opId < n) :
    ∀ (defIds : List Nat)
      (acc : List (Nat × List Nat) × List (Nat × List Nat)),
      (∀ x ∈ defIds, x < n) →
      (∀ k v, alGet acc.2 k = some v → ∀ x ∈ v, x < n) →
      ∀ k v, alGet ((defIds.foldl (boeLink1 opId) acc).2) k = some v →
        ∀ x ∈ v, x < n := by
  intro defIds
  induction defIds with
  | nil =>
      intro acc _ h
      exact h
  | cons d rest ih =>
      intro acc hds h
      rw [List.foldl_cons]
      refine ih _ (fun x hx => hds x (List.mem_cons_of_mem _ hx)) ?_
      unfold boeLink1
      split
      · exact h
      · exact addUndirected_bound n acc.2 d opId
          (hds d (List.mem_cons_self _ _)) hop h

theorem boeLink2_bound (n : Nat) (opId : Nat) (hop : opId < n) :
    ∀ (defIds : List Nat)
      (acc : List (Nat × List Nat) × List (Nat × List Nat)),
      (∀ x ∈ defIds, x < n) →
      (∀ k v, alGet acc.2 k = some v → ∀ x ∈ v, x < n) →
      ∀ k v, alGet ((defIds.foldl (boeLink2 opId) acc).2) k = some v →
        ∀ x ∈ v, x < n := by
  intro defIds
  induction defIds with
  | nil =>
      intro acc _ h
      exact h
  | cons d rest ih =>
      intro acc hds h
      rw [List.foldl_cons]
      refine ih _ (fun x hx => hds x (List.mem_cons_of_mem _ hx)) ?_
      unfold boeLink2
      exact addUndirected_bound n acc.2 opId d hop
        (hds d (List.mem_cons_self _ _)) h

theorem boeStep_bound (n : Nat) (dbf : List (String × List Nat))
    (hdbf : ∀ k v, alGet dbf k = some v → ∀ x ∈ v, x < n) :
    ∀ (ps : List (Nat × GraphNode))
      (acc : List (Nat × List Nat) × List (Nat × List Nat)),
      (∀ p ∈ ps, p.1 < n) →
      (∀ k v, alGet acc.2 k = some v → ∀ x ∈ v, x < n) →
      ∀ k v, alGet ((ps.foldl (boeStep dbf) acc).2) k = some v →
        ∀ x ∈ v, x < n := by
  intro ps
  induction ps with
  | nil =>
      intro acc _ h
      exact h
  | cons p rest ih =>
      intro acc hps h
      rw [List.foldl_cons]
      refine ih _ (fun q hq => hps q (List.mem_cons_of_mem _ hq)) ?_
      have hop : p.1 < n := hps p (List.mem_cons_self _ _)
      unfold boeStep
      dsimp only
      split
      · exact boeLink1_bound n p.1 hop _ acc
          (boeLookupFold_bound n dbf hdbf _ _ [] (by simp)) h
      · split
        · exact h
        · exact boeLink2_bound n p.1 hop _ acc
            (boeLookupFold_bound n dbf hdbf _ _ _
              (boeLookupFold_bound n dbf hdbf _ _ [] (by simp))) h

theorem buildOrderEdges_und_bound (nodes : List GraphNode)
    (dbf : List (String × List Nat))
    (hdbf : ∀ k v, alGet dbf k = some v → ∀ x ∈ v, x < nodes.length) :
    ∀ k v, alGet ((buildOrderEdges nodes dbf).2) k = some v →
      ∀ x ∈ v, x < nodes.length := by
  unfold buildOrderEdges
  exact boeStep_bound nodes.length dbf hdbf nodes.enum ([], [])
    (enum_fst_lt nodes) (by
      intro k v hk
      simp [alGet, List.find?] at hk)

theorem buildComponents_perm (n : Nat) (und : List (Nat × List Nat))
    (hund : ∀ k v, alGet und k = some v → ∀ x ∈ v, x < n) :
    (buildComponents n und).flatten.Perm (List.range n) ∧
    ∀ c ∈ buildComponents n und, c.Nodup := by
  unfold buildComponents
  have key : ∀ (is : List Nat) (acc : List (List Nat) × List Nat),
      (∀ i ∈ is, i < n) →
      acc.2.Perm acc.1.flatten → acc.2.Nodup → (∀ x ∈ acc.2, x < n) →
      (∀ c ∈ acc.1, c.Nodup) →
      (is.foldl (bcStep und (n + 1 + alValuesLength und)) acc).2.Perm
        (is.foldl (bcStep und (n + 1 + alValuesLength und)) acc).1.flatten ∧
      (is.foldl (bcStep und (n + 1 + alValuesLength und)) acc).2.Nodup ∧
      (∀ x ∈ (is.foldl (bcStep und (n + 1 + alValuesLength und)) acc).2, x < n) ∧
      (∀ x ∈ acc.2, x ∈ (is.foldl (bcStep und (n + 1 + alValuesLength und)) acc).2) ∧
      (∀ i ∈ is, i ∈ (is.foldl (bcStep und (n + 1 + alValuesLength und)) acc).2) ∧
      (∀ c ∈ (is.foldl (bcStep und (n + 1 + alValuesLength und)) acc).1, c.Nodup) := by
    intro is
    induction is with
    | nil =>
        intro acc _ h1 h2 h3 h4
        exact ⟨h1, h2, h3, fun x hx => hx, by simp, h4⟩
    | cons i rest ih =>
        intro acc his h1 h2 h3 h4
        rw [List.foldl_cons]
        by_cases hi : i ∈ acc.2
        · have hstep : bcStep und (n + 1 + alValuesLength und) acc i = acc := by
            unfold bcStep
            rw [if_pos hi]
          rw [hstep]
          obtain ⟨g1, g2, g3, g4, g5, g6⟩ := ih acc
            (fun j hj => his j (List.mem_cons_of_mem _ hj)) h1 h2 h3 h4
          refine ⟨g1, g2, g3, g4, ?_, g6⟩
          intro j hj
          rcases List.mem_cons.mp hj with rfl | hj2
          · exact g4 j hi
          · exact g5 j hj2
        · have hstep : bcStep und (n + 1 + alValuesLength und) acc i =
              (acc.1 ++ [(dfsLoop und (n + 1 + alValuesLength und) [i] []
                 (acc.2 ++ [i])).1],
               (dfsLoop und (n + 1 + alValuesLength und) [i] [] (acc.2 ++ [i])).2) := by
            unfold bcStep
            rw [if_neg hi]
          rw [hstep]
          have hin : i < n := his i (List.mem_cons_self _ _)
          have hnd2 : (acc.2 ++ [i]).Nodup := by
            refine List.Nodup.append h2 (List.nodup_singleton _) ?_
            intro a ha hbm
            have hai : a = i := by simpa using hbm
            subst hai
            exact hi ha
          have hb2 : ∀ x ∈ acc.2 ++ [i], x < n := by
            intro x hx
            rcases List.mem_append.mp hx with hx1 | hx1
            · exact h3 x hx1
            · have hxi : x = i := by simpa using hx1
              subst hxi
              exact hin
          obtain ⟨dA, dB, dC, dD⟩ := dfsLoop_main und n hund
            (n + 1 + alValuesLength und) [i] [] (acc.2 ++ [i]) acc.2
            (by simpa using List.Perm.refl (acc.2 ++ [i])) hnd2 hb2 (by
              simp only [List.length_cons, List.length_nil]
              omega)
          obtain ⟨g1, g2, g3, g4, g5, g6⟩ := ih
            (acc.1 ++ [(dfsLoop und (n + 1 + alValuesLength und) [i] []
               (acc.2 ++ [i])).1],
             (dfsLoop und (n + 1 + alValuesLength und) [i] [] (acc.2 ++ [i])).2)
            (fun j hj => his j (List.mem_cons_of_mem _ hj))
            (by
              dsimp only
              rw [List.flatten_append]
              refine dA.trans ?_
              have hsing : ([(dfsLoop und (n + 1 + alValuesLength und) [i] []
                  (acc.2 ++ [i])).1]).flatten =
                  (dfsLoop und (n + 1 + alValuesLength und) [i] []
                    (acc.2 ++ [i])).1 := by
                simp
              rw [hsing]
              exact h1.append_right _)
            dB dC
            (by
              dsimp only
              intro c hc
              rcases List.mem_append.mp hc with hc1 | hc1
              · exact h4 c hc1
              · have hcc : c = (dfsLoop und (n + 1 + alValuesLength und) [i] []
                    (acc.2 ++ [i])).1 := by simpa using hc1
                subst hcc
                exact ((dA.nodup_iff).mp dB).of_append_right)
          refine ⟨g1, g2, g3, ?_, ?_, g6⟩
          · intro x hx
            exact g4 x (dD x (List.mem_append_left _ hx))
          · intro j hj
            rcases List.mem_cons.mp hj with rfl | hj2
            · exact g4 j (dD j (List.mem_append_right _ (List.mem_singleton.mpr rfl)))
            · exact g5 j hj2
  obtain ⟨g1, g2, g3, g4, g5, g6⟩ := key (List.range n) ([], [])
    (fun i hi => List.mem_range.mp hi)
    (by simpa using List.Perm.refl ([] : List Nat))
    List.Pairwise.nil (by simp) (by simp)
  refine ⟨?_, g6⟩
  refine g1.symm.trans ?_
  rw [List.perm_ext_iff_of_nodup g2 (List.nodup_range n)]
  intro a
  constructor
  · intro ha
    exact List.mem_range.mpr (g3 a ha)
  · intro ha
    exact g5 a ha

theorem perm_flatMap {α β : Type} (f : α → List β) :
    ∀ {l1 l2 : List α}, l1.Perm l2 → (l1.flatMap f).Perm (l2.flatMap f) := by
  intro l1 l2 p
  induction p with
  | nil => exact List.Perm.refl _
  | cons x _ ih =>
      rw [List.flatMap_cons, List.flatMap_cons]
      exact List.Perm.append_left _ ih
  | swap x y l =>
      rw [List.flatMap_cons, List.flatMap_cons, List.flatMap_cons, List.flatMap_cons]
      have h1 : f y ++ (f x ++ l.flatMap f) = (f y ++ f x) ++ l.flatMap f := by simp
      have h2 : f x ++ (f y ++ l.flatMap f) = (f x ++ f y) ++ l.flatMap f := by simp
      rw [h1, h2]
      exact List.Perm.append_right _ List.perm_append_comm
  | trans _ _ ih1 ih2 => exact ih1.trans ih2

theorem flatMap_perm_congr {α β : Type} :
    ∀ (l : List α) (f g : α → List β),
      (∀ x ∈ l, (f x).Perm (g x)) → (l.flatMap f).Perm (l.flatMap g) := by
  intro l
  induction l with
  | nil =>
      intro f g _
      exact List.Perm.refl _
  | cons a as ih =>
      intro f g h
      rw [List.flatMap_cons, List.flatMap_cons]
      exact (h a (List.mem_cons_self _ _)).append
        (ih f g (fun x hx => h x (List.mem_cons_of_mem _ hx)))

theorem flatMap_map_eq {α β : Type} (L : List (List α)) (f : α → β) :
    L.flatMap (fun c => c.map f) = L.flatten.map f := by
  induction L with
  | nil => rfl
  | cons c cs ih => simp [List.flatMap_cons, List.flatten_cons, ih]

theorem range_map_node_step (ns : List TourStep) :
    (List.range (ns.map mkGraphNode).length).map
      (fun id => ((ns.map mkGraphNode).getD id dummyNode).step) = ns := by
  apply List.ext_getElem
  · simp
  · intro i h1 h2
    rw [List.getElem_map, List.getElem_range]
    rw [List.getD_eq_getElem _ _ (by simpa using h2), List.getElem_map]
    rfl

theorem orderByGraph_perm (bfsFuel : Nat) (ns : List TourStep) :
    (orderByGraph bfsFuel ns).Perm ns := by
  unfold orderByGraph
  dsimp only
  have hdbf := buildDefByFileAndName_bound (ns.map mkGraphNode)
  have hund := buildOrderEdges_und_bound (ns.map mkGraphNode) _ hdbf
  obtain ⟨hflat, hcnd⟩ := buildComponents_perm (ns.map mkGraphNode).length _ hund
  refine (perm_flatMap _ (jsSortBy_perm _ _)).trans ?_
  refine (flatMap_perm_congr _ _
    (fun component => component.map (fun nodeId =>
      ((ns.map mkGraphNode).getD nodeId dummyNode).step)) ?_).trans ?_
  · intro comp hc
    exact (orderComponent_perm bfsFuel _ comp _ (hcnd comp hc)).map _
  · rw [flatMap_map_eq]
    refine (hflat.map _).trans ?_
    rw [range_map_node_step]

theorem reorderMainSteps_perm (bfsFuel : Nat) (steps : List TourStep) :
    (reorderMainSteps bfsFuel steps).Perm steps := by
  unfold reorderMainSteps
  dsimp only
  refine ((jsSortBy_perm _ _).append (orderByGraph_perm _ _)).trans ?_
  exact List.filter_append_perm _ steps

/-- C8, amended: the ordering is not a pure function of the step graph
(shuffling tied steps shuffles the output), but it always emits a
permutation of its input — no step is dropped or duplicated — so any two
input shuffles still produce outputs that are permutations of each
other. -/
theorem c8_order_amended (bfsFuel : Nat) (steps1 steps2 : List TourStep)
    (h : steps1.Perm steps2) :
    (reorderMainSteps bfsFuel steps1).Perm steps1 ∧
    (reorderMainSteps bfsFuel steps1).Perm (reorderMainSteps bfsFuel steps2) :=
  ⟨reorderMainSteps_perm _ _,
   (reorderMainSteps_perm _ _).trans
     (h.trans (reorderMainSteps_perm _ _).symm)⟩

theorem c8_order_amended_witness :
    (reorderMainSteps 1000 [tieStepA, tieStepB]).Perm [tieStepA, tieStepB] ∧
    (reorderMainSteps 1000 [tieStepA, tieStepB]).Perm
      (reorderMainSteps 1000 [tieStepB, tieStepA]) :=
  c8_order_amended 1000 [tieStepA, tieStepB] [tieStepB, tieStepA]
    (List.Perm.swap tieStepB tieStepA [])

/-! ### C3 support: the operational groups partition their lines -/

theorem flatten_groupContiguousGo :
    ∀ (l : List Nat) (prev : Nat) (current : List Nat),
      (groupContiguousGo l prev current).flatten = current ++ l := by
  intro l
  induction l with
  | nil =>
      intro prev current
      simp [groupContiguousGo]
  | cons v rest ih =>
      intro prev current
      unfold groupContiguousGo
      split
      · rw [ih]
        simp
      · rw [List.flatten_cons, ih]
        simp

theorem flatten_groupContiguousLines (l : List Nat) :
    (groupContiguousLines l).flatten = l := by
  cases l with
  | nil => rfl
  | cons n rest =>
      unfold groupContiguousLines
      rw [flatten_groupContiguousGo]
      rfl

theorem flatten_nodup_pairwise {α : Type} :
    ∀ L : List (List α), L.flatten.Nodup →
      List.Pairwise (fun g h => ∀ x ∈ g, ∀ y ∈ h, x ≠ y) L := by
  intro L
  induction L with
  | nil =>
      intro _
      exact List.Pairwise.nil
  | cons g gs ih =>
      intro h
      rw [List.flatten_cons, List.nodup_append] at h
      rw [List.pairwise_cons]
      constructor
      · intro h2 hh x hx y hy hxy
        subst hxy
        exact h.2.2 hx (List.mem_flatten.mpr ⟨h2, hh, hy⟩)
      · exact ih h.2.1

/-- C3, amended: the added lines the splitter assigns to its operation
units — the contiguous operational groups — are a partition: together
they are exactly the meaningful added lines claimed by no detected
definition (neither starting one nor inside one's range), they are
pairwise disjoint, and none lies in any definition hit's range.  (The
definition units' claimed ranges, by contrast, may overlap for nested
definitions and include non-meaningful lines, as the counterexample
shows.) -/
theorem c3_partition_amended (getAnalysis : String → FileAnalysis)
    (readFile : String → Option String) (root : String) (unit : ChangeUnit)
    (hnodup : ((collectAddedLines unit.diffText).map (·.lineNumber)).Nodup) :
    (splitOperationalGroups getAnalysis readFile root unit).flatten.Perm
      (((collectAddedLines unit.diffText).filter (fun line =>
        line.lineNumber ∉ (splitDefinitions getAnalysis readFile root unit).map
          (·.lineNumber) &&
        !(((splitDefinitions getAnalysis readFile root unit).map (·.range)).any
          (fun range => isWithinRange range line.lineNumber)) &&
        isMeaningfulAddedLine line.text (detectLanguageFromPath unit.filePath))).map
        (·.lineNumber)) ∧
    List.Pairwise (fun g h => ∀ x ∈ g, ∀ y ∈ h, x ≠ y)
      (splitOperationalGroups getAnalysis readFile root unit) ∧
    (∀ g ∈ splitOperationalGroups getAnalysis readFile root unit, ∀ x ∈ g,
      ∀ d ∈ splitDefinitions getAnalysis readFile root unit,
        isWithinRange d.range x = false) := by
  have hflat : (splitOperationalGroups getAnalysis readFile root unit).flatten =
      splitOperationalLineNumbers getAnalysis readFile root unit := by
    unfold splitOperationalGroups
    exact flatten_groupContiguousLines _
  have hperm : (splitOperationalLineNumbers getAnalysis readFile root unit).Perm
      (((collectAddedLines unit.diffText).filter (fun line =>
        line.lineNumber ∉ (splitDefinitions getAnalysis readFile root unit).map
          (·.lineNumber) &&
        !(((splitDefinitions getAnalysis readFile root unit).map (·.range)).any
          (fun range => isWithinRange range line.lineNumber)) &&
        isMeaningfulAddedLine line.text (detectLanguageFromPath unit.filePath))).map
        (·.lineNumber)) := by
    unfold splitOperationalLineNumbers
    dsimp only
    exact jsSortBy_perm _ _
  have hnodup2 : ((((collectAddedLines unit.diffText).filter (fun line =>
      line.lineNumber ∉ (splitDefinitions getAnalysis readFile root unit).map
        (·.lineNumber) &&
      !(((splitDefinitions getAnalysis readFile root unit).map (·.range)).any
        (fun range => isWithinRange range line.lineNumber)) &&
      isMeaningfulAddedLine line.text (detectLanguageFromPath unit.filePath))).map
      (·.lineNumber))).Nodup :=
    List.Sublist.nodup ((List.filter_sublist _).map _) hnodup
  refine ⟨?_, ?_, ?_⟩
  · rw [hflat]
    exact hperm
  · apply flatten_nodup_pairwise
    rw [hflat]
    exact (hperm.nodup_iff).mpr hnodup2
  · intro g hg x hx d hd
    have hxf : x ∈ (splitOperationalGroups getAnalysis readFile root unit).flatten :=
      List.mem_flatten.mpr ⟨g, hg, hx⟩
    rw [hflat] at hxf
    obtain ⟨line, hline, hlx⟩ := List.mem_map.mp (hperm.mem_iff.mp hxf)
    have hpred := List.of_mem_filter hline
    obtain ⟨hAB, hC⟩ := Bool.and_eq_true_iff.mp hpred
    obtain ⟨hA, hBnot⟩ := Bool.and_eq_true_iff.mp hAB
    have hB : (((splitDefinitions getAnalysis readFile root unit).map (·.range)).any
        (fun range => isWithinRange range line.lineNumber)) = false := by
      cases hx2 : (((splitDefinitions getAnalysis readFile root unit).map
          (·.range)).any (fun range => isWithinRange range line.lineNumber))
      · rfl
      · rw [hx2] at hBnot
        cases hBnot
    rw [← hlx]
    by_contra hcon
    have hw : isWithinRange d.range line.lineNumber = true := by
      cases hw2 : isWithinRange d.range line.lineNumber
      · exact absurd hw2 hcon
      · rfl
    have hany : (((splitDefinitions getAnalysis readFile root unit).map
        (·.range)).any (fun range => isWithinRange range line.lineNumber)) = true := by
      rw [List.any_eq_true]
      exact ⟨d.range, List.mem_map.mpr ⟨d, hd, rfl⟩, hw⟩
    rw [hB] at hany
    cases hany

theorem c3_partition_amended_witness :
    List.Pairwise (fun g h => ∀ x ∈ g, ∀ y ∈ h, x ≠ y)
      (splitOperationalGroups c3getAnalysis noRead "/w" c3raw) :=
  (c3_partition_amended c3getAnalysis noRead "/w" c3raw (by decide)).2.1

theorem c4_comment_hunk_amended_witness :
    splitOneUnit (fun _ => emptyFileAnalysis) noRead "/w" c4raw =
      [mkOperationUnit c4raw c4raw.range c4raw.diffText (classifyChange c4raw.diffText)
        (findEnclosingDefinition (some Language.typescript)
          emptyFileAnalysis.definitions c4raw.range.startLine
          (splitSourceText (fun _ => emptyFileAnalysis) noRead "/w" c4raw))] :=
  c4_comment_hunk_amended (fun _ => emptyFileAnalysis) noRead "/w" c4raw
    Language.typescript (by decide) (by decide) (by decide)

end Mentor
